import Mathlib

/-! # BatchSession: macro-file reader of nexus

A shallow embedding of `source/base/BatchSession.cc`: the free function
`Tokenize`, and the member functions `ReadCommand`, `ExecCommand` and
`SessionStart` of `BatchSession`, followed by theorems about them.

Conventions of the embedding.

* `G4String` (a `std::string`) is a list of characters.
* A `size_type` position is an `Option Nat`; `none` stands for
  `G4String::npos`.  The source never does arithmetic on `npos` except in
  `pos - pos0`, whose only use is as the count of `substr`.
* The input file stream is its unread characters and the two state bits the
  source looks at (`eofbit`, `failbit`).
* Calls into Geant4 that the source only observes through their result
  (`ApplyCommand`, `G4Exception`, `G4cout`, `G4cerr`) are recorded as events
  of a trace.
-/

namespace BatchSession

/-! ## Strings -/

/-- A `G4String`: the characters of a `std::string`, in order. -/
abbrev G4String := List Char

/-- A `G4String::size_type` value; `none` is `G4String::npos`. -/
abbrev SizeType := Option Nat

/-- The double quote character. -/
def DQUOTE : Char := Char.ofNat 34

/-- The single quote character. -/
def SQUOTE : Char := Char.ofNat 39

/-- The backslash character. -/
def BACKSLASH : Char := Char.ofNat 92

/-- The horizontal tab character. -/
def TAB : Char := Char.ofNat 9

/-- The line feed character, the delimiter of `getline`. -/
def NEWLINE : Char := Char.ofNat 10

/-- The NUL character, the terminator of a C string. -/
def NUL : Char := Char.ofNat 0

/-- The constant `ctrM = 0x0d` of `ReadCommand`. -/
def ctrM : Char := Char.ofNat 13

/-- Index of the first element of `l` satisfying `p`, counted from `base`. -/
def findIdxFrom (p : Char → Bool) : List Char → Nat → Option Nat
  | [], _ => none
  | c :: cs, base => if p c then some base else findIdxFrom p cs (base + 1)

/-- The call `str.find_first_of(chars, pos)`: the first position at or after `pos`
holding a character of `chars`, `npos` if there is none (also when `pos` is
`npos` or past the end). -/
def find_first_of (str : G4String) (chars : List Char) (pos : SizeType) : SizeType :=
  match pos with
  | none => none
  | some k => findIdxFrom (fun c => chars.contains c) (str.drop k) k

/-- The call `str.find_first_not_of(chars, pos)`: the first position at or after
`pos` holding a character not in `chars`, `npos` if there is none. -/
def find_first_not_of (str : G4String) (chars : List Char) (pos : SizeType) : SizeType :=
  match pos with
  | none => none
  | some k => findIdxFrom (fun c => !chars.contains c) (str.drop k) k

/-- The read `str[pos]`; `none` when `pos` is not an index of `str` (for
`pos = str.size()` the source reads the terminating NUL, which compares unequal
to every character the source tests for). -/
def charAt (str : G4String) (pos : SizeType) : Option Char :=
  match pos with
  | none => none
  | some k => str.get? k

/-- The call `str.substr(pos0, pos - pos0)`.  The count is computed in
`size_type`: with `pos = npos`, or with `pos < pos0` (wrap-around), it is at
least the number of characters left, so the substring runs to the end. -/
def substr (str : G4String) (pos0 pos : SizeType) : G4String :=
  match pos0, pos with
  | none, _ => []
  | some a, none => str.drop a
  | some a, some b => if a ≤ b then (str.drop a).take (b - a) else str.drop a

/-! ## Tokenize -/

/-- The local `delimiter` of `Tokenize`. -/
def delimiter : List Char := [' ']

/-- The variables of `Tokenize` that its loop updates. -/
structure TokState where
  pos0 : SizeType
  pos : SizeType
  tokens : List G4String
deriving DecidableEq, Repr

/-- State of `Tokenize` on reaching its `while` for the first time. -/
def Tokenize_init (str : G4String) (tokens : List G4String) : TokState :=
  let pos0 := find_first_not_of str delimiter (some 0)
  { pos0 := pos0, pos := find_first_of str delimiter pos0, tokens := tokens }

/-- The condition of the `while` of `Tokenize`. -/
def Tokenize_cond (st : TokState) : Bool :=
  st.pos.isSome || st.pos0.isSome

/-- The effect of `pos = str.find_first_of(q, pos0+1); if (pos != npos) pos++;`. -/
def closingQuote (str : G4String) (q : Char) (pos0 : SizeType) : SizeType :=
  (find_first_of str [q] (pos0.map (· + 1))).map (· + 1)

/-- One execution of the body of the `while` of `Tokenize`. -/
def Tokenize_body (str : G4String) (st : TokState) : TokState :=
  let pos1 := if charAt str st.pos0 = some DQUOTE then closingQuote str DQUOTE st.pos0 else st.pos
  let pos2 := if charAt str st.pos0 = some SQUOTE then closingQuote str SQUOTE st.pos0 else pos1
  let tokens := st.tokens ++ [substr str st.pos0 pos2]
  let pos0 := find_first_not_of str delimiter pos2
  { pos0 := pos0, pos := find_first_of str delimiter pos0, tokens := tokens }

/-- The `while` of `Tokenize`, run for at most `fuel` iterations. -/
def Tokenize_loop (str : G4String) : Nat → TokState → TokState
  | 0, st => st
  | fuel + 1, st =>
    if Tokenize_cond st then Tokenize_loop str fuel (Tokenize_body str st) else st

/-- The function `Tokenize(str, tokens)`: the tokens of `str` appended to `tokens`.
Every iteration consumes at least one character, so `str.length + 1`
iterations are enough (see `Tokenize_halts`). -/
def Tokenize (str : G4String) (tokens : List G4String) : List G4String :=
  (Tokenize_loop str (str.length + 1) (Tokenize_init str tokens)).tokens

/-! ## The macro stream -/

/-- The member `macrostream_`: the characters of the file not yet extracted,
and the state bits of the stream that the source inspects. -/
structure IStream where
  rest : List Char
  eofbit : Bool
  failbit : Bool
deriving DecidableEq, Repr

/-- The call `macrostream_.good()`. -/
def IStream.good (s : IStream) : Bool := !s.eofbit && !s.failbit

/-- The call `macrostream_.eof()`. -/
def IStream.eof (s : IStream) : Bool := s.eofbit

/-- The extraction of `getline` with room for `room` more characters.  The stop
conditions are tested in the order of the C++ standard: end of file (eofbit),
the next character is the delimiter (extracted, not stored), the buffer is
full (failbit). -/
def getline_extract : List Char → Nat → List Char × IStream
  | [], _ => ([], { rest := [], eofbit := true, failbit := false })
  | c :: cs, room =>
    if c = NEWLINE then ([], { rest := cs, eofbit := false, failbit := false })
    else match room with
      | 0 => ([], { rest := c :: cs, eofbit := false, failbit := true })
      | room + 1 =>
        let r := getline_extract cs room
        (c :: r.1, r.2)

/-- The call `macrostream_.getline(linebuf, count)`: the characters stored and the
stream afterwards.  On a stream that is not good nothing is extracted and
failbit is set; failbit is also set when no character at all is extracted. -/
def getline (s : IStream) (count : Nat) : List Char × IStream :=
  if s.good then
    let r := getline_extract s.rest (count - 1)
    (r.1, { r.2 with failbit := r.2.failbit || s.rest.isEmpty })
  else ([], { s with failbit := true })

/-- The constant `BUFSIZE` of `ReadCommand`. -/
def BUFSIZE : Nat := 4096

/-- The construction `G4String cmdline(linebuf)` from a C string: the characters
before the first NUL. -/
def ofCString (buf : List Char) : G4String := buf.takeWhile (fun c => c != NUL)

/-- The loop `while ((nb = cmdline.find(TAB, nb)) != npos) cmdline.replace(nb, 1, " ")`:
every tab becomes one space. -/
def replaceTabs (cmdline : G4String) : G4String :=
  cmdline.map (fun c => if c = TAB then ' ' else c)

/-- Modelled from the spec: `G4StrUtil::lstrip` of Geant4 (not part of this
repository), which removes the leading run of the character `ch`. -/
def lstrip (str : G4String) (ch : Char) : G4String := str.dropWhile (fun c => c == ch)

/-- Modelled from the spec: `G4StrUtil::rstrip_copy` of Geant4 (not part of this
repository), which removes the trailing run of the character `ch`. -/
def rstrip_copy (str : G4String) (ch : Char) : G4String :=
  (str.reverse.dropWhile (fun c => c == ch)).reverse

/-- Modelled from the spec: `G4StrUtil::strip_copy` of Geant4 (not part of this
repository), which removes the leading and the trailing run of spaces. -/
def strip_copy (str : G4String) : G4String := rstrip_copy (lstrip str ' ') ' '

/-- Lines 84 to 94 of `ReadCommand`: the physical line in `linebuf` made into
`cmdline`, tabs replaced, spaces stripped, trailing carriage returns stripped. -/
def normalise (linebuf : List Char) : G4String :=
  rstrip_copy (strip_copy (replaceTabs (ofCString linebuf))) ctrM

/-! ## Events -/

/-- The severities of `G4Exception` that the source uses. -/
inductive G4ExceptionSeverity where
  | FatalException
  | JustWarning
deriving DecidableEq, Repr

/-- What the source asks of its collaborators, in the order it asks. -/
inductive Event where
  | exception (origin code : String) (severity : G4ExceptionSeverity) (description : G4String)
  | apply (command : G4String)
  | cout (text : G4String)
  | cerr (pn : Int) (command : G4String)
deriving DecidableEq, Repr

/-- The warning of `ReadCommand`. -/
def continuationWarning : Event :=
  Event.exception "[BatchSession]" "ReadCommand()" G4ExceptionSeverity.JustWarning
    "Unexpected character after line continuation character.".toList

/-! ## ReadCommand -/

/-- The `for` loop of `ReadCommand` over the tokens of one line, started at a
token with the tokens after it: the new `cmdtotal`, the new `qcontinued`, and
the warnings raised.  The list after the current token is empty exactly when
`i == tokens.size() - 1`. -/
def ReadCommand_scan : List G4String → G4String → G4String × Bool × List Event
  | [], cmdtotal => (cmdtotal, false, [])
  | t :: ts, cmdtotal =>
    if t.head? = some '#' then (cmdtotal, false, [])
    else if t.head? = some BACKSLASH ∨ t.head? = some '_' then
      (cmdtotal, true, if ts ≠ [] then [continuationWarning] else [])
    else ReadCommand_scan ts (cmdtotal ++ t ++ [' '])

/-- The variables of `ReadCommand` that its `while` updates, with the stream and
the events raised so far. -/
structure ReadState where
  cmdtotal : G4String
  qcontinued : Bool
  stream : IStream
  log : List Event
deriving DecidableEq, Repr

/-- How one execution of the body of the `while` of `ReadCommand` ends. -/
inductive Flow where
  | next
  | stop
  | ret (value : G4String)
deriving DecidableEq, Repr

/-- Lines 97 to 127 of `ReadCommand`: what the body of the `while` does with the
normalised line `cmdline`, given the current `cmdtotal` and `qcontinued` and
the value of `macrostream_.eof()` after the `getline`: how the iteration
ends, the new `cmdtotal`, the new `qcontinued`, and the warnings raised. -/
def ReadCommand_process (cmdtotal : G4String) (qcontinued : Bool) (cmdline : G4String)
    (eof : Bool) : Flow × G4String × Bool × List Event :=
  if !qcontinued && cmdline.length == 0 then (Flow.next, cmdtotal, qcontinued, [])
  else if cmdline.head? = some '#' then (Flow.ret cmdline, cmdtotal, qcontinued, [])
  else
    let sc := ReadCommand_scan (Tokenize cmdline []) cmdtotal
    if sc.2.1 then (Flow.next, sc)
    else if sc.1.length != 0 then (Flow.stop, sc)
    else if eof then (Flow.stop, sc)
    else (Flow.next, sc)

/-- One execution of the body of the `while` of `ReadCommand`. -/
def ReadCommand_body (st : ReadState) : Flow × ReadState :=
  let r := getline st.stream BUFSIZE
  let p := ReadCommand_process st.cmdtotal st.qcontinued (normalise r.1) r.2.eof
  (p.1, { cmdtotal := p.2.1, qcontinued := p.2.2.1, stream := r.2, log := st.log ++ p.2.2.2 })

/-- The `while` of `ReadCommand`, run for at most `fuel` iterations: the value
returned from inside the loop, if any, and the state on leaving it. -/
def ReadCommand_loop : Nat → ReadState → Option G4String × ReadState
  | 0, st => (none, st)
  | fuel + 1, st =>
    if st.stream.good then
      match ReadCommand_body st with
      | (Flow.ret v, st1) => (some v, st1)
      | (Flow.stop, st1) => (none, st1)
      | (Flow.next, st1) => ReadCommand_loop fuel st1
    else (none, st)

/-- What a call of `ReadCommand` yields: its return value, the stream afterwards
and the warnings it raised. -/
structure ReadResult where
  value : G4String
  stream : IStream
  log : List Event
deriving DecidableEq, Repr

/-- The part of `ReadCommand` after its `while`. -/
def ReadCommand_finish (r : Option G4String × ReadState) : ReadResult :=
  match r.1 with
  | some v => { value := v, stream := r.2.stream, log := r.2.log }
  | none =>
    let cmdtotal := strip_copy r.2.cmdtotal
    if r.2.stream.eof && cmdtotal.length == 0 then
      { value := "exit".toList, stream := r.2.stream, log := r.2.log }
    else { value := cmdtotal, stream := r.2.stream, log := r.2.log }

/-- The member function `ReadCommand` on the stream `macrostream_`.  An iteration
that goes round again has extracted a character, so `rest.length + 1`
iterations are enough (see `ReadCommand_loop_fuel`). -/
def ReadCommand (macrostream_ : IStream) : ReadResult :=
  ReadCommand_finish
    (ReadCommand_loop (macrostream_.rest.length + 1)
      { cmdtotal := [], qcontinued := false, stream := macrostream_, log := [] })

/-- A stream just opened on a file with the given content. -/
def IStream.open (content : List Char) : IStream :=
  { rest := content, eofbit := false, failbit := false }

/-! ## ExecCommand -/

/-- The enumerators of `G4UIcommandStatus` (Geant4, not part of this repository)
that `ExecCommand` and `SessionStart` name; their values are parameters. -/
structure G4UIcommandStatus where
  fCommandSucceeded : Int
  fCommandNotFound : Int
  fIllegalApplicationState : Int
deriving DecidableEq, Repr

/-- The part of `G4UImanager` (Geant4, not part of this repository) that the source
calls, over a state `σ` of the executor: `ApplyCommand` returns a status code
and changes the state, `GetVerboseLevel` reads it. -/
structure G4UImanager (σ : Type) where
  ApplyCommand : σ → G4String → Int × σ
  GetVerboseLevel : σ → Int

/-- The case of the `switch` of `ExecCommand` that is taken; the default case
carries its local `pn`. -/
inductive DispatchStatus where
  | Succeeded
  | NotFound
  | IllegalState
  | IllegalParameter (pn : Int)
deriving DecidableEq, Repr

/-- The `switch (rc)` of `ExecCommand`: cases are tried in the order written, the
default case computes `pn = rc % 100` (the remainder of C++, truncated toward
zero). -/
def ExecCommand_switch (cs : G4UIcommandStatus) (rc : Int) : DispatchStatus :=
  if rc = cs.fCommandSucceeded then DispatchStatus.Succeeded
  else if rc = cs.fCommandNotFound then DispatchStatus.NotFound
  else if rc = cs.fIllegalApplicationState then DispatchStatus.IllegalState
  else DispatchStatus.IllegalParameter (Int.tmod rc 100)

/-- The fatal exception of `ExecCommand` with the given message prefix. -/
def execException (msg : String) (command : G4String) : Event :=
  Event.exception "[BatchSession]" "ExecCommand()" G4ExceptionSeverity.FatalException
    (msg.toList ++ command)

/-- What a call of `ExecCommand` yields: the value returned (`none` when a fatal
`G4Exception` ended the process), the state of the executor and the events of
the call. -/
structure ExecResult (σ : Type) where
  rc : Option Int
  ui : σ
  events : List Event

/-- The member function `ExecCommand`.  A `G4Exception` of severity
`FatalException` returns to its caller only when the installed handler
suppresses the abort; `fatalAborts` tells whether it aborts. -/
def ExecCommand {σ : Type} (UI : G4UImanager σ) (cs : G4UIcommandStatus) (fatalAborts : Bool)
    (ui : σ) (command : G4String) : ExecResult σ :=
  let a := UI.ApplyCommand ui command
  let rc := a.1
  let after : Option Int := if fatalAborts then none else some rc
  match ExecCommand_switch cs rc with
  | DispatchStatus.Succeeded =>
    { rc := some rc, ui := a.2, events := [Event.apply command] }
  | DispatchStatus.NotFound =>
    { rc := after, ui := a.2,
      events := [Event.apply command, execException "Command not found: " command] }
  | DispatchStatus.IllegalState =>
    { rc := after, ui := a.2,
      events := [Event.apply command, execException "Illegal application state: " command] }
  | DispatchStatus.IllegalParameter pn =>
    { rc := after, ui := a.2,
      events := [Event.apply command, execException "Illegal parameter: " command]
        ++ (if fatalAborts then [] else [Event.cerr pn command]) }

/-! ## The session -/

/-- A `G4UIsession*`: an address. -/
abbrev G4UIsessionPtr := Nat

/-- The data members of `BatchSession`, with the state of the executor the
session talks to. -/
structure Session (σ : Type) where
  opened_ : Bool
  prev_ : G4UIsessionPtr
  macrostream_ : IStream
  ui : σ

/-- The constructor `BatchSession(filename, previous_session)`.  The file system
is the function `file`, which gives the content of a file that can be opened.
The result is the session and the events raised, `none` for the session when
the fatal exception ended the process. -/
def BatchSession_new {σ : Type} (file : G4String → Option (List Char)) (fatalAborts : Bool)
    (ui : σ) (filename : G4String) (previous_session : G4UIsessionPtr) :
    Option (Session σ) × List Event :=
  match file filename with
  | none =>
    (if fatalAborts then none
     else some { opened_ := false, prev_ := previous_session,
                 macrostream_ := { rest := [], eofbit := false, failbit := true }, ui := ui },
     [Event.exception "[BatchSession]" "BatchSession()" G4ExceptionSeverity.FatalException
        ("Cannot open macro file ".toList ++ filename)])
  | some content =>
    (some { opened_ := true, prev_ := previous_session,
            macrostream_ := IStream.open content, ui := ui }, [])

/-- The warning of `SessionStart`. -/
def problemWarning : Event :=
  Event.exception "[BatchSession]" "SessionStart()" G4ExceptionSeverity.JustWarning
    "A problem occurred with the previous command. Keep reading the macro.".toList

/-- How a call of `SessionStart` ends. -/
inductive Outcome where
  | returned (session : G4UIsessionPtr)
  | aborted
deriving DecidableEq, Repr

/-- What a call of `SessionStart` yields: how it ended (`none` when the
iterations allowed were used up), the session afterwards and the events of the
call in order. -/
structure RunResult (σ : Type) where
  outcome : Option Outcome
  session : Session σ
  trace : List Event

/-- The `while(1)` of `SessionStart`, run for at most `fuel` iterations, with the
events raised before it in `trace`. -/
def SessionStart_loop {σ : Type} (UI : G4UImanager σ) (cs : G4UIcommandStatus)
    (fatalAborts : Bool) : Nat → Session σ → List Event → RunResult σ
  | 0, s, trace => { outcome := none, session := s, trace := trace }
  | fuel + 1, s, trace =>
    let r := ReadCommand s.macrostream_
    let s1 : Session σ := { s with macrostream_ := r.stream }
    let trace1 := trace ++ r.log
    if r.value = "exit".toList then
      { outcome := some (Outcome.returned s.prev_), session := s1, trace := trace1 }
    else if r.value.head? = some '#' then
      SessionStart_loop UI cs fatalAborts fuel s1
        (if UI.GetVerboseLevel s.ui = 2 then trace1 ++ [Event.cout r.value] else trace1)
    else
      let e := ExecCommand UI cs fatalAborts s.ui r.value
      let s2 : Session σ := { s1 with ui := e.ui }
      match e.rc with
      | none => { outcome := some Outcome.aborted, session := s2, trace := trace1 ++ e.events }
      | some rc =>
        SessionStart_loop UI cs fatalAborts fuel s2
          (if rc ≠ cs.fCommandSucceeded then trace1 ++ e.events ++ [problemWarning]
           else trace1 ++ e.events)

/-- The member function `SessionStart`, its loop run for at most `fuel`
iterations. -/
def SessionStart {σ : Type} (UI : G4UImanager σ) (cs : G4UIcommandStatus) (fatalAborts : Bool)
    (fuel : Nat) (s : Session σ) : RunResult σ :=
  if !s.opened_ then { outcome := some (Outcome.returned s.prev_), session := s, trace := [] }
  else SessionStart_loop UI cs fatalAborts fuel s []

/-- The commands passed to `ApplyCommand` in a trace, in order. -/
def dispatched : List Event → List G4String
  | [] => []
  | Event.apply c :: es => c :: dispatched es
  | _ :: es => dispatched es

/-! ## Tokenize on lists

The positions of `Tokenize` always point at the start of a token or at the
end of one, so the loop can be replayed on the characters that are left. -/

/-- The tokens of the characters `l`, by recursion on what is left of the string:
the list view of the loop of `Tokenize`, used to reason about it. -/
def tokensOf : Nat → List Char → List (List Char)
  | 0, _ => []
  | fuel + 1, l =>
    match l.dropWhile (fun c => c == ' ') with
    | [] => []
    | c :: r =>
      if c = DQUOTE ∨ c = SQUOTE then
        match r.dropWhile (fun x => x != c) with
        | [] => [c :: r]
        | _ :: r1 => (c :: (r.takeWhile (fun x => x != c) ++ [c])) :: tokensOf fuel r1
      else
        (c :: r.takeWhile (fun x => x != ' ')) :: tokensOf fuel (r.dropWhile (fun x => x != ' '))

/-- The state of `Tokenize` at the head of its loop when the previous token
ended at position `k`. -/
def headState (str : G4String) (k : Nat) (acc : List G4String) : TokState :=
  { pos0 := find_first_not_of str delimiter (some k),
    pos := find_first_of str delimiter (find_first_not_of str delimiter (some k)),
    tokens := acc }

/-- The characters the source tests for at the start of a token. -/
def isQuote (c : Char) : Prop := c = DQUOTE ∨ c = SQUOTE

instance (c : Char) : Decidable (isQuote c) := by unfold isQuote; infer_instance

/-- The ways a string can begin, as the loop of `Tokenize` sees it: only spaces;
spaces and a quote that is not closed; spaces and a quoted token; spaces and
a token that runs to the next space or to the end. -/
inductive Shape : List Char → Prop where
  | blank (sp : List Char) (hsp : ∀ x ∈ sp, x = ' ') : Shape sp
  | quoteOpen (sp : List Char) (q : Char) (r : List Char) (hsp : ∀ x ∈ sp, x = ' ')
      (hq : isQuote q) (hr : ∀ x ∈ r, x ≠ q) : Shape (sp ++ q :: r)
  | quoteClosed (sp : List Char) (q : Char) (m t : List Char) (hsp : ∀ x ∈ sp, x = ' ')
      (hq : isQuote q) (hm : ∀ x ∈ m, x ≠ q) : Shape (sp ++ q :: (m ++ q :: t))
  | plain (sp : List Char) (c : Char) (m t : List Char) (hsp : ∀ x ∈ sp, x = ' ')
      (hc : c ≠ ' ') (hq : ¬ isQuote c) (hm : ∀ x ∈ m, x ≠ ' ')
      (ht : ∀ x, t.head? = some x → x = ' ') : Shape (sp ++ c :: (m ++ t))

/-- The position `pos` that the body of `Tokenize` uses for its `substr`. -/
def tokenEnd (str : G4String) (st : TokState) : SizeType :=
  if charAt str st.pos0 = some SQUOTE then closingQuote str SQUOTE st.pos0
  else if charAt str st.pos0 = some DQUOTE then closingQuote str DQUOTE st.pos0
  else st.pos

/-! ## A tokenized line as the spec reads it -/

/-- Where a left-to-right reading of a string stands, in the words of the spec
for tokens: between tokens (at the start or in a run of spaces; `emitted` tells
whether a token came before), inside a token that did not begin with a quote,
inside a quoted substring opened by `q`, or right after a closing quote. -/
inductive ScanMode where
  | gap (emitted : Bool)
  | word
  | quoted (q : Char)
  | closed
deriving DecidableEq, Repr

/-- The mode after reading the character `c` in mode `m`.  A quote character
opens a quoted substring only where a token begins; the next occurrence of the
same character closes it. -/
def ScanMode.next (m : ScanMode) (c : Char) : ScanMode :=
  match m with
  | ScanMode.gap e => if c = ' ' then ScanMode.gap e else if isQuote c then ScanMode.quoted c
      else ScanMode.word
  | ScanMode.word => if c = ' ' then ScanMode.gap true else ScanMode.word
  | ScanMode.quoted q => if c = q then ScanMode.closed else ScanMode.quoted q
  | ScanMode.closed => if c = ' ' then ScanMode.gap true else if isQuote c then ScanMode.quoted c
      else ScanMode.word

/-- What reading the character `c` in mode `m` contributes to the collapsed
string: inside a quoted substring every character; outside, no space, and a
character that begins a token after an earlier one is preceded by the single
space that stands for the run of spaces before it. -/
def ScanMode.emit (m : ScanMode) (c : Char) : List Char :=
  match m with
  | ScanMode.gap e => if c = ' ' then [] else if e then [' ', c] else [c]
  | ScanMode.word => if c = ' ' then [] else [c]
  | ScanMode.quoted _ => [c]
  | ScanMode.closed => if c = ' ' then [] else [c]

/-- The string `l` read from mode `m` with every run of spaces outside quoted
substrings collapsed to a single space, and none kept at either end. -/
def collapseSpaces : ScanMode → List Char → List Char
  | _, [] => []
  | m, c :: cs => m.emit c ++ collapseSpaces (m.next c) cs

/-- The mode reached after reading all of `l` from mode `m`. -/
def modeAfter : ScanMode → List Char → ScanMode
  | m, [] => m
  | m, c :: cs => modeAfter (m.next c) cs

/-- Following the words of the spec (claim C4): the input with leading and
trailing spaces removed and every run of spaces outside quoted substrings
collapsed to a single space. -/
def spec_collapsed (str : G4String) : G4String :=
  collapseSpaces (ScanMode.gap false) (strip_copy str)

/-- No closing quote of `l`, read from mode `m`, has a character other than a
space right after it. -/
def separatedFrom : ScanMode → List Char → Bool
  | _, [] => true
  | m, c :: cs => !(m = ScanMode.closed ∧ c ≠ ' ') && separatedFrom (m.next c) cs

/-- Every closing quote of a quoted substring of `str` is followed by a space or
by the end of the string. -/
def quotesSeparated (str : G4String) : Bool := separatedFrom (ScanMode.gap false) str

/-- The string `str` ends with a space that lies inside a quoted substring that
is not closed. -/
def openQuoteEndsInSpace (str : G4String) : Bool :=
  match modeAfter (ScanMode.gap false) str with
  | ScanMode.quoted _ => str.getLast? == some ' '
  | _ => false

/-- The tokens `ts` joined by single spaces, after a space when `e` says that a
token came before and there is a token to join. -/
def joinAfter (e : Bool) (ts : List G4String) : List Char :=
  (if e ∧ ts ≠ [] then [' '] else []) ++ List.intercalate [' '] ts

/-- A quoted mode is entered only at a quote character. -/
def ScanMode.valid (m : ScanMode) : Prop := ∀ q, m = ScanMode.quoted q → isQuote q

/-- A call of `ReadCommand` taken up at the head of its loop in the state `st`. -/
def ReadCommand_from (st : ReadState) : ReadResult :=
  ReadCommand_finish (ReadCommand_loop (st.stream.rest.length + 1) st)

/-- What one iteration of the loop of `ReadCommand` on a good stream leads to. -/
def ReadCommand_after (r : Flow × ReadState) : ReadResult :=
  match r with
  | (Flow.ret v, st1) => { value := v, stream := st1.stream, log := st1.log }
  | (Flow.stop, st1) => ReadCommand_finish (none, st1)
  | (Flow.next, st1) => ReadCommand_from st1

/-- The state after the body of the loop of `ReadCommand` has dealt with a line. -/
def ReadState.after (log : List Event) (stream : IStream)
    (p : Flow × G4String × Bool × List Event) : Flow × ReadState :=
  (p.1, { cmdtotal := p.2.1, qcontinued := p.2.2.1, stream := stream, log := log ++ p.2.2.2 })

/-! ## The tokens of a line -/

/-- The token `t` begins with `#`: the test of line 109. -/
def isComment (t : G4String) : Prop := t.head? = some '#'

instance (t : G4String) : Decidable (isComment t) := by unfold isComment; infer_instance

/-- The token `t` begins with a backslash or an underscore: the test of line 111. -/
def isMarker (t : G4String) : Prop := t.head? = some BACKSLASH ∨ t.head? = some '_'

instance (t : G4String) : Decidable (isMarker t) := by unfold isMarker; infer_instance

/-- The string `cmdtotal` after `cmdtotal += t; cmdtotal += " "` for each of the
tokens `ts` in order. -/
def appendTokens (cmdtotal : G4String) (ts : List G4String) : G4String :=
  ts.foldl (fun acc t => acc ++ t ++ [' ']) cmdtotal

/-- Following the words of the spec (claim C14): the input split on the space
character with empty pieces removed, that is, its maximal runs of characters
other than the space, from left to right. -/
def spec_split (str : G4String) : List G4String :=
  (List.splitOn ' ' str).filter (fun t => !t.isEmpty)

/-- The lines `ls`, each followed by a line feed, and then `tail`: the content of a
stream whose next physical lines are `ls`. -/
def linesThen (ls : List (List Char)) (tail : List Char) : List Char :=
  ls.foldr (fun l acc => l ++ NEWLINE :: acc) tail

/-- A physical line that the buffer of `ReadCommand` holds: no line feed in it
and fewer than `BUFSIZE` characters. -/
def isLine (l : List Char) : Prop := (∀ x ∈ l, x ≠ NEWLINE) ∧ l.length < BUFSIZE

instance (l : List Char) : Decidable (isLine l) := by unfold isLine; infer_instance

/-- No token of `ts` begins with `#`, a backslash or an underscore. -/
def cleanTokens (ts : List G4String) : Prop := ∀ t ∈ ts, ¬ isComment t ∧ ¬ isMarker t

instance (ts : List G4String) : Decidable (cleanTokens ts) := by
  unfold cleanTokens; infer_instance

/-- The line `l` is continued: the tokens of its normalised form are `pre`, none
of which begins with `#`, a backslash or an underscore, and then, as last
token, one that begins with a backslash or an underscore. -/
def isContinued (l : List Char) (pre : List G4String) : Prop :=
  ∃ mk, isMarker mk ∧ Tokenize (normalise l) [] = pre ++ [mk] ∧ cleanTokens pre

/-- The values returned by successive calls of `ReadCommand` on a stream, up to
but not including the first `exit`; at most `n` calls are made. -/
def ReadCommand_values : Nat → IStream → List G4String
  | 0, _ => []
  | n + 1, s =>
    if (ReadCommand s).value = "exit".toList then []
    else (ReadCommand s).value :: ReadCommand_values n (ReadCommand s).stream

/-- One of the first `n` successive calls of `ReadCommand` on the stream returns
`exit`. -/
def reachesExit : Nat → IStream → Bool
  | 0, _ => false
  | n + 1, s =>
    decide ((ReadCommand s).value = "exit".toList) || reachesExit n (ReadCommand s).stream

/-- The value `v` returned by `ReadCommand` is not a comment: the test of line 184
fails. -/
def isCommand (v : G4String) : Bool := decide (v.head? ≠ some '#')

/-! ## Positions in a string -/

theorem findIdxFrom_eq (p : Char → Bool) (l : List Char) (base : Nat) :
    findIdxFrom p l base =
      if l.dropWhile (fun c => !p c) = [] then none
      else some (base + (l.takeWhile (fun c => !p c)).length) := by
  induction l generalizing base with
  | nil => simp [findIdxFrom]
  | cons c cs ih =>
    by_cases h : p c
    · simp [findIdxFrom, h]
    · simp only [findIdxFrom, h, Bool.false_eq_true, if_false, ih]
      simp [h]
      split <;> simp_all
      omega

theorem dquote_ne_squote : DQUOTE ≠ SQUOTE := by decide

theorem dquote_ne_space : DQUOTE ≠ ' ' := by decide

theorem squote_ne_space : SQUOTE ≠ ' ' := by decide

theorem contains_singleton (q c : Char) : [q].contains c = (c == q) := by
  simp only [List.contains, List.elem_cons, List.elem_nil]
  cases h : (c == q) <;> rfl

theorem find_first_of_append (u v : List Char) (q : Char) :
    find_first_of (u ++ v) [q] (some u.length) =
      if v.dropWhile (fun c => c != q) = [] then none
      else some (u.length + (v.takeWhile (fun c => c != q)).length) := by
  have hf : (fun c => !(fun c => [q].contains c) c) = fun c => c != q := by
    funext c; simp only [contains_singleton]; rfl
  simp only [find_first_of, List.drop_left, findIdxFrom_eq, hf]

theorem find_first_not_of_append (u v : List Char) (q : Char) :
    find_first_not_of (u ++ v) [q] (some u.length) =
      if v.dropWhile (fun c => c == q) = [] then none
      else some (u.length + (v.takeWhile (fun c => c == q)).length) := by
  have hf : (fun c => !(fun c => !([q].contains c)) c) = fun c => c == q := by
    funext c; simp only [contains_singleton, Bool.not_not]
  simp only [find_first_not_of, List.drop_left, findIdxFrom_eq, hf]

theorem charAt_append (u v : List Char) : charAt (u ++ v) (some u.length) = v.head? := by
  cases v with
  | nil => simp [charAt]
  | cons c r =>
    simp only [charAt, List.get?_eq_getElem?, List.head?_cons]
    rw [List.getElem?_append_right (le_refl _)]; simp

theorem substr_append_none (u v : List Char) : substr (u ++ v) (some u.length) none = v := by
  simp [substr]

theorem substr_append_some (u v w : List Char) :
    substr (u ++ (v ++ w)) (some u.length) (some (u.length + v.length)) = v := by
  simp [substr]

theorem headState_spaces (u v : List Char) (acc : List G4String)
    (h : v.dropWhile (fun c => c == ' ') = []) :
    headState (u ++ v) u.length acc = { pos0 := none, pos := none, tokens := acc } := by
  simp only [headState, delimiter, find_first_not_of_append, h, if_true]
  rfl

theorem headState_token (u v : List Char) (c : Char) (r : List Char) (acc : List G4String)
    (h : v.dropWhile (fun c => c == ' ') = c :: r) :
    headState (u ++ v) u.length acc =
      { pos0 := some (u ++ v.takeWhile (fun c => c == ' ')).length,
        pos := find_first_of (u ++ v) delimiter
          (some (u ++ v.takeWhile (fun c => c == ' ')).length),
        tokens := acc } := by
  simp only [headState, delimiter, find_first_not_of_append, h, List.length_append]
  simp

theorem headState_at (str u t : List Char) (k : Nat) (acc : List G4String)
    (hs : str = u ++ t) (hk : k = u.length) :
    headState str k acc = headState (u ++ t) u.length acc := by
  subst hs; subst hk; rfl

theorem split_while (p : Char → Bool) (l : List Char) :
    ∃ a b, l = a ++ b ∧ (∀ x ∈ a, p x = true) ∧ (∀ x, b.head? = some x → p x = false) ∧
      l.takeWhile p = a ∧ l.dropWhile p = b := by
  refine ⟨l.takeWhile p, l.dropWhile p, (List.takeWhile_append_dropWhile p l).symm,
    fun x hx => List.mem_takeWhile_imp hx, ?_, rfl, rfl⟩
  intro x hx
  have := List.head?_dropWhile_not p l
  rw [hx] at this
  exact this

theorem shape (v : List Char) : Shape v := by
  obtain ⟨sp, b, rfl, hsp, hb, -, -⟩ := split_while (fun c => c == ' ') v
  have hsp1 : ∀ x ∈ sp, x = ' ' := fun x hx => by simpa using hsp x hx
  cases b with
  | nil => simpa using Shape.blank sp hsp1
  | cons c r =>
    have hc : c ≠ ' ' := by simpa using hb c rfl
    by_cases hq : isQuote c
    · obtain ⟨m, t, rfl, hm, ht, -, -⟩ := split_while (fun x => x != c) r
      have hm1 : ∀ x ∈ m, x ≠ c := fun x hx => by simpa using hm x hx
      cases t with
      | nil => simpa using Shape.quoteOpen sp c m hsp1 hq hm1
      | cons d t =>
        have hd : d = c := by simpa using ht d rfl
        subst hd
        exact Shape.quoteClosed sp d m t hsp1 hq hm1
    · obtain ⟨m, t, rfl, hm, ht, -, -⟩ := split_while (fun x => x != ' ') r
      have hm1 : ∀ x ∈ m, x ≠ ' ' := fun x hx => by simpa using hm x hx
      exact Shape.plain sp c m t hsp1 hc hq hm1 (fun x hx => by simpa using ht x hx)

theorem takeWhile_stop (p : Char → Bool) (a t : List Char) (ha : ∀ x ∈ a, p x = true)
    (ht : ∀ x, t.head? = some x → p x = false) : (a ++ t).takeWhile p = a := by
  rw [List.takeWhile_append_of_pos ha]
  cases t with
  | nil => simp
  | cons c r => simp [ht c rfl]

theorem dropWhile_stop (p : Char → Bool) (a t : List Char) (ha : ∀ x ∈ a, p x = true)
    (ht : ∀ x, t.head? = some x → p x = false) : (a ++ t).dropWhile p = t := by
  rw [List.dropWhile_append_of_pos ha]
  cases t with
  | nil => simp
  | cons c r => simp [ht c rfl]

theorem spaces_pos (sp : List Char) (hsp : ∀ x ∈ sp, x = ' ') :
    ∀ x ∈ sp, (fun c : Char => c == ' ') x = true := fun x hx => by simp [hsp x hx]

theorem stop_of_ne (q c : Char) (r : List Char) (hc : c ≠ q) :
    ∀ x, (c :: r).head? = some x → (fun c : Char => c == q) x = false := by
  intro x hx
  simp only [List.head?_cons, Option.some.injEq] at hx
  subst hx
  simpa using hc

theorem notq_pos (q : Char) (m : List Char) (hm : ∀ x ∈ m, x ≠ q) :
    ∀ x ∈ m, (fun c : Char => c != q) x = true := fun x hx => by simpa using hm x hx

theorem stop_of_eq (q : Char) (t : List Char) (ht : ∀ x, t.head? = some x → x = q) :
    ∀ x, t.head? = some x → (fun c : Char => c != q) x = false := by
  intro x hx
  simpa using ht x hx

theorem tokensOf_blank (fuel : Nat) (sp : List Char) (hsp : ∀ x ∈ sp, x = ' ') :
    tokensOf fuel sp = [] := by
  cases fuel with
  | zero => rfl
  | succ n =>
    have h : sp.dropWhile (fun c => c == ' ') = [] := by
      simpa using dropWhile_stop _ sp [] (spaces_pos sp hsp) (by simp)
    simp only [tokensOf, h]

theorem tokensOf_quoteOpen (fuel : Nat) (sp : List Char) (q : Char) (r : List Char)
    (hsp : ∀ x ∈ sp, x = ' ') (hq : isQuote q) (hqs : q ≠ ' ') (hr : ∀ x ∈ r, x ≠ q) :
    tokensOf (fuel + 1) (sp ++ q :: r) = [q :: r] := by
  have h : (sp ++ q :: r).dropWhile (fun c => c == ' ') = q :: r :=
    dropWhile_stop _ sp (q :: r) (spaces_pos sp hsp) (stop_of_ne _ q r hqs)
  have h2 : r.dropWhile (fun x => x != q) = [] := by
    simpa using dropWhile_stop _ r [] (notq_pos q r hr) (by simp)
  have hq1 : q = DQUOTE ∨ q = SQUOTE := hq
  simp only [tokensOf, h, hq1, if_true, h2]

theorem tokensOf_quoteClosed (fuel : Nat) (sp : List Char) (q : Char) (m t : List Char)
    (hsp : ∀ x ∈ sp, x = ' ') (hq : isQuote q) (hqs : q ≠ ' ') (hm : ∀ x ∈ m, x ≠ q) :
    tokensOf (fuel + 1) (sp ++ q :: (m ++ q :: t)) = (q :: (m ++ [q])) :: tokensOf fuel t := by
  have h : (sp ++ q :: (m ++ q :: t)).dropWhile (fun c => c == ' ') = q :: (m ++ q :: t) :=
    dropWhile_stop _ sp _ (spaces_pos sp hsp) (stop_of_ne _ q _ hqs)
  have hstop : ∀ x, (q :: t).head? = some x → (fun c : Char => c != q) x = false :=
    stop_of_eq q (q :: t) (by simp)
  have h2 : (m ++ q :: t).dropWhile (fun x => x != q) = q :: t :=
    dropWhile_stop _ m (q :: t) (notq_pos q m hm) hstop
  have h3 : (m ++ q :: t).takeWhile (fun x => x != q) = m :=
    takeWhile_stop _ m (q :: t) (notq_pos q m hm) hstop
  have hq1 : q = DQUOTE ∨ q = SQUOTE := hq
  simp only [tokensOf, h, hq1, if_true, h2, h3]

theorem tokensOf_plain (fuel : Nat) (sp : List Char) (c : Char) (m t : List Char)
    (hsp : ∀ x ∈ sp, x = ' ') (hc : c ≠ ' ') (hq : ¬ isQuote c) (hm : ∀ x ∈ m, x ≠ ' ')
    (ht : ∀ x, t.head? = some x → x = ' ') :
    tokensOf (fuel + 1) (sp ++ c :: (m ++ t)) = (c :: m) :: tokensOf fuel t := by
  have h : (sp ++ c :: (m ++ t)).dropWhile (fun c => c == ' ') = c :: (m ++ t) :=
    dropWhile_stop _ sp _ (spaces_pos sp hsp) (stop_of_ne _ c _ hc)
  have h2 : (m ++ t).dropWhile (fun x => x != ' ') = t :=
    dropWhile_stop _ m t (notq_pos _ m hm) (stop_of_eq _ t ht)
  have h3 : (m ++ t).takeWhile (fun x => x != ' ') = m :=
    takeWhile_stop _ m t (notq_pos _ m hm) (stop_of_eq _ t ht)
  have hq1 : ¬ (c = DQUOTE ∨ c = SQUOTE) := hq
  simp only [tokensOf, h, hq1, if_false, h2, h3]

theorem isQuote_ne_space (q : Char) (hq : isQuote q) : q ≠ ' ' := by
  rcases hq with rfl | rfl
  · exact dquote_ne_space
  · exact squote_ne_space

theorem closingQuote_append (u r : List Char) (q : Char) :
    closingQuote (u ++ q :: r) q (some u.length) =
      if r.dropWhile (fun c => c != q) = [] then none
      else some (u.length + 1 + (r.takeWhile (fun c => c != q)).length + 1) := by
  have h1 : u ++ q :: r = (u ++ [q]) ++ r := by simp
  have h2 : u.length + 1 = (u ++ [q]).length := by simp
  simp only [closingQuote, Option.map_some']
  rw [h1, h2, find_first_of_append]
  split <;> simp

theorem Tokenize_body_eq (str : G4String) (st : TokState) :
    Tokenize_body str st =
      { pos0 := find_first_not_of str delimiter (tokenEnd str st),
        pos := find_first_of str delimiter (find_first_not_of str delimiter (tokenEnd str st)),
        tokens := st.tokens ++ [substr str st.pos0 (tokenEnd str st)] } := rfl

theorem tokenEnd_quote (u r : List Char) (q : Char) (hq : isQuote q) (pos : SizeType)
    (acc : List G4String) :
    tokenEnd (u ++ q :: r) { pos0 := some u.length, pos := pos, tokens := acc } =
      closingQuote (u ++ q :: r) q (some u.length) := by
  simp only [tokenEnd, charAt_append, List.head?_cons, Option.some.injEq]
  rcases hq with rfl | rfl
  · simp [dquote_ne_squote]
  · simp

theorem tokenEnd_plain (u r : List Char) (c : Char) (hq : ¬ isQuote c) (pos : SizeType)
    (acc : List G4String) :
    tokenEnd (u ++ c :: r) { pos0 := some u.length, pos := pos, tokens := acc } = pos := by
  simp only [tokenEnd, charAt_append, List.head?_cons, Option.some.injEq]
  have h1 : c ≠ DQUOTE := fun h => hq (Or.inl h)
  have h2 : c ≠ SQUOTE := fun h => hq (Or.inr h)
  simp [h1, h2]

theorem Tokenize_body_quoteOpen (u r : List Char) (q : Char) (hq : isQuote q)
    (hr : ∀ x ∈ r, x ≠ q) (pos : SizeType) (acc : List G4String) :
    Tokenize_body (u ++ q :: r) { pos0 := some u.length, pos := pos, tokens := acc } =
      { pos0 := none, pos := none, tokens := acc ++ [q :: r] } := by
  have h2 : r.dropWhile (fun x => x != q) = [] := by
    simpa using dropWhile_stop _ r [] (notq_pos q r hr) (by simp)
  rw [Tokenize_body_eq, tokenEnd_quote u r q hq, closingQuote_append, h2]
  simp only [if_true, substr_append_none]
  rfl

theorem Tokenize_body_quoteClosed (u m t : List Char) (q : Char) (hq : isQuote q)
    (hm : ∀ x ∈ m, x ≠ q) (pos : SizeType) (acc : List G4String) :
    Tokenize_body (u ++ q :: (m ++ q :: t)) { pos0 := some u.length, pos := pos, tokens := acc } =
      headState ((u ++ q :: (m ++ [q])) ++ t) (u ++ q :: (m ++ [q])).length
        (acc ++ [q :: (m ++ [q])]) := by
  have hstop : ∀ x, (q :: t).head? = some x → (fun c : Char => c != q) x = false :=
    stop_of_eq q (q :: t) (by simp)
  have h2 : (m ++ q :: t).dropWhile (fun x => x != q) = q :: t :=
    dropWhile_stop _ m (q :: t) (notq_pos q m hm) hstop
  have h3 : (m ++ q :: t).takeWhile (fun x => x != q) = m :=
    takeWhile_stop _ m (q :: t) (notq_pos q m hm) hstop
  rw [Tokenize_body_eq, tokenEnd_quote u _ q hq, closingQuote_append, h2, h3]
  have e1 : u ++ q :: (m ++ q :: t) = u ++ ((q :: (m ++ [q])) ++ t) := by simp
  have e2 : u.length + 1 + m.length + 1 = u.length + (q :: (m ++ [q])).length := by
    simp; omega
  simp only [List.cons_ne_nil, if_false]
  rw [e2, e1, substr_append_some]
  have e3 : u ++ ((q :: (m ++ [q])) ++ t) = (u ++ q :: (m ++ [q])) ++ t := by simp
  have e4 : u.length + (q :: (m ++ [q])).length = (u ++ q :: (m ++ [q])).length := by simp
  rw [e3, e4]
  rfl

theorem Tokenize_body_plain (u m t : List Char) (c : Char) (hc : c ≠ ' ') (hq : ¬ isQuote c)
    (hm : ∀ x ∈ m, x ≠ ' ') (ht : ∀ x, t.head? = some x → x = ' ') (acc : List G4String) :
    Tokenize_body (u ++ c :: (m ++ t))
        { pos0 := some u.length,
          pos := find_first_of (u ++ c :: (m ++ t)) delimiter (some u.length), tokens := acc } =
      headState ((u ++ c :: m) ++ t) (u ++ c :: m).length (acc ++ [c :: m]) := by
  have hcm : ∀ x ∈ c :: m, x ≠ ' ' := by
    intro x hx
    rcases List.mem_cons.1 hx with rfl | h
    · exact hc
    · exact hm x h
  have h2 : (c :: (m ++ t)).dropWhile (fun x => x != ' ') = t :=
    dropWhile_stop _ (c :: m) t (notq_pos _ _ hcm) (stop_of_eq _ t ht)
  have h3 : (c :: (m ++ t)).takeWhile (fun x => x != ' ') = c :: m :=
    takeWhile_stop _ (c :: m) t (notq_pos _ _ hcm) (stop_of_eq _ t ht)
  rw [Tokenize_body_eq, tokenEnd_plain u _ c hq]
  simp only [delimiter, find_first_of_append, h2, h3]
  have e3 : u ++ c :: (m ++ t) = (u ++ c :: m) ++ t := by simp
  cases t with
  | nil =>
    simp only [if_true, substr_append_none, List.append_nil]
    have := headState_spaces (u ++ c :: m) [] (acc ++ [c :: m]) (by simp)
    simp only [List.append_nil] at this
    rw [this]
    rfl
  | cons d t =>
    simp only [List.cons_ne_nil, if_false]
    have e1 : u ++ c :: (m ++ d :: t) = u ++ ((c :: m) ++ d :: t) := by simp
    rw [e1, substr_append_some]
    have e4 : u.length + (c :: m).length = (u ++ c :: m).length := by simp
    rw [e4]
    simp only [headState, delimiter, List.append_assoc]

theorem headState_shape (u sp r : List Char) (c : Char) (hsp : ∀ x ∈ sp, x = ' ')
    (hc : c ≠ ' ') (acc : List G4String) :
    headState (u ++ (sp ++ c :: r)) u.length acc =
      { pos0 := some (u ++ sp).length,
        pos := find_first_of ((u ++ sp) ++ c :: r) delimiter (some (u ++ sp).length),
        tokens := acc } := by
  have h : (sp ++ c :: r).dropWhile (fun c => c == ' ') = c :: r :=
    dropWhile_stop _ sp _ (spaces_pos sp hsp) (stop_of_ne _ c _ hc)
  have h3 : (sp ++ c :: r).takeWhile (fun c => c == ' ') = sp :=
    takeWhile_stop _ sp _ (spaces_pos sp hsp) (stop_of_ne _ c _ hc)
  rw [headState_token u _ c r acc h, h3, List.append_assoc]

theorem Tokenize_loop_done (str : G4String) (fuel : Nat) (acc : List G4String) :
    Tokenize_loop str fuel { pos0 := none, pos := none, tokens := acc } =
      { pos0 := none, pos := none, tokens := acc } := by
  cases fuel <;> simp [Tokenize_loop, Tokenize_cond]

theorem Tokenize_loop_step (str : G4String) (fuel a : Nat) (pos : SizeType)
    (acc : List G4String) :
    Tokenize_loop str (fuel + 1) { pos0 := some a, pos := pos, tokens := acc } =
      Tokenize_loop str fuel (Tokenize_body str { pos0 := some a, pos := pos, tokens := acc }) := by
  simp [Tokenize_loop, Tokenize_cond]

/-- The loop of `Tokenize`, started where a token may begin, leaves both positions
at `npos` and has appended the tokens of the rest of the string. -/
theorem Tokenize_loop_eq (fuel : Nat) : ∀ (u v : List Char) (acc : List G4String),
    v.length < fuel →
    Tokenize_loop (u ++ v) fuel (headState (u ++ v) u.length acc) =
      { pos0 := none, pos := none, tokens := acc ++ tokensOf fuel v } := by
  induction fuel with
  | zero => intro u v acc h; omega
  | succ n ih =>
    intro u v acc hlen
    cases shape v with
    | blank sp hsp =>
      rw [headState_spaces u v acc
        (by simpa using dropWhile_stop _ v [] (spaces_pos v hsp) (by simp)),
        Tokenize_loop_done, tokensOf_blank _ v hsp, List.append_nil]
    | quoteOpen sp q r hsp hq hr =>
      rw [headState_shape u sp r q hsp (isQuote_ne_space q hq), ← List.append_assoc,
        Tokenize_loop_step, Tokenize_body_quoteOpen (u ++ sp) r q hq hr, Tokenize_loop_done,
        tokensOf_quoteOpen n sp q r hsp hq (isQuote_ne_space q hq) hr]
    | quoteClosed sp q m t hsp hq hm =>
      rw [headState_shape u sp _ q hsp (isQuote_ne_space q hq), ← List.append_assoc,
        Tokenize_loop_step, Tokenize_body_quoteClosed (u ++ sp) m t q hq hm,
        tokensOf_quoteClosed n sp q m t hsp hq (isQuote_ne_space q hq) hm]
      have e : (u ++ sp) ++ q :: (m ++ q :: t) = ((u ++ sp) ++ q :: (m ++ [q])) ++ t := by simp
      rw [e, ih _ t _ (by simp at hlen; omega)]
      simp
    | plain sp c m t hsp hc hq hm ht =>
      rw [headState_shape u sp _ c hsp hc, ← List.append_assoc,
        Tokenize_loop_step, Tokenize_body_plain (u ++ sp) m t c hc hq hm ht,
        tokensOf_plain n sp c m t hsp hc hq hm ht]
      have e : (u ++ sp) ++ c :: (m ++ t) = ((u ++ sp) ++ c :: m) ++ t := by simp
      rw [e, ih _ t _ (by simp at hlen; omega)]
      simp

/-- The tokens of `str`: what `Tokenize` appends to its second argument. -/
theorem Tokenize_eq_tokensOf (str : G4String) (tokens : List G4String) :
    Tokenize str tokens = tokens ++ tokensOf (str.length + 1) str := by
  have h := Tokenize_loop_eq (str.length + 1) [] str tokens (Nat.lt_succ_self _)
  simp only [List.nil_append, List.length_nil] at h
  simp only [Tokenize]
  have e : Tokenize_init str tokens = headState str 0 tokens := rfl
  rw [e, h]

/-- The loop of `Tokenize` ends within the iterations allowed: after them its
condition is false. -/
theorem Tokenize_halts (str : G4String) (tokens : List G4String) :
    Tokenize_cond (Tokenize_loop str (str.length + 1) (Tokenize_init str tokens)) = false := by
  have h := Tokenize_loop_eq (str.length + 1) [] str tokens (Nat.lt_succ_self _)
  simp only [List.nil_append, List.length_nil] at h
  have e : Tokenize_init str tokens = headState str 0 tokens := rfl
  rw [e, h]
  rfl

theorem tokensOf_fuel (fuel : Nat) : ∀ (fuel1 : Nat) (v : List Char),
    v.length < fuel → v.length < fuel1 → tokensOf fuel v = tokensOf fuel1 v := by
  induction fuel with
  | zero => intro f v h; omega
  | succ n ih =>
    intro f v h1 h2
    cases f with
    | zero => omega
    | succ k =>
      cases shape v with
      | blank sp hsp => rw [tokensOf_blank _ v hsp, tokensOf_blank _ v hsp]
      | quoteOpen sp q r hsp hq hr =>
        rw [tokensOf_quoteOpen n sp q r hsp hq (isQuote_ne_space q hq) hr,
          tokensOf_quoteOpen k sp q r hsp hq (isQuote_ne_space q hq) hr]
      | quoteClosed sp q m t hsp hq hm =>
        rw [tokensOf_quoteClosed n sp q m t hsp hq (isQuote_ne_space q hq) hm,
          tokensOf_quoteClosed k sp q m t hsp hq (isQuote_ne_space q hq) hm,
          ih k t (by simp at h1; omega) (by simp at h2; omega)]
      | plain sp c m t hsp hc hq hm ht =>
        rw [tokensOf_plain n sp c m t hsp hc hq hm ht, tokensOf_plain k sp c m t hsp hc hq hm ht,
          ih k t (by simp at h1; omega) (by simp at h2; omega)]

/-! ### The equations of `Tokenize` -/

theorem Tokenize_append (str : G4String) (tokens : List G4String) :
    Tokenize str tokens = tokens ++ Tokenize str [] := by
  rw [Tokenize_eq_tokensOf, Tokenize_eq_tokensOf str []]; simp

theorem Tokenize_blank (sp : List Char) (hsp : ∀ x ∈ sp, x = ' ') : Tokenize sp [] = [] := by
  rw [Tokenize_eq_tokensOf, tokensOf_blank _ sp hsp]; rfl

theorem Tokenize_quoteOpen (sp : List Char) (q : Char) (r : List Char)
    (hsp : ∀ x ∈ sp, x = ' ') (hq : isQuote q) (hr : ∀ x ∈ r, x ≠ q) :
    Tokenize (sp ++ q :: r) [] = [q :: r] := by
  rw [Tokenize_eq_tokensOf, tokensOf_quoteOpen _ sp q r hsp hq (isQuote_ne_space q hq) hr]; rfl

theorem Tokenize_quoteClosed (sp : List Char) (q : Char) (m t : List Char)
    (hsp : ∀ x ∈ sp, x = ' ') (hq : isQuote q) (hm : ∀ x ∈ m, x ≠ q) :
    Tokenize (sp ++ q :: (m ++ q :: t)) [] = (q :: (m ++ [q])) :: Tokenize t [] := by
  rw [Tokenize_eq_tokensOf, tokensOf_quoteClosed _ sp q m t hsp hq (isQuote_ne_space q hq) hm,
    Tokenize_eq_tokensOf t, List.nil_append, List.nil_append,
    tokensOf_fuel _ (t.length + 1) t (by simp; omega) (Nat.lt_succ_self _)]

theorem Tokenize_plain (sp : List Char) (c : Char) (m t : List Char) (hsp : ∀ x ∈ sp, x = ' ')
    (hc : c ≠ ' ') (hq : ¬ isQuote c) (hm : ∀ x ∈ m, x ≠ ' ')
    (ht : ∀ x, t.head? = some x → x = ' ') :
    Tokenize (sp ++ c :: (m ++ t)) [] = (c :: m) :: Tokenize t [] := by
  rw [Tokenize_eq_tokensOf, tokensOf_plain _ sp c m t hsp hc hq hm ht,
    Tokenize_eq_tokensOf t, List.nil_append, List.nil_append,
    tokensOf_fuel _ (t.length + 1) t (by simp; omega) (Nat.lt_succ_self _)]

/-- Induction along the tokens of a string: a property that holds for blank
strings and for a string closed by an open quote, and that passes from the
rest after the first token to the whole string, holds for every string. -/
theorem shape_induction {P : List Char → Prop}
    (hblank : ∀ sp, (∀ x ∈ sp, x = ' ') → P sp)
    (hopen : ∀ sp q r, (∀ x ∈ sp, x = ' ') → isQuote q → (∀ x ∈ r, x ≠ q) → P (sp ++ q :: r))
    (hclosed : ∀ sp q m t, (∀ x ∈ sp, x = ' ') → isQuote q → (∀ x ∈ m, x ≠ q) → P t →
      P (sp ++ q :: (m ++ q :: t)))
    (hplain : ∀ sp c m t, (∀ x ∈ sp, x = ' ') → c ≠ ' ' → ¬ isQuote c → (∀ x ∈ m, x ≠ ' ') →
      (∀ x, t.head? = some x → x = ' ') → P t → P (sp ++ c :: (m ++ t))) :
    ∀ v, P v := by
  have key : ∀ n, ∀ v : List Char, v.length = n → P v := by
    intro n
    induction n using Nat.strong_induction_on with
    | _ n ih =>
      intro v h
      cases shape v with
      | blank sp hsp => exact hblank _ hsp
      | quoteOpen sp q r hsp hq hr => exact hopen sp q r hsp hq hr
      | quoteClosed sp q m t hsp hq hm =>
        exact hclosed sp q m t hsp hq hm (ih t.length (by subst h; simp; omega) t rfl)
      | plain sp c m t hsp hc hq hm ht =>
        exact hplain sp c m t hsp hc hq hm ht (ih t.length (by subst h; simp; omega) t rfl)
  exact fun v => key v.length v rfl

theorem getElem?_length_append {α : Type} (acc : List α) (x : α) (rest : List α) :
    (acc ++ x :: rest)[acc.length]? = some x := by
  rw [List.getElem?_append_right (le_refl _)]; simp

theorem Tokenize_loop_succ (str : G4String) (n : Nat) : ∀ st : TokState,
    Tokenize_loop str (n + 1) st = Tokenize_loop str 1 (Tokenize_loop str n st) := by
  induction n with
  | zero => intro st; rfl
  | succ k ih =>
    intro st
    by_cases hc : Tokenize_cond st
    · have e1 : Tokenize_loop str (k + 1 + 1) st = Tokenize_loop str (k + 1) (Tokenize_body str st) := by
        simp [Tokenize_loop, hc]
      have e2 : Tokenize_loop str (k + 1) st = Tokenize_loop str k (Tokenize_body str st) := by
        simp [Tokenize_loop, hc]
      rw [e1, e2, ih]
    · have e1 : ∀ j, Tokenize_loop str (j + 1) st = st := by
        intro j; simp [Tokenize_loop, hc]
      rw [e1, e1, e1 0]

/-- The state of `Tokenize` after `n` iterations: the input splits into a part
already scanned and a rest, the loop stands at the head of the rest, the
final token list is the tokens pushed so far followed by the tokens of the
rest, and while the loop is running the number of tokens pushed is `n`. -/
theorem Tokenize_loop_inv (str : G4String) (n : Nat) :
    ∃ u v acc, str = u ++ v ∧
      Tokenize_loop str n (Tokenize_init str []) = headState (u ++ v) u.length acc ∧
      Tokenize str [] = acc ++ Tokenize v [] ∧
      ((headState (u ++ v) u.length acc).pos0.isSome → acc.length = n) := by
  induction n with
  | zero => exact ⟨[], str, [], rfl, rfl, rfl, fun _ => rfl⟩
  | succ k ih =>
    obtain ⟨u, v, acc, hs, hst, htok, hlen⟩ := ih
    subst hs
    rw [Tokenize_loop_succ, hst]
    cases shape v with
    | blank sp hsp =>
      have hb := headState_spaces u v acc
        (by simpa using dropWhile_stop _ v [] (spaces_pos v hsp) (by simp))
      refine ⟨u, v, acc, rfl, ?_, htok, ?_⟩
      · rw [hb]; rfl
      · rw [hb]; simp
    | quoteOpen sp q r hsp hq hr =>
      have hdone := headState_spaces (u ++ (sp ++ q :: r)) [] (acc ++ [q :: r]) (by simp)
      refine ⟨u ++ (sp ++ q :: r), [], acc ++ [q :: r], by simp, ?_, ?_, ?_⟩
      · rw [hdone, headState_shape u sp r q hsp (isQuote_ne_space q hq), ← List.append_assoc,
          Tokenize_loop_step, Tokenize_body_quoteOpen (u ++ sp) r q hq hr]
        rfl
      · rw [htok, Tokenize_quoteOpen sp q r hsp hq hr, Tokenize_blank [] (by simp)]; simp
      · rw [hdone]; simp
    | quoteClosed sp q m t hsp hq hm =>
      have hh := headState_shape u sp (m ++ q :: t) q hsp (isQuote_ne_space q hq) acc
      have hl : acc.length = k := hlen (by rw [hh]; rfl)
      refine ⟨(u ++ sp) ++ q :: (m ++ [q]), t, acc ++ [q :: (m ++ [q])], by simp,
        ?_, ?_, fun _ => by simp [hl]⟩
      · rw [hh, ← List.append_assoc, Tokenize_loop_step,
          Tokenize_body_quoteClosed (u ++ sp) m t q hq hm]
        rfl
      · rw [htok, Tokenize_quoteClosed sp q m t hsp hq hm]; simp
    | plain sp c m t hsp hc hq hm ht =>
      have hh := headState_shape u sp (m ++ t) c hsp hc acc
      have hl : acc.length = k := hlen (by rw [hh]; rfl)
      refine ⟨(u ++ sp) ++ c :: m, t, acc ++ [c :: m], by simp,
        ?_, ?_, fun _ => by simp [hl]⟩
      · rw [hh, ← List.append_assoc, Tokenize_loop_step,
          Tokenize_body_plain (u ++ sp) m t c hc hq hm ht]
        rfl
      · rw [htok, Tokenize_plain sp c m t hsp hc hq hm ht]; simp

/-- When iteration `n + 1` of the loop of `Tokenize` starts a token at position
`a`, the input splits there: before `a` lie the part already scanned and a run
of spaces, at `a` stands a character that is not a space, `n` tokens have been
pushed, and the rest of the result is the tokens of what follows. -/
theorem Tokenize_token_start (str : G4String) (n a : Nat)
    (h : (Tokenize_loop str n (Tokenize_init str [])).pos0 = some a) :
    ∃ u sp c r acc, str = (u ++ sp) ++ c :: r ∧ (u ++ sp).length = a ∧ (∀ x ∈ sp, x = ' ') ∧
      c ≠ ' ' ∧ acc.length = n ∧ Tokenize str [] = acc ++ Tokenize (sp ++ c :: r) [] := by
  obtain ⟨u, v, acc, hs, hst, htok, hlen⟩ := Tokenize_loop_inv str n
  rw [hst] at h
  obtain ⟨sp, b, rfl, hsp, hb, -, -⟩ := split_while (fun c => c == ' ') v
  have hsp1 : ∀ x ∈ sp, x = ' ' := fun x hx => by simpa using hsp x hx
  cases b with
  | nil =>
    rw [headState_spaces u _ acc
      (by simpa using dropWhile_stop _ sp [] (spaces_pos sp hsp1) (by simp))] at h
    simp at h
  | cons c r =>
    have hc : c ≠ ' ' := by simpa using hb c rfl
    have hh := headState_shape u sp r c hsp1 hc acc
    have hl : acc.length = n := hlen (by rw [hh]; rfl)
    rw [hh] at h
    simp only [Option.some.injEq] at h
    exact ⟨u, sp, c, r, acc, by simpa using hs, h, hsp1, hc, hl, htok⟩

/-! ## Claims about `Tokenize` -/

/-- C5: for every input string, every token returned by Tokenize is non-empty and
begins with a non-space character, and the token list is empty exactly when
the input is empty or consists only of spaces. -/
theorem C5_tokens_nonempty (str : G4String) :
    (∀ t ∈ Tokenize str [], ∃ c r, t = c :: r ∧ c ≠ ' ') ∧
    (Tokenize str [] = [] ↔ ∀ x ∈ str, x = ' ') := by
  induction str using shape_induction with
  | hblank sp hsp => simpa [Tokenize_blank sp hsp] using hsp
  | hopen sp q r hsp hq hr =>
    rw [Tokenize_quoteOpen sp q r hsp hq hr]
    refine ⟨?_, ?_⟩
    · intro t ht
      simp only [List.mem_singleton] at ht
      exact ⟨q, r, ht, isQuote_ne_space q hq⟩
    · simp only [List.cons_ne_nil, false_iff]
      intro h
      exact isQuote_ne_space q hq (h q (by simp))
  | hclosed sp q m t hsp hq hm ih =>
    rw [Tokenize_quoteClosed sp q m t hsp hq hm]
    refine ⟨?_, ?_⟩
    · intro x hx
      rcases List.mem_cons.1 hx with rfl | hx
      · exact ⟨q, m ++ [q], rfl, isQuote_ne_space q hq⟩
      · exact ih.1 x hx
    · simp only [List.cons_ne_nil, false_iff]
      intro h
      exact isQuote_ne_space q hq (h q (by simp))
  | hplain sp c m t hsp hc hq hm ht ih =>
    rw [Tokenize_plain sp c m t hsp hc hq hm ht]
    refine ⟨?_, ?_⟩
    · intro x hx
      rcases List.mem_cons.1 hx with rfl | hx
      · exact ⟨c, m, rfl, hc⟩
      · exact ih.1 x hx
    · simp only [List.cons_ne_nil, false_iff]
      intro h
      exact hc (h c (by simp))

/-- C2: when an iteration of Tokenize starts a token at a quote character `q`
(position `u.length` of the input `u ++ q :: m ++ q :: t`) and `q` occurs again
later, first right after `m`, the token pushed in that iteration (the one of
index `n` in the result when `n` iterations came before) runs from the opening
quote to that next `q` inclusive, with `m` unchanged whatever it contains.
In particular the example of the spec. -/
theorem C2_quoted_token :
    (∀ (u m t : List Char) (q : Char) (n : Nat), isQuote q → (∀ x ∈ m, x ≠ q) →
      (Tokenize_loop (u ++ q :: (m ++ q :: t)) n
        (Tokenize_init (u ++ q :: (m ++ q :: t)) [])).pos0 = some u.length →
      (Tokenize (u ++ q :: (m ++ q :: t)) [])[n]? = some (q :: (m ++ [q]))) ∧
    Tokenize "a \"b c\" d".toList [] = ["a".toList, "\"b c\"".toList, "d".toList] := by
  refine ⟨?_, by decide⟩
  intro u m t q n hq hm h
  obtain ⟨u1, sp, c, r, acc, hs, ha, hsp, -, hl, htok⟩ := Tokenize_token_start _ n _ h
  obtain ⟨e1, e2⟩ := List.append_inj hs ha.symm
  simp only [List.cons.injEq] at e2
  obtain ⟨rfl, rfl⟩ := e2
  rw [htok, Tokenize_quoteClosed sp q m t hsp hq hm, ← hl]
  exact getElem?_length_append _ _ _

/-- C2 at the input of the spec: the second token starts at the quote in
position 2 and is the quoted substring. -/
theorem C2_quoted_token_witness :
    (Tokenize ("a ".toList ++ DQUOTE :: ("b c".toList ++ DQUOTE :: " d".toList)) [])[1]? =
      some (DQUOTE :: ("b c".toList ++ [DQUOTE])) :=
  C2_quoted_token.1 "a ".toList "b c".toList " d".toList DQUOTE 1
    (by decide) (by decide) (by decide)

/-- C3: when an iteration of Tokenize starts a token at a quote character `q`
(position `u.length` of the input `u ++ q :: r`) and `q` does not occur in `r`,
the token pushed is the whole rest of the input from that quote on, spaces
included, and it is the last token: with `n` iterations before it the result
has `n + 1` tokens.  In particular the example of the spec. -/
theorem C3_open_quote :
    (∀ (u r : List Char) (q : Char) (n : Nat), isQuote q → (∀ x ∈ r, x ≠ q) →
      (Tokenize_loop (u ++ q :: r) n (Tokenize_init (u ++ q :: r) [])).pos0 = some u.length →
      (Tokenize (u ++ q :: r) []).length = n + 1 ∧
      (Tokenize (u ++ q :: r) [])[n]? = some (q :: r) ∧
      (Tokenize (u ++ q :: r) []).getLast? = some (q :: r)) ∧
    Tokenize "x \"y".toList [] = ["x".toList, "\"y".toList] := by
  refine ⟨?_, by decide⟩
  intro u r q n hq hr h
  obtain ⟨u1, sp, c, r1, acc, hs, ha, hsp, -, hl, htok⟩ := Tokenize_token_start _ n _ h
  obtain ⟨e1, e2⟩ := List.append_inj hs ha.symm
  simp only [List.cons.injEq] at e2
  obtain ⟨rfl, rfl⟩ := e2
  rw [htok, Tokenize_quoteOpen sp q r hsp hq hr, ← hl]
  exact ⟨by simp, getElem?_length_append _ _ _, by simp⟩

/-- C3 at an input with spaces inside the open quote: the second token starts at
the quote in position 2 and keeps everything up to the end. -/
theorem C3_open_quote_witness :
    (Tokenize ("x ".toList ++ DQUOTE :: "y  z ".toList) []).length = 1 + 1 ∧
    (Tokenize ("x ".toList ++ DQUOTE :: "y  z ".toList) [])[1]? =
      some (DQUOTE :: "y  z ".toList) ∧
    (Tokenize ("x ".toList ++ DQUOTE :: "y  z ".toList) []).getLast? =
      some (DQUOTE :: "y  z ".toList) :=
  C3_open_quote.1 "x ".toList "y  z ".toList DQUOTE 1 (by decide) (by decide) (by decide)

theorem collapseSpaces_append (a b : List Char) : ∀ m : ScanMode,
    collapseSpaces m (a ++ b) = collapseSpaces m a ++ collapseSpaces (modeAfter m a) b := by
  induction a with
  | nil => intro m; simp [collapseSpaces, modeAfter]
  | cons c cs ih => intro m; simp [collapseSpaces, modeAfter, ih]

theorem modeAfter_append (a b : List Char) : ∀ m : ScanMode,
    modeAfter m (a ++ b) = modeAfter (modeAfter m a) b := by
  induction a with
  | nil => intro m; rfl
  | cons c cs ih => intro m; simp [modeAfter, ih]

theorem separatedFrom_append (a b : List Char) : ∀ m : ScanMode,
    separatedFrom m (a ++ b) = (separatedFrom m a && separatedFrom (modeAfter m a) b) := by
  induction a with
  | nil => intro m; simp [separatedFrom, modeAfter]
  | cons c cs ih => intro m; simp [separatedFrom, modeAfter, ih, Bool.and_assoc]

theorem scan_gap_spaces (e : Bool) (sp : List Char) (hsp : ∀ x ∈ sp, x = ' ') :
    collapseSpaces (ScanMode.gap e) sp = [] ∧ modeAfter (ScanMode.gap e) sp = ScanMode.gap e ∧
      separatedFrom (ScanMode.gap e) sp = true := by
  induction sp with
  | nil => simp [collapseSpaces, modeAfter, separatedFrom]
  | cons c cs ih =>
    have hc : c = ' ' := hsp c (by simp)
    have := ih (fun x hx => hsp x (by simp [hx]))
    subst hc
    simpa [collapseSpaces, modeAfter, separatedFrom, ScanMode.emit, ScanMode.next] using this

theorem scan_quoted_run (q : Char) (m : List Char) (hm : ∀ x ∈ m, x ≠ q) :
    collapseSpaces (ScanMode.quoted q) m = m ∧
      modeAfter (ScanMode.quoted q) m = ScanMode.quoted q ∧
      separatedFrom (ScanMode.quoted q) m = true := by
  induction m with
  | nil => simp [collapseSpaces, modeAfter, separatedFrom]
  | cons c cs ih =>
    have hc : c ≠ q := hm c (by simp)
    have := ih (fun x hx => hm x (by simp [hx]))
    simpa [collapseSpaces, modeAfter, separatedFrom, ScanMode.emit, ScanMode.next, hc] using this

theorem scan_word_run (m : List Char) (hm : ∀ x ∈ m, x ≠ ' ') :
    collapseSpaces ScanMode.word m = m ∧ modeAfter ScanMode.word m = ScanMode.word ∧
      separatedFrom ScanMode.word m = true := by
  induction m with
  | nil => simp [collapseSpaces, modeAfter, separatedFrom]
  | cons c cs ih =>
    have hc : c ≠ ' ' := hm c (by simp)
    have := ih (fun x hx => hm x (by simp [hx]))
    simpa [collapseSpaces, modeAfter, separatedFrom, ScanMode.emit, ScanMode.next, hc] using this

theorem intercalate_cons_cons (t t1 : G4String) (ts : List G4String) :
    List.intercalate [' '] (t :: t1 :: ts) = t ++ ' ' :: List.intercalate [' '] (t1 :: ts) := by
  simp [List.intercalate, List.intersperse]

theorem joinAfter_nil (e : Bool) : joinAfter e [] = [] := by
  simp [joinAfter, List.intercalate]

theorem joinAfter_cons (e : Bool) (t : G4String) (ts : List G4String) :
    joinAfter e (t :: ts) = (if e then [' '] else []) ++ t ++ joinAfter true ts := by
  cases ts with
  | nil => cases e <;> simp [joinAfter, List.intercalate]
  | cons t1 ts =>
    cases e <;> simp [joinAfter, intercalate_cons_cons]

theorem emit_gap_token (e : Bool) (c : Char) (hc : c ≠ ' ') :
    (ScanMode.gap e).emit c = (if e then [' '] else []) ++ [c] := by
  cases e <;> simp [ScanMode.emit, hc]

/-- After a token, what is left reads the same from the mode the token ended in
as from a gap, when it is empty or begins with a space. -/
theorem scan_rest_of_space (m : ScanMode) (hm : m = ScanMode.word ∨ m = ScanMode.closed)
    (t : List Char) (ht : ∀ x, t.head? = some x → x = ' ') :
    collapseSpaces m t = collapseSpaces (ScanMode.gap true) t ∧
      (separatedFrom m t = true → separatedFrom (ScanMode.gap true) t = true) := by
  cases t with
  | nil => simp [collapseSpaces, separatedFrom]
  | cons c cs =>
    have hc : c = ' ' := ht c rfl
    subst hc
    rcases hm with rfl | rfl <;>
      simp [collapseSpaces, separatedFrom, ScanMode.emit, ScanMode.next]

theorem separated_closed_head (t : List Char)
    (h : separatedFrom ScanMode.closed t = true) : ∀ x, t.head? = some x → x = ' ' := by
  intro x hx
  cases t with
  | nil => simp at hx
  | cons c cs =>
    simp only [List.head?_cons, Option.some.injEq] at hx
    subst hx
    simp only [separatedFrom, true_and, Bool.and_eq_true, Bool.not_eq_true',
      decide_eq_false_iff_not, not_not] at h
    exact h.1

theorem collapseSpaces_cons (m : ScanMode) (c : Char) (cs : List Char) :
    collapseSpaces m (c :: cs) = m.emit c ++ collapseSpaces (m.next c) cs := rfl

theorem separatedFrom_cons (m : ScanMode) (c : Char) (cs : List Char) :
    separatedFrom m (c :: cs) =
      (!(m = ScanMode.closed ∧ c ≠ ' ') && separatedFrom (m.next c) cs) := rfl

theorem next_gap_quote (e : Bool) (q : Char) (hq : isQuote q) :
    (ScanMode.gap e).next q = ScanMode.quoted q := by
  simp [ScanMode.next, isQuote_ne_space q hq, hq]

theorem next_gap_plain (e : Bool) (c : Char) (hc : c ≠ ' ') (hq : ¬ isQuote c) :
    (ScanMode.gap e).next c = ScanMode.word := by
  simp [ScanMode.next, hc, hq]

theorem scan_token_open (e : Bool) (sp : List Char) (q : Char) (r : List Char)
    (hsp : ∀ x ∈ sp, x = ' ') (hq : isQuote q) (hr : ∀ x ∈ r, x ≠ q) :
    collapseSpaces (ScanMode.gap e) (sp ++ q :: r) = (if e then [' '] else []) ++ q :: r := by
  rw [collapseSpaces_append, (scan_gap_spaces e sp hsp).1, (scan_gap_spaces e sp hsp).2.1,
    collapseSpaces_cons, next_gap_quote e q hq, emit_gap_token e q (isQuote_ne_space q hq),
    (scan_quoted_run q r hr).1]
  simp

theorem scan_token_closed (e : Bool) (sp : List Char) (q : Char) (m t : List Char)
    (hsp : ∀ x ∈ sp, x = ' ') (hq : isQuote q) (hm : ∀ x ∈ m, x ≠ q) :
    collapseSpaces (ScanMode.gap e) (sp ++ q :: (m ++ q :: t)) =
        (if e then [' '] else []) ++ (q :: (m ++ [q])) ++ collapseSpaces ScanMode.closed t ∧
      separatedFrom (ScanMode.gap e) (sp ++ q :: (m ++ q :: t)) =
        separatedFrom ScanMode.closed t := by
  have hn : (ScanMode.quoted q).next q = ScanMode.closed := by simp [ScanMode.next]
  have he : (ScanMode.quoted q).emit q = [q] := rfl
  constructor
  · rw [collapseSpaces_append, (scan_gap_spaces e sp hsp).1, (scan_gap_spaces e sp hsp).2.1,
      collapseSpaces_cons, next_gap_quote e q hq, emit_gap_token e q (isQuote_ne_space q hq),
      collapseSpaces_append, (scan_quoted_run q m hm).1, (scan_quoted_run q m hm).2.1,
      collapseSpaces_cons, hn, he]
    simp
  · rw [separatedFrom_append, (scan_gap_spaces e sp hsp).2.2, (scan_gap_spaces e sp hsp).2.1,
      separatedFrom_cons, next_gap_quote e q hq, separatedFrom_append,
      (scan_quoted_run q m hm).2.2, (scan_quoted_run q m hm).2.1, separatedFrom_cons, hn]
    simp

theorem scan_token_plain (e : Bool) (sp : List Char) (c : Char) (m t : List Char)
    (hsp : ∀ x ∈ sp, x = ' ') (hc : c ≠ ' ') (hq : ¬ isQuote c) (hm : ∀ x ∈ m, x ≠ ' ') :
    collapseSpaces (ScanMode.gap e) (sp ++ c :: (m ++ t)) =
        (if e then [' '] else []) ++ (c :: m) ++ collapseSpaces ScanMode.word t ∧
      separatedFrom (ScanMode.gap e) (sp ++ c :: (m ++ t)) = separatedFrom ScanMode.word t := by
  constructor
  · rw [collapseSpaces_append, (scan_gap_spaces e sp hsp).1, (scan_gap_spaces e sp hsp).2.1,
      collapseSpaces_cons, next_gap_plain e c hc hq, emit_gap_token e c hc,
      collapseSpaces_append, (scan_word_run m hm).1, (scan_word_run m hm).2.1]
    simp
  · rw [separatedFrom_append, (scan_gap_spaces e sp hsp).2.2, (scan_gap_spaces e sp hsp).2.1,
      separatedFrom_cons, next_gap_plain e c hc hq, separatedFrom_append,
      (scan_word_run m hm).2.2, (scan_word_run m hm).2.1]
    simp

/-- The tokens of a string in which every closing quote is followed by a space or
the end, joined by single spaces, are the string read with its runs of
spaces collapsed. -/
theorem collapse_eq_join (v : List Char) : ∀ e : Bool,
    separatedFrom (ScanMode.gap e) v = true →
    collapseSpaces (ScanMode.gap e) v = joinAfter e (Tokenize v []) := by
  induction v using shape_induction with
  | hblank sp hsp =>
    intro e _
    rw [(scan_gap_spaces e sp hsp).1, Tokenize_blank sp hsp, joinAfter_nil]
  | hopen sp q r hsp hq hr =>
    intro e _
    rw [scan_token_open e sp q r hsp hq hr, Tokenize_quoteOpen sp q r hsp hq hr, joinAfter_cons,
      joinAfter_nil]
    simp
  | hclosed sp q m t hsp hq hm ih =>
    intro e hsep
    rw [(scan_token_closed e sp q m t hsp hq hm).2] at hsep
    have hrest := scan_rest_of_space ScanMode.closed (Or.inr rfl) t
      (separated_closed_head t hsep)
    rw [Tokenize_quoteClosed sp q m t hsp hq hm, joinAfter_cons, ← ih true (hrest.2 hsep),
      ← hrest.1, (scan_token_closed e sp q m t hsp hq hm).1]
  | hplain sp c m t hsp hc hq hm ht ih =>
    intro e hsep
    rw [(scan_token_plain e sp c m t hsp hc hq hm).2] at hsep
    have hrest := scan_rest_of_space ScanMode.word (Or.inl rfl) t ht
    rw [Tokenize_plain sp c m t hsp hc hq hm ht, joinAfter_cons, ← ih true (hrest.2 hsep),
      ← hrest.1, (scan_token_plain e sp c m t hsp hc hq hm).1]

theorem strip_copy_decomp (str : G4String) :
    ∃ sp a sp2, str = sp ++ (a ++ sp2) ∧ (∀ x ∈ sp, x = ' ') ∧ (∀ x ∈ sp2, x = ' ') ∧
      strip_copy str = a := by
  obtain ⟨sp, b, rfl, hsp, -, -, hd⟩ := split_while (fun c => c == ' ') str
  obtain ⟨sp2r, ar, hb, hsp2, -, -, hd2⟩ := split_while (fun c => c == ' ') b.reverse
  refine ⟨sp, ar.reverse, sp2r.reverse, ?_, fun x hx => by simpa using hsp x hx, ?_, ?_⟩
  · have : b = ar.reverse ++ sp2r.reverse := by
      rw [← List.reverse_append, ← hb, List.reverse_reverse]
    rw [this]
  · intro x hx
    simpa using hsp2 x (by simpa using hx)
  · simp only [strip_copy, lstrip, rstrip_copy, hd, hd2]

theorem ScanMode.valid_next (m : ScanMode) (c : Char) (h : m.valid) : (m.next c).valid := by
  intro q hq
  cases m with
  | gap e =>
    simp only [ScanMode.next] at hq
    split at hq
    · simp at hq
    · split at hq
      · rename_i h2
        simp only [ScanMode.quoted.injEq] at hq
        subst hq; exact h2
      · simp at hq
  | word =>
    simp only [ScanMode.next] at hq
    split at hq <;> simp at hq
  | quoted q1 =>
    simp only [ScanMode.next] at hq
    split at hq
    · simp at hq
    · exact h q hq
  | closed =>
    simp only [ScanMode.next] at hq
    split at hq
    · simp at hq
    · split at hq
      · rename_i h2
        simp only [ScanMode.quoted.injEq] at hq
        subst hq; exact h2
      · simp at hq

theorem modeAfter_valid (a : List Char) : ∀ m : ScanMode, m.valid → (modeAfter m a).valid := by
  induction a with
  | nil => intro m h; exact h
  | cons c cs ih => intro m h; exact ih _ (ScanMode.valid_next m c h)

theorem scan_spaces_outside (sp : List Char) (hsp : ∀ x ∈ sp, x = ' ') :
    ∀ m : ScanMode, (∀ q, m ≠ ScanMode.quoted q) → collapseSpaces m sp = [] := by
  induction sp with
  | nil => intro m _; rfl
  | cons c cs ih =>
    intro m hm
    have hc : c = ' ' := hsp c (by simp)
    subst hc
    have hcs := ih (fun x hx => hsp x (by simp [hx]))
    cases m with
    | gap e =>
      simpa [collapseSpaces_cons, ScanMode.emit, ScanMode.next] using hcs (ScanMode.gap e) (by simp)
    | word =>
      simpa [collapseSpaces_cons, ScanMode.emit, ScanMode.next] using hcs (ScanMode.gap true) (by simp)
    | quoted q => exact absurd rfl (hm q)
    | closed =>
      simpa [collapseSpaces_cons, ScanMode.emit, ScanMode.next] using hcs (ScanMode.gap true) (by simp)

theorem getLast?_append_spaces (a sp : List Char) (hsp : ∀ x ∈ sp, x = ' ') (hne : sp ≠ []) :
    (a ++ sp).getLast? = some ' ' := by
  have h1 : (a ++ sp).getLast? = sp.getLast? := by
    rw [List.getLast?_append]
    cases h : sp.getLast? with
    | none => simp [List.getLast?_eq_none_iff] at h; exact absurd h hne
    | some x => simp
  rw [h1]
  cases h : sp.getLast? with
  | none => simp [List.getLast?_eq_none_iff] at h; exact absurd h hne
  | some x =>
    have := List.mem_of_getLast?_eq_some h
    rw [hsp x this]

/-- Removing the leading and trailing spaces first changes nothing in the
collapsed string, unless the string ends with a space inside an open quote. -/
theorem spec_collapsed_eq (str : G4String) (h2 : openQuoteEndsInSpace str = false) :
    spec_collapsed str = collapseSpaces (ScanMode.gap false) str := by
  obtain ⟨sp, a, sp2, hs, hsp, hsp2, hstrip⟩ := strip_copy_decomp str
  have hgap := scan_gap_spaces false sp hsp
  rw [spec_collapsed, hstrip]
  conv_rhs => rw [hs, collapseSpaces_append, hgap.1, hgap.2.1, collapseSpaces_append]
  by_cases hne : sp2 = []
  · subst hne; simp [collapseSpaces]
  · have hmode : ∀ q, modeAfter (ScanMode.gap false) a ≠ ScanMode.quoted q := by
      intro q hq
      have hv : isQuote q :=
        modeAfter_valid a (ScanMode.gap false) (by intro q h; simp at h) q hq
      have hqn : ∀ x ∈ sp2, x ≠ q := fun x hx => by
        rw [hsp2 x hx]; exact (isQuote_ne_space q hv).symm
      have hm : modeAfter (ScanMode.gap false) str = ScanMode.quoted q := by
        rw [hs, modeAfter_append, hgap.2.1, modeAfter_append, hq, (scan_quoted_run q sp2 hqn).2.1]
      have hl : str.getLast? = some ' ' := by
        rw [hs, ← List.append_assoc]; exact getLast?_append_spaces _ sp2 hsp2 hne
      simp [openQuoteEndsInSpace, hm, hl] at h2
    rw [scan_spaces_outside sp2 hsp2 _ hmode]
    simp

/-! ## Claim C4 -/

/-- C4 as stated fails: the input of a quoted token directly followed by `b` has
no space at all, so removing and collapsing spaces leaves it unchanged, but
Tokenize ends the first token at the closing quote and the joined tokens have
a space there.  It also fails when the input ends with a space inside a quote
left open: the token keeps the space that removing trailing spaces drops. -/
theorem C4_counterexample :
    Tokenize [DQUOTE, 'a', DQUOTE, 'b'] [] = [[DQUOTE, 'a', DQUOTE], ['b']] ∧
    spec_collapsed [DQUOTE, 'a', DQUOTE, 'b'] = [DQUOTE, 'a', DQUOTE, 'b'] ∧
    List.intercalate [' '] (Tokenize [DQUOTE, 'a', DQUOTE, 'b'] []) ≠
      spec_collapsed [DQUOTE, 'a', DQUOTE, 'b'] ∧
    List.intercalate [' '] (Tokenize [DQUOTE, 'a', ' '] []) ≠ spec_collapsed [DQUOTE, 'a', ' '] := by
  decide

/-- C4 amended: for every input in which each closing quote of a quoted token is
followed by a space or by the end of the string, and which does not end with
a space inside a quote left open, the tokens returned by Tokenize joined by
single spaces are the input with leading and trailing spaces removed and
every run of spaces outside quoted substrings collapsed to a single space. -/
theorem C4_join_tokens (str : G4String) (h1 : quotesSeparated str = true)
    (h2 : openQuoteEndsInSpace str = false) :
    List.intercalate [' '] (Tokenize str []) = spec_collapsed str := by
  rw [spec_collapsed_eq str h2, collapse_eq_join str false h1]
  simp [joinAfter]

/-- C4 amended, at an input with runs of spaces outside and inside a quoted
token. -/
theorem C4_join_tokens_witness :
    List.intercalate [' '] (Tokenize "  a  \"b  c\"   d ".toList []) =
      spec_collapsed "  a  \"b  c\"   d ".toList :=
  C4_join_tokens "  a  \"b  c\"   d ".toList (by decide) (by decide)

/-! ## Reading lines -/

theorem getline_extract_line (line tail : List Char) (hnl : ∀ x ∈ line, x ≠ NEWLINE) :
    ∀ room, line.length ≤ room →
    getline_extract (line ++ NEWLINE :: tail) room =
      (line, { rest := tail, eofbit := false, failbit := false }) := by
  induction line with
  | nil => intro room _; simp [getline_extract]
  | cons c cs ih =>
    intro room hlen
    have hc : c ≠ NEWLINE := hnl c (by simp)
    cases room with
    | zero => simp at hlen
    | succ r =>
      have := ih (fun x hx => hnl x (by simp [hx])) r (by simpa using hlen)
      simp [getline_extract, hc, this]

theorem getline_extract_last (line : List Char) (hnl : ∀ x ∈ line, x ≠ NEWLINE) :
    ∀ room, line.length ≤ room →
    getline_extract line room = (line, { rest := [], eofbit := true, failbit := false }) := by
  induction line with
  | nil => intro room _; simp [getline_extract]
  | cons c cs ih =>
    intro room hlen
    have hc : c ≠ NEWLINE := hnl c (by simp)
    cases room with
    | zero => simp at hlen
    | succ r =>
      have := ih (fun x hx => hnl x (by simp [hx])) r (by simpa using hlen)
      simp [getline_extract, hc, this]

/-- A line of fewer than `BUFSIZE` characters followed by a line feed is read
whole; the stream stays good and stands after the line feed. -/
theorem getline_line (line tail : List Char) (hnl : ∀ x ∈ line, x ≠ NEWLINE)
    (hlen : line.length < BUFSIZE) :
    getline { rest := line ++ NEWLINE :: tail, eofbit := false, failbit := false } BUFSIZE =
      (line, { rest := tail, eofbit := false, failbit := false }) := by
  have h := getline_extract_line line tail hnl (BUFSIZE - 1) (by omega)
  simp [getline, IStream.good, h]

/-- A last line of fewer than `BUFSIZE` characters with no line feed after it is
read whole and sets eofbit; failbit is set too when it is empty. -/
theorem getline_last (line : List Char) (hnl : ∀ x ∈ line, x ≠ NEWLINE)
    (hlen : line.length < BUFSIZE) :
    getline { rest := line, eofbit := false, failbit := false } BUFSIZE =
      (line, { rest := [], eofbit := true, failbit := line.isEmpty }) := by
  have h := getline_extract_last line hnl (BUFSIZE - 1) (by omega)
  simp [getline, IStream.good, h]

theorem getline_extract_rest_le (l : List Char) : ∀ room,
    (getline_extract l room).2.rest.length ≤ l.length := by
  induction l with
  | nil => intro room; simp [getline_extract]
  | cons c cs ih =>
    intro room
    by_cases hc : c = NEWLINE
    · simp [getline_extract, hc]
    · cases room with
      | zero => simp [getline_extract, hc]
      | succ r =>
        have := ih r
        simp only [getline_extract, hc, if_false, List.length_cons]
        omega

theorem getline_extract_rest_lt (c : Char) (cs : List Char) (room : Nat) :
    (getline_extract (c :: cs) (room + 1)).2.rest.length < (c :: cs).length := by
  by_cases hc : c = NEWLINE
  · simp [getline_extract, hc]
  · have := getline_extract_rest_le cs room
    simp only [getline_extract, hc, if_false, List.length_cons]
    omega

/-- A call of `getline` on a good stream with characters left consumes at least
one of them. -/
theorem getline_rest_lt (s : IStream) (hg : s.good = true) (hne : s.rest ≠ []) :
    (getline s BUFSIZE).2.rest.length < s.rest.length := by
  cases h : s.rest with
  | nil => exact absurd h hne
  | cons c cs =>
    have := getline_extract_rest_lt c cs (BUFSIZE - 2)
    have e : BUFSIZE - 1 = BUFSIZE - 2 + 1 := by decide
    simp only [getline, hg, if_true, h, e]
    exact this

/-- A call of `getline` on a good stream with nothing left ends the stream. -/
theorem getline_empty (s : IStream) (hg : s.good = true) (he : s.rest = []) :
    (getline s BUFSIZE).2.good = false := by
  simp only [getline, hg, if_true, he, getline_extract]
  rfl

theorem ReadCommand_loop_not_good (fuel : Nat) (st : ReadState) (hg : st.stream.good = false) :
    ReadCommand_loop fuel st = (none, st) := by
  cases fuel <;> simp [ReadCommand_loop, hg]

theorem ReadCommand_body_stream (st : ReadState) :
    (ReadCommand_body st).2.stream = (getline st.stream BUFSIZE).2 := rfl

/-- The loop of `ReadCommand` does not run out of iterations: with more iterations
allowed than characters left in the stream, the number allowed is
immaterial. -/
theorem ReadCommand_loop_fuel (fuel : Nat) : ∀ (fuel1 : Nat) (st : ReadState),
    st.stream.rest.length < fuel → st.stream.rest.length < fuel1 →
    ReadCommand_loop fuel st = ReadCommand_loop fuel1 st := by
  induction fuel with
  | zero => intro f st h; omega
  | succ n ih =>
    intro f st h1 h2
    cases f with
    | zero => omega
    | succ k =>
      by_cases hg : st.stream.good = true
      · simp only [ReadCommand_loop, hg, if_true]
        cases hb : ReadCommand_body st with
        | mk fl st1 =>
          cases fl with
          | ret v => rfl
          | stop => rfl
          | next =>
            simp only
            have hs : st1.stream = (getline st.stream BUFSIZE).2 := by
              rw [← ReadCommand_body_stream, hb]
            by_cases hne : st.stream.rest = []
            · have := getline_empty st.stream hg hne
              rw [← hs] at this
              rw [ReadCommand_loop_not_good n st1 this, ReadCommand_loop_not_good k st1 this]
            · have := getline_rest_lt st.stream hg hne
              rw [← hs] at this
              exact ih k st1 (by omega) (by omega)
      · have hg1 : st.stream.good = false := by simpa using hg
        rw [ReadCommand_loop_not_good _ st hg1, ReadCommand_loop_not_good _ st hg1]

theorem ReadCommand_eq_from (s : IStream) :
    ReadCommand s =
      ReadCommand_from { cmdtotal := [], qcontinued := false, stream := s, log := [] } := rfl

theorem ReadCommand_from_not_good (st : ReadState) (hg : st.stream.good = false) :
    ReadCommand_from st = ReadCommand_finish (none, st) := by
  rw [ReadCommand_from, ReadCommand_loop_not_good _ st hg]

theorem ReadCommand_from_good (st : ReadState) (hg : st.stream.good = true) :
    ReadCommand_from st = ReadCommand_after (ReadCommand_body st) := by
  simp only [ReadCommand_from, ReadCommand_loop, hg, if_true]
  cases hb : ReadCommand_body st with
  | mk fl st1 =>
    cases fl with
    | ret v => rfl
    | stop => rfl
    | next =>
      simp only [ReadCommand_after, ReadCommand_from]
      have hs : st1.stream = (getline st.stream BUFSIZE).2 := by
        rw [← ReadCommand_body_stream, hb]
      by_cases hne : st.stream.rest = []
      · have := getline_empty st.stream hg hne
        rw [← hs] at this
        rw [ReadCommand_loop_not_good _ st1 this, ReadCommand_loop_not_good _ st1 this]
      · have := getline_rest_lt st.stream hg hne
        rw [← hs] at this
        rw [ReadCommand_loop_fuel _ (st1.stream.rest.length + 1) st1 (by omega) (by omega)]

theorem ReadCommand_body_line (cmdtotal : G4String) (q : Bool) (log : List Event)
    (line tail : List Char) (hnl : ∀ x ∈ line, x ≠ NEWLINE) (hlen : line.length < BUFSIZE) :
    ReadCommand_body (ReadState.mk cmdtotal q (IStream.open (line ++ NEWLINE :: tail)) log) =
      ReadState.after log (IStream.open tail)
        (ReadCommand_process cmdtotal q (normalise line) false) := by
  simp only [ReadCommand_body, IStream.open, getline_line line tail hnl hlen]
  rfl

theorem ReadCommand_body_last (cmdtotal : G4String) (q : Bool) (log : List Event)
    (line : List Char) (hnl : ∀ x ∈ line, x ≠ NEWLINE) (hlen : line.length < BUFSIZE) :
    ReadCommand_body (ReadState.mk cmdtotal q (IStream.open line) log) =
      ReadState.after log (IStream.mk [] true line.isEmpty)
        (ReadCommand_process cmdtotal q (normalise line) true) := by
  simp only [ReadCommand_body, IStream.open, getline_last line hnl hlen]
  rfl

/-- A call of `ReadCommand` that meets a line ended by a line feed goes on as the
line decides. -/
theorem ReadCommand_from_line (cmdtotal : G4String) (q : Bool) (log : List Event)
    (line tail : List Char) (hnl : ∀ x ∈ line, x ≠ NEWLINE) (hlen : line.length < BUFSIZE) :
    ReadCommand_from (ReadState.mk cmdtotal q (IStream.open (line ++ NEWLINE :: tail)) log) =
      ReadCommand_after (ReadState.after log (IStream.open tail)
        (ReadCommand_process cmdtotal q (normalise line) false)) := by
  rw [ReadCommand_from_good (ReadState.mk cmdtotal q (IStream.open (line ++ NEWLINE :: tail)) log) rfl,
    ReadCommand_body_line cmdtotal q log line tail hnl hlen]

/-- A call of `ReadCommand` that meets the last line of a file that does not end
with a line feed. -/
theorem ReadCommand_from_last (cmdtotal : G4String) (q : Bool) (log : List Event)
    (line : List Char) (hnl : ∀ x ∈ line, x ≠ NEWLINE) (hlen : line.length < BUFSIZE) :
    ReadCommand_from (ReadState.mk cmdtotal q (IStream.open line) log) =
      ReadCommand_after (ReadState.after log (IStream.mk [] true line.isEmpty)
        (ReadCommand_process cmdtotal q (normalise line) true)) := by
  rw [ReadCommand_from_good (ReadState.mk cmdtotal q (IStream.open line) log) rfl,
    ReadCommand_body_last cmdtotal q log line hnl hlen]

/-! ## Claim C1 -/

/-- C1 as stated fails: on the lines `set\` and `value 5` the first line is the
single token `set\`, whose first character is not a continuation marker, so
the call returns `set\` and leaves the second line in the stream. -/
theorem C1_counterexample :
    Tokenize "set\\".toList [] = ["set\\".toList] ∧
    ReadCommand (IStream.open "set\\\nvalue 5\n".toList) =
      ReadResult.mk "set\\".toList (IStream.open "value 5\n".toList) [] ∧
    (ReadCommand (IStream.open "set\\\nvalue 5\n".toList)).value ≠ "set value 5".toList := by
  decide

/-- C1 amended: for a stream whose next two physical lines are `set \` (the
marker a token of its own) and `value 5`, whatever follows them, one call of
ReadCommand returns exactly `set value 5`, raises no warning and leaves the
stream after the second line; the same holds when the second line ends the
file without a line feed. -/
theorem C1_continuation :
    (∀ tail : List Char,
      ReadCommand
          (IStream.open ("set \\".toList ++ NEWLINE :: ("value 5".toList ++ NEWLINE :: tail))) =
        ReadResult.mk "set value 5".toList (IStream.open tail) []) ∧
    ReadCommand (IStream.open ("set \\".toList ++ NEWLINE :: "value 5".toList)) =
      ReadResult.mk "set value 5".toList (IStream.mk [] true false) [] := by
  refine ⟨?_, by decide⟩
  intro tail
  have h1 : ReadCommand_process [] false (normalise "set \\".toList) false =
      (Flow.next, "set ".toList, true, []) := by decide
  have h2 : ReadCommand_process "set ".toList true (normalise "value 5".toList) false =
      (Flow.stop, "set value 5 ".toList, false, []) := by decide
  have h3 : strip_copy "set value 5 ".toList = "set value 5".toList := by decide
  rw [ReadCommand_eq_from, ReadCommand_from_line [] false [] _ _ (by decide) (by decide), h1]
  simp only [ReadState.after, ReadCommand_after, List.append_nil]
  rw [ReadCommand_from_line _ true [] _ _ (by decide) (by decide), h2]
  simp only [ReadState.after, ReadCommand_after, ReadCommand_finish, h3, IStream.eof,
    List.append_nil]
  rfl

/-! ## Claim C6 -/

/-- C6: whenever the loop of ReadCommand reads a physical line whose normalised
form begins with `#`, whatever `cmdtotal` holds from earlier continuation
lines and whether or not `qcontinued` is set, the call returns at once exactly
that normalised line (not tokenized), the stream stands after the line, and
nothing of `cmdtotal` is in the result.  This is stated first for the line
that `getline` stores, then for a line of fewer than `BUFSIZE` characters
ended by a line feed.  In particular after the continued
line `a \` the comment line `# c  d` is returned with its two inner spaces
(and the space that stood before the carriage return, which is stripped after
the spaces are). -/
theorem C6_comment_line :
    (∀ (st : ReadState) (fuel : Nat), st.stream.good = true →
      (normalise (getline st.stream BUFSIZE).1).head? = some '#' →
      ReadCommand_finish (ReadCommand_loop (fuel + 1) st) =
        ReadResult.mk (normalise (getline st.stream BUFSIZE).1) (getline st.stream BUFSIZE).2
          st.log) ∧
    (∀ (cmdtotal : G4String) (qcontinued : Bool) (log : List Event) (line tail : List Char)
        (fuel : Nat), (∀ x ∈ line, x ≠ NEWLINE) → line.length < BUFSIZE →
      (normalise line).head? = some '#' →
      ReadCommand_finish (ReadCommand_loop (fuel + 1)
          (ReadState.mk cmdtotal qcontinued (IStream.open (line ++ NEWLINE :: tail)) log)) =
        ReadResult.mk (normalise line) (IStream.open tail) log) ∧
    ReadCommand (IStream.open "a \\\n \t# c  d \r\nb".toList) =
      ReadResult.mk "# c  d ".toList (IStream.open "b".toList) [] := by
  have main : ∀ (st : ReadState) (fuel : Nat), st.stream.good = true →
      (normalise (getline st.stream BUFSIZE).1).head? = some '#' →
      ReadCommand_finish (ReadCommand_loop (fuel + 1) st) =
        ReadResult.mk (normalise (getline st.stream BUFSIZE).1) (getline st.stream BUFSIZE).2
          st.log := ?_
  · refine ⟨main, ?_, by decide⟩
    intro cmdtotal qcontinued log line tail fuel hnl hlen hc
    have hg := getline_line line tail hnl hlen
    have := main (ReadState.mk cmdtotal qcontinued (IStream.open (line ++ NEWLINE :: tail)) log)
      fuel rfl (by simp only [IStream.open, hg]; exact hc)
    simp only [IStream.open, hg] at this
    exact this
  intro st fuel hg hc
  have hne : (normalise (getline st.stream BUFSIZE).1).length ≠ 0 := by
    intro h
    rw [List.length_eq_zero] at h
    rw [h] at hc
    simp at hc
  have hp : ReadCommand_process st.cmdtotal st.qcontinued
      (normalise (getline st.stream BUFSIZE).1) (getline st.stream BUFSIZE).2.eof =
      (Flow.ret (normalise (getline st.stream BUFSIZE).1), st.cmdtotal, st.qcontinued, []) := by
    simp [ReadCommand_process, hne, hc]
  simp only [ReadCommand_loop, hg, if_true, ReadCommand_body, hp, ReadCommand_finish,
    List.append_nil]

/-- C6 inside a continuation: the loop holds `a ` from a continued line and meets
a comment line. -/
theorem C6_comment_line_witness :
    ReadCommand_finish (ReadCommand_loop (0 + 1)
        (ReadState.mk "a ".toList true (IStream.open " \t# c  d \r\nb".toList) [])) =
      ReadResult.mk
        (normalise (getline (IStream.open " \t# c  d \r\nb".toList) BUFSIZE).1)
        (getline (IStream.open " \t# c  d \r\nb".toList) BUFSIZE).2 [] :=
  C6_comment_line.1 (ReadState.mk "a ".toList true (IStream.open " \t# c  d \r\nb".toList) []) 0
    (by decide) (by decide)

/-! ## Claim C7 -/

theorem isMarker_not_comment (t : G4String) (h : isMarker t) : ¬ isComment t := by
  intro hc
  unfold isComment at hc
  rcases h with h | h <;> rw [hc] at h <;> revert h <;> decide

/-- The scan of the tokens of a line appends the tokens before the first marker
and stops there, warning when a token follows the marker. -/
theorem ReadCommand_scan_marker (pre : List G4String) (m : G4String) (r : List G4String)
    (hm : isMarker m) : ∀ cmdtotal : G4String,
    (∀ t ∈ pre, ¬ isComment t ∧ ¬ isMarker t) →
    ReadCommand_scan (pre ++ m :: r) cmdtotal =
      (appendTokens cmdtotal pre, true, if r ≠ [] then [continuationWarning] else []) := by
  induction pre with
  | nil =>
    intro cmdtotal _
    have h1 : ¬ (m.head? = some '#') := isMarker_not_comment m hm
    have h2 : m.head? = some BACKSLASH ∨ m.head? = some '_' := hm
    simp only [List.nil_append, ReadCommand_scan, h1, h2, if_true, if_false, appendTokens,
      List.foldl_nil]
  | cons t ts ih =>
    intro cmdtotal hpre
    have h1 : ¬ (t.head? = some '#') := (hpre t (by simp)).1
    have h2 : ¬ (t.head? = some BACKSLASH ∨ t.head? = some '_') := (hpre t (by simp)).2
    simp only [List.cons_append, ReadCommand_scan, h1, h2, if_false, appendTokens,
      List.foldl_cons]
    exact ih _ (fun x hx => hpre x (by simp [hx]))

/-- The scan of the tokens of a line without marker or comment appends them
all. -/
theorem ReadCommand_scan_plain (pre : List G4String) : ∀ cmdtotal : G4String,
    (∀ t ∈ pre, ¬ isComment t ∧ ¬ isMarker t) →
    ReadCommand_scan pre cmdtotal = (appendTokens cmdtotal pre, false, []) := by
  induction pre with
  | nil => intro cmdtotal _; rfl
  | cons t ts ih =>
    intro cmdtotal hpre
    have h1 : ¬ (t.head? = some '#') := (hpre t (by simp)).1
    have h2 : ¬ (t.head? = some BACKSLASH ∨ t.head? = some '_') := (hpre t (by simp)).2
    simp only [ReadCommand_scan, h1, h2, if_false, appendTokens, List.foldl_cons]
    exact ih _ (fun x hx => hpre x (by simp [hx]))

/-- The first token of a string that begins with a character other than a space
begins with that character. -/
theorem Tokenize_head (c : Char) (r : List Char) (hc : c ≠ ' ') :
    ∃ t ts, Tokenize (c :: r) [] = (c :: t) :: ts := by
  by_cases hq : isQuote c
  · obtain ⟨m, t, rfl, hm, ht, -, -⟩ := split_while (fun x => x != c) r
    have hm1 : ∀ x ∈ m, x ≠ c := fun x hx => by simpa using hm x hx
    cases t with
    | nil =>
      have := Tokenize_quoteOpen [] c m (by simp) hq hm1
      simp only [List.nil_append] at this
      exact ⟨m, [], by simpa using this⟩
    | cons d t =>
      have hd : d = c := by simpa using ht d rfl
      subst hd
      have := Tokenize_quoteClosed [] d m t (by simp) hq hm1
      simp only [List.nil_append] at this
      exact ⟨_, _, this⟩
  · obtain ⟨m, t, rfl, hm, ht, -, -⟩ := split_while (fun x => x != ' ') r
    have hm1 : ∀ x ∈ m, x ≠ ' ' := fun x hx => by simpa using hm x hx
    have := Tokenize_plain [] c m t (by simp) hc hq hm1 (fun x hx => by simpa using ht x hx)
    simp only [List.nil_append] at this
    exact ⟨_, _, this⟩

theorem rstrip_copy_initial (str : G4String) (ch : Char) :
    ∃ sp, str = rstrip_copy str ch ++ sp := by
  refine ⟨(str.reverse.takeWhile (fun c => c == ch)).reverse, ?_⟩
  rw [rstrip_copy, ← List.reverse_append, List.takeWhile_append_dropWhile, List.reverse_reverse]

theorem head?_append_of_head (a b : List Char) (x : Char) (h : a.head? = some x) :
    (a ++ b).head? = some x := by
  cases a with
  | nil => simp at h
  | cons c cs => simpa using h

/-- A normalised line does not begin with a space. -/
theorem normalise_head (linebuf : List Char) : (normalise linebuf).head? ≠ some ' ' := by
  intro h
  obtain ⟨sp1, h1⟩ := rstrip_copy_initial (strip_copy (replaceTabs (ofCString linebuf))) ctrM
  obtain ⟨sp2, h2⟩ := rstrip_copy_initial (lstrip (replaceTabs (ofCString linebuf)) ' ') ' '
  have h3 : (strip_copy (replaceTabs (ofCString linebuf))).head? = some ' ' := by
    rw [h1]; exact head?_append_of_head _ _ _ h
  have h4 : (lstrip (replaceTabs (ofCString linebuf)) ' ').head? = some ' ' := by
    rw [h2]; exact head?_append_of_head _ _ _ h3
  have h5 := List.head?_dropWhile_not (fun c => c == ' ') (replaceTabs (ofCString linebuf))
  rw [lstrip] at h4
  rw [h4] at h5
  simp at h5

/-- The first token of a normalised line begins with the first character of the
line. -/
theorem normalise_first_token (linebuf : List Char) (t : G4String) (ts : List G4String)
    (h : Tokenize (normalise linebuf) [] = t :: ts) : t.head? = (normalise linebuf).head? := by
  cases hn : normalise linebuf with
  | nil =>
    rw [hn, Tokenize_blank [] (by simp)] at h
    simp at h
  | cons c r =>
    have hc : c ≠ ' ' := by
      intro hc
      have := normalise_head linebuf
      rw [hn, hc] at this
      simp at this
    obtain ⟨t1, ts1, h1⟩ := Tokenize_head c r hc
    rw [hn, h1] at h
    simp only [List.cons.injEq] at h
    rw [← h.1]
    rfl

theorem ReadCommand_process_marker (cmdtotal : G4String) (q : Bool) (cmdline : G4String)
    (eof : Bool) (pre : List G4String) (m : G4String) (r : List G4String)
    (hnc : cmdline.head? ≠ some '#') (htok : Tokenize cmdline [] = pre ++ m :: r)
    (hm : isMarker m) (hpre : ∀ t ∈ pre, ¬ isComment t ∧ ¬ isMarker t) :
    ReadCommand_process cmdtotal q cmdline eof =
      (Flow.next, appendTokens cmdtotal pre, true,
        if r ≠ [] then [continuationWarning] else []) := by
  have hne : (cmdline.length == 0) = false := by
    cases cmdline with
    | nil =>
      rw [Tokenize_blank [] (by simp)] at htok
      simp at htok
    | cons c cs => rfl
  simp only [ReadCommand_process, hne, Bool.and_false, hnc, htok,
    ReadCommand_scan_marker pre m r hm cmdtotal hpre]
  simp

/-- The body of the loop of `ReadCommand` on a line whose normalised form has the
tokens `pre`, none of them a comment or a marker, then a marker, then `r`. -/
theorem ReadCommand_body_marker (st : ReadState) (pre : List G4String) (m : G4String)
    (r : List G4String)
    (htok : Tokenize (normalise (getline st.stream BUFSIZE).1) [] = pre ++ m :: r)
    (hm : isMarker m) (hpre : ∀ t ∈ pre, ¬ isComment t ∧ ¬ isMarker t) :
    ReadCommand_body st =
      (Flow.next, ReadState.mk (appendTokens st.cmdtotal pre) true (getline st.stream BUFSIZE).2
        (st.log ++ if r ≠ [] then [continuationWarning] else [])) := by
  have hnc : (normalise (getline st.stream BUFSIZE).1).head? ≠ some '#' := by
    cases pre with
    | nil =>
      rw [← normalise_first_token _ m r htok]
      exact isMarker_not_comment m hm
    | cons t ts =>
      rw [← normalise_first_token _ t (ts ++ m :: r) htok]
      exact (hpre t (by simp)).1
  simp only [ReadCommand_body,
    ReadCommand_process_marker st.cmdtotal st.qcontinued _ _ pre m r hnc htok hm hpre]

/-- C7 as stated fails in its last clause: on the line `_ \` the token `\` begins
with a continuation character, no earlier token begins with `#`, and it is the
last token of the line, yet the call raises the warning, because the scan
stopped at the earlier marker `_`, which is not the last token. -/
theorem C7_counterexample :
    Tokenize (normalise "_ \\".toList) [] = ["_".toList, "\\".toList] ∧
    isMarker "\\".toList ∧ ¬ isComment "_".toList ∧
    (ReadCommand_body (ReadState.mk [] false (IStream.open "_ \\\n".toList) [])).2.log =
      [continuationWarning] ∧
    (ReadCommand (IStream.open "_ \\\n".toList)).log ≠ [] := by
  decide

/-- C7 amended: when the tokens of the line read are `pre`, a token `mk` that
begins with a backslash or an underscore, and `post`, and no token of `pre`
begins with `#`, then (1) if `mk` is not the last token, the body of the loop
raises exactly one warning, sets `qcontinued`, goes round the loop again to
read the next physical line, and has appended to `cmdtotal` only tokens of
`pre`, those before the first marker, so neither `mk` nor a token after it;
(2) if `mk` is the last token and the first token of the line that begins
with a backslash or an underscore, it does the same without any warning. -/
theorem C7_marker (st : ReadState) (pre : List G4String) (mk : G4String)
    (post : List G4String)
    (htok : Tokenize (normalise (getline st.stream BUFSIZE).1) [] = pre ++ mk :: post)
    (hmk : isMarker mk) (hpre : ∀ t ∈ pre, ¬ isComment t) :
    (post ≠ [] →
      ReadCommand_body st =
        (Flow.next,
          ReadState.mk (appendTokens st.cmdtotal (pre.takeWhile (fun t => !decide (isMarker t))))
            true (getline st.stream BUFSIZE).2 (st.log ++ [continuationWarning]))) ∧
    (post = [] → (∀ t ∈ pre, ¬ isMarker t) →
      ReadCommand_body st =
        (Flow.next,
          ReadState.mk (appendTokens st.cmdtotal pre) true (getline st.stream BUFSIZE).2
            st.log)) := by
  constructor
  · intro hpost
    have hsplit := List.takeWhile_append_dropWhile (fun t => !decide (isMarker t)) pre
    have hpre0 : ∀ t ∈ pre.takeWhile (fun t => !decide (isMarker t)),
        ¬ isComment t ∧ ¬ isMarker t := by
      intro t ht
      refine ⟨hpre t (List.mem_takeWhile_imp ht |> fun _ => ?_), ?_⟩
      · exact (List.takeWhile_sublist _).subset ht
      · simpa using List.mem_takeWhile_imp ht
    cases hd : pre.dropWhile (fun t => !decide (isMarker t)) with
    | nil =>
      rw [hd, List.append_nil] at hsplit
      rw [hsplit] at hpre0 ⊢
      rw [ReadCommand_body_marker st pre mk post htok hmk hpre0]
      simp [hpost]
    | cons m d =>
      have hm : isMarker m := by
        have := List.head?_dropWhile_not (fun t => !decide (isMarker t)) pre
        rw [hd] at this
        simpa using this
      rw [hd] at hsplit
      have htok1 : Tokenize (normalise (getline st.stream BUFSIZE).1) [] =
          pre.takeWhile (fun t => !decide (isMarker t)) ++ m :: (d ++ mk :: post) := by
        rw [htok]
        conv_lhs => rw [← hsplit]
        simp
      rw [ReadCommand_body_marker st _ m (d ++ mk :: post) htok1 hm hpre0]
      simp
  · intro hpost hnm
    subst hpost
    rw [ReadCommand_body_marker st pre mk [] htok hmk (fun t ht => ⟨hpre t ht, hnm t ht⟩)]
    simp

/-- C7 amended, on the lines `set \ extra` (a warning) and `set \` (none). -/
theorem C7_marker_witness :
    ReadCommand_body (ReadState.mk [] false (IStream.open "set \\ extra\nv".toList) []) =
        (Flow.next,
          ReadState.mk
            (appendTokens [] (["set".toList].takeWhile (fun t => !decide (isMarker t))))
            true (getline (IStream.open "set \\ extra\nv".toList) BUFSIZE).2
            ([] ++ [continuationWarning])) ∧
    ReadCommand_body (ReadState.mk [] false (IStream.open "set \\\nv".toList) []) =
        (Flow.next,
          ReadState.mk (appendTokens [] ["set".toList]) true
            (getline (IStream.open "set \\\nv".toList) BUFSIZE).2 []) :=
  ⟨(C7_marker (ReadState.mk [] false (IStream.open "set \\ extra\nv".toList) [])
      ["set".toList] "\\".toList ["extra".toList] (by decide) (by decide) (by decide)).1
      (by decide),
   (C7_marker (ReadState.mk [] false (IStream.open "set \\\nv".toList) [])
      ["set".toList] "\\".toList [] (by decide) (by decide) (by decide)).2 rfl (by decide)⟩

/-! ## Claim C8 -/

theorem intercalate_newline_cons (l l2 : List Char) (ls : List (List Char)) :
    List.intercalate [NEWLINE] (l :: l2 :: ls) =
      l ++ NEWLINE :: List.intercalate [NEWLINE] (l2 :: ls) := by
  simp [List.intercalate, List.intersperse]

theorem ReadCommand_process_blank (eof : Bool) :
    ReadCommand_process [] false [] eof = (Flow.next, [], false, []) := rfl

/-- A call of `ReadCommand` that has nothing pending and finds the stream ended
returns `exit`. -/
theorem ReadCommand_from_ended (rest : List Char) (failbit : Bool) (log : List Event) :
    (ReadCommand_from (ReadState.mk [] false (IStream.mk rest true failbit) log)).value =
      "exit".toList := by
  rw [ReadCommand_from_not_good _ (by simp [IStream.good])]
  rfl

/-- A call of `ReadCommand` with nothing pending that meets only blank lines up
to the end of the file returns `exit`. -/
theorem ReadCommand_from_blank_lines (lines : List (List Char)) :
    (∀ l ∈ lines, (∀ x ∈ l, x ≠ NEWLINE) ∧ l.length < BUFSIZE ∧ normalise l = []) →
    ∀ log : List Event,
      (ReadCommand_from
        (ReadState.mk [] false (IStream.open (List.intercalate [NEWLINE] lines)) log)).value =
        "exit".toList := by
  induction lines with
  | nil =>
    intro _ log
    have e : List.intercalate [NEWLINE] ([] : List (List Char)) = [] := rfl
    have hn : normalise [] = [] := by decide
    rw [e, ReadCommand_from_last [] false log [] (by simp) (by decide), hn,
      ReadCommand_process_blank]
    exact ReadCommand_from_ended _ _ _
  | cons l ls ih =>
    intro h log
    obtain ⟨hnl, hlen, hn⟩ := h l (by simp)
    cases ls with
    | nil =>
      have e : List.intercalate [NEWLINE] [l] = l := by simp [List.intercalate, List.intersperse]
      rw [e, ReadCommand_from_last [] false log l hnl hlen, hn, ReadCommand_process_blank]
      exact ReadCommand_from_ended _ _ _
    | cons l2 ls =>
      rw [intercalate_newline_cons, ReadCommand_from_line [] false log l _ hnl hlen, hn,
        ReadCommand_process_blank]
      exact ih (fun x hx => h x (by simp [hx])) _

/-- C8 as stated fails: a line made of a carriage return, a space and a carriage
return is made only of spaces and carriage returns, but stripping spaces and
then trailing carriage returns leaves a carriage return and a space; the line
is tokenized and the call returns the carriage return, not `exit`. -/
theorem C8_counterexample :
    normalise [ctrM, ' ', ctrM] = [ctrM, ' '] ∧
    (ReadCommand (IStream.open [ctrM, ' ', ctrM])).value = [ctrM] ∧
    (ReadCommand (IStream.open [ctrM, ' ', ctrM])).value ≠ "exit".toList := by
  decide

/-- C8 amended: for every stream just opened whose physical lines all have fewer
than `BUFSIZE` characters and are blank once normalised (tabs and spaces, and
carriage returns only in one run that spaces or tabs may surround), the
empty stream included, ReadCommand returns exactly `exit`; it does so too on
every stream that has already reached the end of the file. -/
theorem C8_blank_stream :
    (∀ lines : List (List Char),
      (∀ l ∈ lines, (∀ x ∈ l, x ≠ NEWLINE) ∧ l.length < BUFSIZE ∧ normalise l = []) →
      (ReadCommand (IStream.open (List.intercalate [NEWLINE] lines))).value = "exit".toList) ∧
    (∀ (rest : List Char) (failbit : Bool),
      (ReadCommand (IStream.mk rest true failbit)).value = "exit".toList) := by
  constructor
  · intro lines h
    rw [ReadCommand_eq_from]
    exact ReadCommand_from_blank_lines lines h []
  · intro rest failbit
    rw [ReadCommand_eq_from]
    exact ReadCommand_from_ended rest failbit []

/-- C8 amended, on a file of three blank lines, the last one empty. -/
theorem C8_blank_stream_witness :
    (ReadCommand (IStream.open
      (List.intercalate [NEWLINE] [[' ', TAB, ctrM], [ctrM, ctrM, ' '], []]))).value =
      "exit".toList :=
  C8_blank_stream.1 [[' ', TAB, ctrM], [ctrM, ctrM, ' '], []] (by decide)

/-! ## Claim C9 -/

theorem ReadCommand_exit_line (tail : List Char) :
    ReadCommand (IStream.open ("exit".toList ++ NEWLINE :: tail)) =
      ReadResult.mk "exit".toList (IStream.open tail) [] := by
  have h1 : ReadCommand_process [] false (normalise "exit".toList) false =
      (Flow.stop, "exit ".toList, false, []) := by decide
  have h3 : strip_copy "exit ".toList = "exit".toList := by decide
  rw [ReadCommand_eq_from, ReadCommand_from_line [] false [] _ _ (by decide) (by decide), h1]
  simp only [ReadState.after, ReadCommand_after, ReadCommand_finish, h3, IStream.eof,
    List.append_nil]
  rfl

/-- When `ReadCommand` returns `exit` the loop of `SessionStart` ends at once. -/
theorem SessionStart_loop_exit {σ : Type} (UI : G4UImanager σ) (cs : G4UIcommandStatus)
    (fatalAborts : Bool) (fuel : Nat) (s : Session σ) (trace : List Event)
    (h : (ReadCommand s.macrostream_).value = "exit".toList) :
    SessionStart_loop UI cs fatalAborts (fuel + 1) s trace =
      RunResult.mk (some (Outcome.returned s.prev_))
        (Session.mk s.opened_ s.prev_ (ReadCommand s.macrostream_).stream s.ui)
        (trace ++ (ReadCommand s.macrostream_).log) := by
  simp only [SessionStart_loop, h, if_true]

/-- C9: (1) a line that is the single word `exit` makes ReadCommand return `exit`,
whatever follows it, just as an exhausted stream does; (2) in every state of
the loop of SessionStart in which ReadCommand returns `exit`, the loop is left
at once and the previous session is returned, with no event added to the
trace but the warnings of that read, so nothing is dispatched; (3) so with
the stream at a line `exit` SessionStart returns the previous session with the
trace it had, the lines after it left unread, and (4) it does exactly the
same on an exhausted stream. -/
theorem C9_exit_line {σ : Type} (UI : G4UImanager σ) (cs : G4UIcommandStatus)
    (fatalAborts : Bool) (fuel : Nat) (prev : G4UIsessionPtr) (ui : σ) (trace : List Event)
    (tail : List Char) :
    ((ReadCommand (IStream.open ("exit".toList ++ NEWLINE :: tail))).value = "exit".toList ∧
      (ReadCommand (IStream.open [])).value = "exit".toList) ∧
    (∀ s : Session σ, (ReadCommand s.macrostream_).value = "exit".toList →
      SessionStart_loop UI cs fatalAborts (fuel + 1) s trace =
        RunResult.mk (some (Outcome.returned s.prev_))
          (Session.mk s.opened_ s.prev_ (ReadCommand s.macrostream_).stream s.ui)
          (trace ++ (ReadCommand s.macrostream_).log)) ∧
    (SessionStart_loop UI cs fatalAborts (fuel + 1)
        (Session.mk true prev (IStream.open ("exit".toList ++ NEWLINE :: tail)) ui) trace =
      RunResult.mk (some (Outcome.returned prev)) (Session.mk true prev (IStream.open tail) ui)
        trace ∧
     SessionStart UI cs fatalAborts (fuel + 1)
        (Session.mk true prev (IStream.open ("exit".toList ++ NEWLINE :: tail)) ui) =
      RunResult.mk (some (Outcome.returned prev)) (Session.mk true prev (IStream.open tail) ui)
        []) ∧
    (SessionStart_loop UI cs fatalAborts (fuel + 1) (Session.mk true prev (IStream.open []) ui)
        trace =
      RunResult.mk (some (Outcome.returned prev))
        (Session.mk true prev (IStream.mk [] true true) ui) trace ∧
     SessionStart UI cs fatalAborts (fuel + 1) (Session.mk true prev (IStream.open []) ui) =
      RunResult.mk (some (Outcome.returned prev))
        (Session.mk true prev (IStream.mk [] true true) ui) []) := by
  have hempty : ReadCommand (IStream.open []) =
      ReadResult.mk "exit".toList (IStream.mk [] true true) [] := by decide
  refine ⟨⟨by rw [ReadCommand_exit_line], by rw [hempty]⟩, ?_, ⟨?_, ?_⟩, ⟨?_, ?_⟩⟩
  · intro s h
    exact SessionStart_loop_exit UI cs fatalAborts fuel s trace h
  · rw [SessionStart_loop_exit UI cs fatalAborts fuel _ trace (by rw [ReadCommand_exit_line])]
    simp only [ReadCommand_exit_line, List.append_nil]
  · simp only [SessionStart, Bool.not_true, Bool.false_eq_true, if_false]
    rw [SessionStart_loop_exit UI cs fatalAborts fuel _ [] (by rw [ReadCommand_exit_line])]
    simp only [ReadCommand_exit_line, List.append_nil]
  · rw [SessionStart_loop_exit UI cs fatalAborts fuel _ trace (by rw [hempty])]
    simp only [hempty, List.append_nil]
  · simp only [SessionStart, Bool.not_true, Bool.false_eq_true, if_false]
    rw [SessionStart_loop_exit UI cs fatalAborts fuel _ [] (by rw [hempty])]
    simp only [hempty, List.append_nil]

/-- C9 on the script `run`, ` exit # done`, `later`: after `run` is read, the
loop meets a line that reads as `exit` and returns without another event. -/
theorem C9_exit_line_witness :
    SessionStart_loop (G4UImanager.mk (fun (u : Unit) _ => (0, u)) (fun _ => 0))
        (G4UIcommandStatus.mk 0 100 200) true (0 + 1)
        (Session.mk true 7 (IStream.open " exit # done\nlater\n".toList) ()) [] =
      RunResult.mk (some (Outcome.returned 7))
        (Session.mk true 7 (ReadCommand (IStream.open " exit # done\nlater\n".toList)).stream ())
        ([] ++ (ReadCommand (IStream.open " exit # done\nlater\n".toList)).log) :=
  (C9_exit_line (G4UImanager.mk (fun (u : Unit) _ => (0, u)) (fun _ => 0))
    (G4UIcommandStatus.mk 0 100 200) true 0 7 () [] []).2.1
    (Session.mk true 7 (IStream.open " exit # done\nlater\n".toList) ()) (by decide)

/-! ## Claim C10 -/

/-- C10: for every status code `rc` that ApplyCommand returns, with the three named
codes distinct, ExecCommand takes exactly one case of its switch: the success
case exactly for the success code, raising no exception; the not-found case
exactly for the not-found code and the illegal-state case exactly for the
illegal-application-state code, each raising one exception of severity
FatalException; and the default case for every other code, raising one
exception of severity FatalException with `pn = rc % 100` (the remainder of
C++, echoed on the error console when the exception returns). -/
theorem C10_dispatch_total {σ : Type} (UI : G4UImanager σ) (cs : G4UIcommandStatus)
    (h1 : cs.fCommandSucceeded ≠ cs.fCommandNotFound)
    (h2 : cs.fCommandSucceeded ≠ cs.fIllegalApplicationState)
    (h3 : cs.fCommandNotFound ≠ cs.fIllegalApplicationState)
    (fatalAborts : Bool) (ui : σ) (command : G4String) :
    (∀ rc : Int,
      (ExecCommand_switch cs rc = DispatchStatus.Succeeded ↔ rc = cs.fCommandSucceeded) ∧
      (ExecCommand_switch cs rc = DispatchStatus.NotFound ↔ rc = cs.fCommandNotFound) ∧
      (ExecCommand_switch cs rc = DispatchStatus.IllegalState ↔
        rc = cs.fIllegalApplicationState) ∧
      (ExecCommand_switch cs rc = DispatchStatus.IllegalParameter (Int.tmod rc 100) ↔
        (rc ≠ cs.fCommandSucceeded ∧ rc ≠ cs.fCommandNotFound ∧
          rc ≠ cs.fIllegalApplicationState))) ∧
    ((UI.ApplyCommand ui command).1 = cs.fCommandSucceeded →
      (ExecCommand UI cs fatalAborts ui command).events = [Event.apply command] ∧
      (ExecCommand UI cs fatalAborts ui command).rc = some (UI.ApplyCommand ui command).1) ∧
    ((UI.ApplyCommand ui command).1 = cs.fCommandNotFound →
      (ExecCommand UI cs fatalAborts ui command).events =
        [Event.apply command,
          Event.exception "[BatchSession]" "ExecCommand()" G4ExceptionSeverity.FatalException
            ("Command not found: ".toList ++ command)]) ∧
    ((UI.ApplyCommand ui command).1 = cs.fIllegalApplicationState →
      (ExecCommand UI cs fatalAborts ui command).events =
        [Event.apply command,
          Event.exception "[BatchSession]" "ExecCommand()" G4ExceptionSeverity.FatalException
            ("Illegal application state: ".toList ++ command)]) ∧
    ((UI.ApplyCommand ui command).1 ≠ cs.fCommandSucceeded →
      (UI.ApplyCommand ui command).1 ≠ cs.fCommandNotFound →
      (UI.ApplyCommand ui command).1 ≠ cs.fIllegalApplicationState →
      (ExecCommand UI cs fatalAborts ui command).events =
        [Event.apply command,
          Event.exception "[BatchSession]" "ExecCommand()" G4ExceptionSeverity.FatalException
            ("Illegal parameter: ".toList ++ command)] ++
        (if fatalAborts then []
         else [Event.cerr (Int.tmod (UI.ApplyCommand ui command).1 100) command])) := by
  refine ⟨?_, ?_, ?_, ?_, ?_⟩
  · intro rc
    unfold ExecCommand_switch
    by_cases a : rc = cs.fCommandSucceeded
    · have b : rc ≠ cs.fCommandNotFound := fun h => h1 (a.symm.trans h)
      have c : rc ≠ cs.fIllegalApplicationState := fun h => h2 (a.symm.trans h)
      simp [a, h1, h2]
    · by_cases b : rc = cs.fCommandNotFound
      · simp [b, h1.symm, h3]
      · by_cases c : rc = cs.fIllegalApplicationState
        · simp [c, h2.symm, h3.symm]
        · simp [a, b, c]
  · intro h
    simp [ExecCommand, ExecCommand_switch, h]
  · intro h
    simp [ExecCommand, ExecCommand_switch, h, h1.symm, execException]
  · intro h
    simp [ExecCommand, ExecCommand_switch, h, h2.symm, h3.symm, execException]
  · intro a b c
    simp only [ExecCommand, ExecCommand_switch, a, b, c, if_false, execException]

/-- C10 with the values of Geant4 (0, 100, 200) and an executor that answers 305:
the default case, with parameter index 5. -/
theorem C10_dispatch_total_witness :
    ExecCommand_switch (G4UIcommandStatus.mk 0 100 200) 305 =
      DispatchStatus.IllegalParameter (Int.tmod 305 100) :=
  ((C10_dispatch_total (G4UImanager.mk (fun (u : Unit) _ => (305, u)) (fun _ => 0))
    (G4UIcommandStatus.mk 0 100 200) (by decide) (by decide) (by decide) false ()
    "/run/x 1".toList).1 305).2.2.2.2 (by decide)

/-! ## Claim C20 -/

/-- The state of `Tokenize` after `n` iterations is the state at the head of the
loop for some split of the input, whatever the vector held at the start. -/
theorem Tokenize_loop_head (str : G4String) (tokens : List G4String) (n : Nat) :
    ∃ u v acc, str = u ++ v ∧
      Tokenize_loop str n (Tokenize_init str tokens) = headState (u ++ v) u.length acc := by
  induction n with
  | zero => exact ⟨[], str, tokens, rfl, rfl⟩
  | succ k ih =>
    obtain ⟨u, v, acc, hs, hst⟩ := ih
    subst hs
    rw [Tokenize_loop_succ, hst]
    cases shape v with
    | blank sp hsp =>
      have hb := headState_spaces u v acc
        (by simpa using dropWhile_stop _ v [] (spaces_pos v hsp) (by simp))
      refine ⟨u, v, acc, rfl, ?_⟩
      rw [hb]; rfl
    | quoteOpen sp q r hsp hq hr =>
      have hdone := headState_spaces (u ++ (sp ++ q :: r)) [] (acc ++ [q :: r]) (by simp)
      refine ⟨u ++ (sp ++ q :: r), [], acc ++ [q :: r], by simp, ?_⟩
      rw [hdone, headState_shape u sp r q hsp (isQuote_ne_space q hq), ← List.append_assoc,
        Tokenize_loop_step, Tokenize_body_quoteOpen (u ++ sp) r q hq hr]
      rfl
    | quoteClosed sp q m t hsp hq hm =>
      refine ⟨(u ++ sp) ++ q :: (m ++ [q]), t, acc ++ [q :: (m ++ [q])], by simp, ?_⟩
      rw [headState_shape u sp (m ++ q :: t) q hsp (isQuote_ne_space q hq) acc,
        ← List.append_assoc, Tokenize_loop_step,
        Tokenize_body_quoteClosed (u ++ sp) m t q hq hm]
      rfl
    | plain sp c m t hsp hc hq hm ht =>
      refine ⟨(u ++ sp) ++ c :: m, t, acc ++ [c :: m], by simp, ?_⟩
      rw [headState_shape u sp (m ++ t) c hsp hc acc, ← List.append_assoc, Tokenize_loop_step,
        Tokenize_body_plain (u ++ sp) m t c hc hq hm ht]
      rfl

theorem length_takeWhile_lt (p : Char → Bool) (l : List Char) (h : l.dropWhile p ≠ []) :
    (l.takeWhile p).length < l.length := by
  have h1 := congrArg List.length (List.takeWhile_append_dropWhile p l)
  rw [List.length_append] at h1
  have h2 : 0 < (l.dropWhile p).length := List.length_pos.2 h
  omega

/-- C20: whenever the body of the loop of Tokenize is about to run (its condition
holds after any number of iterations, whatever the vector held at the start),
`pos0` is not `npos` but an index of the input, so that `str[pos0]` reads a
character of the input and `substr` starts inside it; `pos` as the loop
condition sees it, and `pos` as `substr` uses it after the quote tests, are
each either `npos` or greater than `pos0` (and at most the length). -/
theorem C20_positions (str : G4String) (tokens : List G4String) (n : Nat)
    (hcond : Tokenize_cond (Tokenize_loop str n (Tokenize_init str tokens)) = true) :
    ∃ a, (Tokenize_loop str n (Tokenize_init str tokens)).pos0 = some a ∧ a < str.length ∧
      (charAt str (Tokenize_loop str n (Tokenize_init str tokens)).pos0).isSome = true ∧
      ((Tokenize_loop str n (Tokenize_init str tokens)).pos = none ∨
        ∃ b, (Tokenize_loop str n (Tokenize_init str tokens)).pos = some b ∧ a < b ∧
          b ≤ str.length) ∧
      (tokenEnd str (Tokenize_loop str n (Tokenize_init str tokens)) = none ∨
        ∃ b, tokenEnd str (Tokenize_loop str n (Tokenize_init str tokens)) = some b ∧ a < b ∧
          b ≤ str.length) := by
  obtain ⟨u, v, acc, hs, hst⟩ := Tokenize_loop_head str tokens n
  subst hs
  rw [hst] at hcond ⊢
  obtain ⟨sp, b, rfl, hsp, hb, -, -⟩ := split_while (fun c => c == ' ') v
  have hsp1 : ∀ x ∈ sp, x = ' ' := fun x hx => by simpa using hsp x hx
  cases b with
  | nil =>
    rw [headState_spaces u _ acc
      (by simpa using dropWhile_stop _ sp [] (spaces_pos sp hsp1) (by simp))] at hcond
    simp [Tokenize_cond] at hcond
  | cons c r =>
    have hc : c ≠ ' ' := by simpa using hb c rfl
    rw [headState_shape u sp r c hsp1 hc acc]
    have hpos : find_first_of ((u ++ sp) ++ c :: r) delimiter (some (u ++ sp).length) = none ∨
        ∃ b, find_first_of ((u ++ sp) ++ c :: r) delimiter (some (u ++ sp).length) = some b ∧
          (u ++ sp).length < b ∧ b ≤ (u ++ (sp ++ c :: r)).length := by
      rw [delimiter, find_first_of_append]
      by_cases hd : (c :: r).dropWhile (fun x => x != ' ') = []
      · left; simp [hd]
      · right
        have h1 := length_takeWhile_lt _ _ hd
        have h2 : (c :: r).takeWhile (fun x => x != ' ') =
            c :: r.takeWhile (fun x => x != ' ') := by simp [hc]
        refine ⟨(u ++ sp).length + ((c :: r).takeWhile (fun x => x != ' ')).length,
          by simp only [hd, if_false], ?_, ?_⟩
        · rw [h2]; simp
        · simp only [List.length_append, List.length_cons] at h1 ⊢; omega
    refine ⟨(u ++ sp).length, rfl, by simp, ?_, hpos, ?_⟩
    · simp only [← List.append_assoc, charAt_append]; rfl
    · by_cases hq : isQuote c
      · rw [← List.append_assoc, tokenEnd_quote (u ++ sp) r c hq, closingQuote_append]
        by_cases hd : r.dropWhile (fun x => x != c) = []
        · left; simp [hd]
        · right
          have h1 := length_takeWhile_lt _ _ hd
          refine ⟨(u ++ sp).length + 1 + (r.takeWhile (fun x => x != c)).length + 1,
            by simp only [hd, if_false], by omega, ?_⟩
          simp only [List.length_append, List.length_cons] at h1 ⊢; omega
      · rw [← List.append_assoc, tokenEnd_plain (u ++ sp) r c hq]
        simpa [List.append_assoc] using hpos

/-- C20 on the input `a "b c` before its second iteration: `pos0` is not
`npos`. -/
theorem C20_positions_witness :
    (Tokenize_loop "a \"b c".toList 1 (Tokenize_init "a \"b c".toList [])).pos0 ≠ none := by
  obtain ⟨a, h, -⟩ := C20_positions "a \"b c".toList [] 1 (by decide)
  rw [h]
  simp

/-! ## Claim C14 -/

theorem spec_split_spaces (sp v : List Char) (hsp : ∀ x ∈ sp, x = ' ') :
    spec_split (sp ++ v) = spec_split v := by
  induction sp with
  | nil => rfl
  | cons c cs ih =>
    have hc : c = ' ' := hsp c (by simp)
    subst hc
    have := ih (fun x hx => hsp x (by simp [hx]))
    simp only [spec_split, List.splitOn] at this ⊢
    rw [List.cons_append, List.splitOnP_cons]
    simpa using this

theorem spec_split_nil : spec_split [] = [] := by
  simp [spec_split, List.splitOn, List.splitOnP_nil]

theorem spec_split_run (w t : List Char) (hw : ∀ x ∈ w, x ≠ ' ') (hne : w ≠ [])
    (ht : ∀ x, t.head? = some x → x = ' ') : spec_split (w ++ t) = w :: spec_split t := by
  have hp : ∀ x ∈ w, ¬ (fun x : Char => x == ' ') x = true := fun x hx => by simpa using hw x hx
  have hwe : w.isEmpty = false := by cases w with
    | nil => exact absurd rfl hne
    | cons a b => rfl
  cases t with
  | nil =>
    simp only [List.append_nil, spec_split, List.splitOn, List.splitOnP_eq_single _ w hp,
      List.splitOnP_nil]
    simp [hwe]
  | cons c cs =>
    have hc : c = ' ' := ht c rfl
    subst hc
    simp only [spec_split, List.splitOn]
    rw [List.splitOnP_first _ w hp ' ' (by simp) cs, List.splitOnP_cons]
    simp [hwe]

/-- C14: for every input string that holds neither a double nor a single quote,
Tokenize returns exactly the input split on the space character with the
empty pieces removed (its maximal runs of characters other than the space,
from left to right), and no token holds a space. -/
theorem C14_no_quotes (str : G4String) (h : ∀ x ∈ str, ¬ isQuote x) :
    Tokenize str [] = spec_split str ∧ ∀ t ∈ Tokenize str [], ' ' ∉ t := by
  induction str using shape_induction with
  | hblank sp hsp =>
    have := spec_split_spaces sp [] hsp
    rw [List.append_nil, spec_split_nil] at this
    rw [Tokenize_blank sp hsp, this]
    simp
  | hopen sp q r hsp hq hr => exact absurd hq (h q (by simp))
  | hclosed sp q m t hsp hq hm ih => exact absurd hq (h q (by simp))
  | hplain sp c m t hsp hc hq hm ht ih =>
    have iht := ih (fun x hx => h x (by simp [hx]))
    have hcm : ∀ x ∈ c :: m, x ≠ ' ' := by
      intro x hx
      rcases List.mem_cons.1 hx with rfl | hx
      · exact hc
      · exact hm x hx
    have e : sp ++ c :: (m ++ t) = sp ++ ((c :: m) ++ t) := by simp
    rw [Tokenize_plain sp c m t hsp hc hq hm ht, e, spec_split_spaces _ _ hsp,
      spec_split_run (c :: m) t hcm (by simp) ht, iht.1]
    refine ⟨rfl, ?_⟩
    intro x hx
    rcases List.mem_cons.1 hx with rfl | hx
    · intro hmem; exact hcm ' ' hmem rfl
    · exact iht.2 x (by rw [iht.1]; exact hx)

/-- C14 on an input with leading, repeated and trailing spaces. -/
theorem C14_no_quotes_witness :
    Tokenize "  ab   c#d  e ".toList [] = spec_split "  ab   c#d  e ".toList :=
  (C14_no_quotes "  ab   c#d  e ".toList (by decide)).1

/-! ## Tokenizing joined tokens -/

/-- Leading spaces do not change the tokens. -/
theorem Tokenize_skip_spaces (sp v : List Char) (hsp : ∀ x ∈ sp, x = ' ') :
    Tokenize (sp ++ v) [] = Tokenize v [] := by
  have hall : ∀ sp1 : List Char, (∀ x ∈ sp1, x = ' ') → ∀ x ∈ sp ++ sp1, x = ' ' := by
    intro sp1 h1 x hx
    rcases List.mem_append.1 hx with h | h
    · exact hsp x h
    · exact h1 x h
  cases shape v with
  | blank sp1 hsp1 => rw [Tokenize_blank _ (hall v hsp1), Tokenize_blank _ hsp1]
  | quoteOpen sp1 q r hsp1 hq hr =>
    rw [← List.append_assoc, Tokenize_quoteOpen _ q r (hall sp1 hsp1) hq hr,
      Tokenize_quoteOpen sp1 q r hsp1 hq hr]
  | quoteClosed sp1 q m t hsp1 hq hm =>
    rw [← List.append_assoc, Tokenize_quoteClosed _ q m t (hall sp1 hsp1) hq hm,
      Tokenize_quoteClosed sp1 q m t hsp1 hq hm]
  | plain sp1 c m t hsp1 hc hq hm ht =>
    rw [← List.append_assoc, Tokenize_plain _ c m t (hall sp1 hsp1) hc hq hm ht,
      Tokenize_plain sp1 c m t hsp1 hc hq hm ht]

/-- The rest of a joined token list after its first token: nothing, or a space
and the other tokens joined. -/
theorem intercalate_cons (t : G4String) (ts : List G4String) :
    List.intercalate [' '] (t :: ts) =
      t ++ (if ts = [] then [] else ' ' :: List.intercalate [' '] ts) := by
  cases ts with
  | nil => simp [List.intercalate]
  | cons t1 ts => simp [intercalate_cons_cons]

theorem Tokenize_space_join (ts : List G4String) :
    Tokenize (if ts = [] then [] else ' ' :: List.intercalate [' '] ts) [] =
      Tokenize (List.intercalate [' '] ts) [] := by
  cases ts with
  | nil => simp [List.intercalate]
  | cons t1 ts =>
    simp only [List.cons_ne_nil, if_false]
    exact Tokenize_skip_spaces [' '] _ (by simp)

theorem join_rest_head (ts : List G4String) :
    ∀ x, (if ts = [] then [] else ' ' :: List.intercalate [' '] ts).head? = some x → x = ' ' := by
  intro x hx
  cases ts with
  | nil => simp at hx
  | cons t1 ts => simpa using hx.symm

/-- The tokens of a string joined by single spaces tokenize to themselves. -/
theorem Tokenize_join (str : G4String) :
    Tokenize (List.intercalate [' '] (Tokenize str [])) [] = Tokenize str [] := by
  induction str using shape_induction with
  | hblank sp hsp =>
    rw [Tokenize_blank sp hsp]
    exact Tokenize_blank [] (by simp)
  | hopen sp q r hsp hq hr =>
    rw [Tokenize_quoteOpen sp q r hsp hq hr]
    have := Tokenize_quoteOpen [] q r (by simp) hq hr
    simpa [List.intercalate] using this
  | hclosed sp q m t hsp hq hm ih =>
    rw [Tokenize_quoteClosed sp q m t hsp hq hm, intercalate_cons]
    have := Tokenize_quoteClosed [] q m
      (if Tokenize t [] = [] then [] else ' ' :: List.intercalate [' '] (Tokenize t []))
      (by simp) hq hm
    simp only [List.nil_append] at this
    simp only [List.cons_append, List.append_assoc, List.singleton_append, List.nil_append]
    rw [this, Tokenize_space_join, ih]
  | hplain sp c m t hsp hc hq hm ht ih =>
    rw [Tokenize_plain sp c m t hsp hc hq hm ht, intercalate_cons]
    have := Tokenize_plain [] c m
      (if Tokenize t [] = [] then [] else ' ' :: List.intercalate [' '] (Tokenize t []))
      (by simp) hc hq hm (join_rest_head _)
    simp only [List.nil_append] at this
    simp only [List.cons_append]
    rw [this, Tokenize_space_join, ih]

/-! ## Claim C12 -/

/-- C12: when the file cannot be opened the constructor raises the exception of
severity FatalException with the message `Cannot open macro file` and the
name, and the session it leaves (there is one when the exception returns) is
not opened and keeps the previous session it was given; SessionStart on any
session that is not opened returns the previous session at once, for every
number of iterations allowed, zero included: the session comes back
unchanged, so nothing was read from its stream, and the trace is empty, so
ReadCommand raised no warning and no command was dispatched. -/
theorem C12_not_opened {σ : Type} (UI : G4UImanager σ) (cs : G4UIcommandStatus)
    (file : G4String → Option (List Char)) (fatalAborts : Bool) (ui : σ) (filename : G4String)
    (prev : G4UIsessionPtr) (fuel : Nat) (hfile : file filename = none) :
    (BatchSession_new file fatalAborts ui filename prev).2 =
      [Event.exception "[BatchSession]" "BatchSession()" G4ExceptionSeverity.FatalException
        ("Cannot open macro file ".toList ++ filename)] ∧
    (∀ s, (BatchSession_new file fatalAborts ui filename prev).1 = some s →
      s.opened_ = false ∧ s.prev_ = prev) ∧
    (fatalAborts = false →
      ((BatchSession_new file fatalAborts ui filename prev).1).isSome = true) ∧
    (∀ s : Session σ, s.opened_ = false →
      SessionStart UI cs fatalAborts fuel s =
        RunResult.mk (some (Outcome.returned s.prev_)) s [] ∧
      dispatched (SessionStart UI cs fatalAborts fuel s).trace = []) := by
  refine ⟨?_, ?_, ?_, ?_⟩
  · simp [BatchSession_new, hfile]
  · intro s hs
    cases fatalAborts with
    | true => simp [BatchSession_new, hfile] at hs
    | false =>
      simp only [BatchSession_new, hfile, Bool.false_eq_true, if_false, Option.some.injEq] at hs
      subst hs
      exact ⟨rfl, rfl⟩
  · intro hf
    subst hf
    simp [BatchSession_new, hfile]
  · intro s hs
    simp [SessionStart, hs, dispatched]

/-- C12 with no file at all, an exception that returns, and a script left in the
stream of a session that is not opened. -/
theorem C12_not_opened_witness :
    (BatchSession_new (fun _ => none) false () "macro.mac".toList 7).2 =
      [Event.exception "[BatchSession]" "BatchSession()" G4ExceptionSeverity.FatalException
        ("Cannot open macro file ".toList ++ "macro.mac".toList)] ∧
    SessionStart (G4UImanager.mk (fun (u : Unit) _ => (0, u)) (fun _ => 0))
        (G4UIcommandStatus.mk 0 100 200) false 3
        (Session.mk false 7 (IStream.open "run\n".toList) ()) =
      RunResult.mk (some (Outcome.returned 7))
        (Session.mk false 7 (IStream.open "run\n".toList) ()) [] :=
  ⟨(C12_not_opened (G4UImanager.mk (fun (u : Unit) _ => (0, u)) (fun _ => 0))
      (G4UIcommandStatus.mk 0 100 200) (fun _ => none) false () "macro.mac".toList 7 3 rfl).1,
   ((C12_not_opened (G4UImanager.mk (fun (u : Unit) _ => (0, u)) (fun _ => 0))
      (G4UIcommandStatus.mk 0 100 200) (fun _ => none) false () "macro.mac".toList 7 3
      rfl).2.2.2 (Session.mk false 7 (IStream.open "run\n".toList) ()) rfl).1⟩

/-! ## Claim C15 -/

theorem appendTokens_append (cmdtotal : G4String) (ts us : List G4String) :
    appendTokens cmdtotal (ts ++ us) = appendTokens (appendTokens cmdtotal ts) us := by
  simp [appendTokens, List.foldl_append]

theorem appendTokens_length_le (ts : List G4String) : ∀ cmdtotal : G4String,
    cmdtotal.length ≤ (appendTokens cmdtotal ts).length := by
  induction ts with
  | nil => intro c; exact le_refl _
  | cons t ts ih =>
    intro c
    have := ih (c ++ t ++ [' '])
    simp only [appendTokens, List.foldl_cons] at this ⊢
    simp only [List.length_append, List.length_singleton] at this
    omega

theorem appendTokens_ne_nil (cmdtotal : G4String) (ts : List G4String) (h : ts ≠ []) :
    ((appendTokens cmdtotal ts).length != 0) = true := by
  cases ts with
  | nil => exact absurd rfl h
  | cons t ts =>
    have := appendTokens_length_le ts (cmdtotal ++ t ++ [' '])
    simp only [List.length_append, List.length_singleton] at this
    have h2 : (appendTokens cmdtotal (t :: ts)).length ≠ 0 := by
      simp only [appendTokens, List.foldl_cons] at this ⊢
      omega
    simpa using h2

/-- The scan of the tokens of a line appends the tokens that come before the
first comment or marker and goes on from there. -/
theorem ReadCommand_scan_append (pre rest : List G4String) : ∀ cmdtotal : G4String,
    (∀ t ∈ pre, ¬ isComment t ∧ ¬ isMarker t) →
    ReadCommand_scan (pre ++ rest) cmdtotal =
      ReadCommand_scan rest (appendTokens cmdtotal pre) := by
  induction pre with
  | nil => intro cmdtotal _; rfl
  | cons t ts ih =>
    intro cmdtotal hpre
    have h1 : ¬ (t.head? = some '#') := (hpre t (by simp)).1
    have h2 : ¬ (t.head? = some BACKSLASH ∨ t.head? = some '_') := (hpre t (by simp)).2
    simp only [List.cons_append, ReadCommand_scan, h1, h2, if_false, appendTokens,
      List.foldl_cons]
    exact ih _ (fun x hx => hpre x (by simp [hx]))

theorem ReadCommand_scan_comment (pre : List G4String) (cm : G4String) (post : List G4String)
    (cmdtotal : G4String) (hcm : isComment cm) (hpre : ∀ t ∈ pre, ¬ isComment t ∧ ¬ isMarker t) :
    ReadCommand_scan (pre ++ cm :: post) cmdtotal = (appendTokens cmdtotal pre, false, []) := by
  have h1 : cm.head? = some '#' := hcm
  rw [ReadCommand_scan_append pre _ cmdtotal hpre]
  simp only [ReadCommand_scan, h1, if_true]

/-- What the body of the loop of `ReadCommand` does with a line that is not a
comment line and whose scan ends with `qcontinued` unset and tokens
appended. -/
theorem ReadCommand_process_stop (cmdtotal : G4String) (q : Bool) (cmdline : G4String)
    (eof : Bool) (toks : List G4String) (hnc : cmdline.head? ≠ some '#')
    (hne : Tokenize cmdline [] ≠ []) (happ : toks ≠ [])
    (hscan : ReadCommand_scan (Tokenize cmdline []) cmdtotal =
      (appendTokens cmdtotal toks, false, [])) :
    ReadCommand_process cmdtotal q cmdline eof =
      (Flow.stop, appendTokens cmdtotal toks, false, []) := by
  have hlen : (cmdline.length == 0) = false := by
    cases cmdline with
    | nil => exact absurd (Tokenize_blank [] (by simp)) hne
    | cons c cs => rfl
  simp only [ReadCommand_process, hlen, Bool.and_false, hnc, hscan,
    appendTokens_ne_nil cmdtotal toks happ]
  simp

/-- C15: (1) when the line read is not a comment line and its tokens are `pre`,
none of which begins with `#`, a backslash or an underscore, then a token
that begins with `#`, then `post`, the body of the loop of ReadCommand
appends exactly the tokens of `pre` to `cmdtotal`, nothing of the comment
token or of `post`, raises no warning, leaves `qcontinued` unset and leaves
the loop, the command being complete; (2) when no token of the line begins
with `#`, a backslash or an underscore, wherever else a `#` may stand in a
token, all the tokens are appended; (3) so the line `a#b c #d e` gives the
command `a#b c`. -/
theorem C15_trailing_comment :
    (∀ (st : ReadState) (pre : List G4String) (cm : G4String) (post : List G4String),
      Tokenize (normalise (getline st.stream BUFSIZE).1) [] = pre ++ cm :: post →
      isComment cm → (∀ t ∈ pre, ¬ isComment t ∧ ¬ isMarker t) →
      (normalise (getline st.stream BUFSIZE).1).head? ≠ some '#' →
      ReadCommand_body st =
        (Flow.stop,
          ReadState.mk (appendTokens st.cmdtotal pre) false (getline st.stream BUFSIZE).2
            st.log)) ∧
    (∀ (st : ReadState) (toks : List G4String),
      Tokenize (normalise (getline st.stream BUFSIZE).1) [] = toks → toks ≠ [] →
      (∀ t ∈ toks, ¬ isComment t ∧ ¬ isMarker t) →
      ReadCommand_body st =
        (Flow.stop,
          ReadState.mk (appendTokens st.cmdtotal toks) false (getline st.stream BUFSIZE).2
            st.log)) ∧
    ReadCommand (IStream.open "a#b c #d e\nf\n".toList) =
      ReadResult.mk "a#b c".toList (IStream.open "f\n".toList) [] := by
  refine ⟨?_, ?_, by decide⟩
  · intro st pre cm post htok hcm hpre hline
    have hpne : pre ≠ [] := by
      intro h
      subst h
      exact hline ((normalise_first_token _ cm post htok).symm.trans hcm)
    have hscan := ReadCommand_scan_comment pre cm post st.cmdtotal hcm hpre
    rw [← htok] at hscan
    simp only [ReadCommand_body, ReadCommand_process_stop st.cmdtotal st.qcontinued _ _ pre hline
      (by rw [htok]; simp) hpne hscan, List.append_nil]
  · intro st toks htok hne hclean
    have hline : (normalise (getline st.stream BUFSIZE).1).head? ≠ some '#' := by
      cases toks with
      | nil => exact absurd rfl hne
      | cons t ts =>
        rw [← normalise_first_token _ t ts htok]
        exact (hclean t (by simp)).1
    have hscan : ReadCommand_scan (Tokenize (normalise (getline st.stream BUFSIZE).1) [])
        st.cmdtotal = (appendTokens st.cmdtotal toks, false, []) := by
      rw [htok]; exact ReadCommand_scan_plain toks st.cmdtotal hclean
    simp only [ReadCommand_body, ReadCommand_process_stop st.cmdtotal st.qcontinued _ _ toks hline
      (by rw [htok]; exact hne) hne hscan, List.append_nil]

/-- C15 on the line `set x #y z` read while `go ` is held from a continued line. -/
theorem C15_trailing_comment_witness :
    ReadCommand_body (ReadState.mk "go ".toList true (IStream.open "set x #y z\nf".toList) []) =
      (Flow.stop,
        ReadState.mk (appendTokens "go ".toList ["set".toList, "x".toList]) false
          (getline (IStream.open "set x #y z\nf".toList) BUFSIZE).2 []) :=
  C15_trailing_comment.1
    (ReadState.mk "go ".toList true (IStream.open "set x #y z\nf".toList) [])
    ["set".toList, "x".toList] "#y".toList ["z".toList] (by decide) (by decide) (by decide)
    (by decide)

/-! ## Claim C18 -/

/-- C18: (1) when the loop of ReadCommand has a continuation pending
(`qcontinued` set) and a command accumulated that is not blank, and the line
read is blank once normalised, the line is not skipped: the call returns the
accumulated command, stripped, and the stream stands right after the blank
line, so that the next call starts a new command there; (2) when no
continuation is pending a blank line is skipped: the loop goes round again
with `cmdtotal`, `qcontinued` and the warnings unchanged; (3) so on the lines
`a \`, an empty line, `b \`, `c`, the first call returns `a` and the second
`b c`. -/
theorem C18_blank_line :
    (∀ (st : ReadState) (fuel : Nat), st.stream.good = true → st.qcontinued = true →
      normalise (getline st.stream BUFSIZE).1 = [] → strip_copy st.cmdtotal ≠ [] →
      ReadCommand_finish (ReadCommand_loop (fuel + 1) st) =
        ReadResult.mk (strip_copy st.cmdtotal) (getline st.stream BUFSIZE).2 st.log) ∧
    (∀ st : ReadState, st.qcontinued = false →
      normalise (getline st.stream BUFSIZE).1 = [] →
      ReadCommand_body st =
        (Flow.next, ReadState.mk st.cmdtotal false (getline st.stream BUFSIZE).2 st.log)) ∧
    (ReadCommand (IStream.open "a \\\n\nb \\\nc\n".toList) =
        ReadResult.mk "a".toList (IStream.open "b \\\nc\n".toList) [] ∧
      ReadCommand (IStream.open "b \\\nc\n".toList) =
        ReadResult.mk "b c".toList (IStream.open []) []) := by
  refine ⟨?_, ?_, by decide⟩
  · intro st fuel hg hq hblank hcmd
    have hne : (st.cmdtotal.length != 0) = true := by
      cases h : st.cmdtotal with
      | nil => rw [h] at hcmd; exact absurd (by decide) hcmd
      | cons c cs => rfl
    have hs : ((strip_copy st.cmdtotal).length == 0) = false := by
      cases h : strip_copy st.cmdtotal with
      | nil => exact absurd h hcmd
      | cons c cs => rfl
    have hp : ReadCommand_process st.cmdtotal st.qcontinued
        (normalise (getline st.stream BUFSIZE).1) (getline st.stream BUFSIZE).2.eof =
        (Flow.stop, st.cmdtotal, false, []) := by
      rw [hblank, hq]
      simp only [ReadCommand_process, Bool.not_true, Bool.false_and, List.head?_nil,
        Tokenize_blank [] (by simp), ReadCommand_scan, hne]
      simp
    simp only [ReadCommand_loop, hg, if_true, ReadCommand_body, hp, ReadCommand_finish, hs,
      Bool.and_false, List.append_nil]
    simp
  · intro st hq hblank
    simp only [ReadCommand_body, hblank, hq, ReadCommand_process]
    simp

/-- C18 with `a ` held from the continued line `a \` and an empty line read. -/
theorem C18_blank_line_witness :
    ReadCommand_finish (ReadCommand_loop (0 + 1)
        (ReadState.mk "a ".toList true (IStream.open "\nb\n".toList) [])) =
      ReadResult.mk (strip_copy "a ".toList)
        (getline (IStream.open "\nb\n".toList) BUFSIZE).2 [] :=
  C18_blank_line.1 (ReadState.mk "a ".toList true (IStream.open "\nb\n".toList) []) 0
    (by decide) (by decide) (by decide) (by decide)

/-! ## Commands of several lines -/

/-- Every token begins with a character other than a space. -/
theorem Tokenize_tokens_head (str : G4String) :
    ∀ t ∈ Tokenize str [], ∃ c r, t = c :: r ∧ c ≠ ' ' := by
  induction str using shape_induction with
  | hblank sp hsp => simp [Tokenize_blank sp hsp]
  | hopen sp q r hsp hq hr =>
    rw [Tokenize_quoteOpen sp q r hsp hq hr]
    intro t ht
    simp only [List.mem_singleton] at ht
    exact ⟨q, r, ht, isQuote_ne_space q hq⟩
  | hclosed sp q m t hsp hq hm ih =>
    rw [Tokenize_quoteClosed sp q m t hsp hq hm]
    intro x hx
    rcases List.mem_cons.1 hx with rfl | hx
    · exact ⟨q, m ++ [q], rfl, isQuote_ne_space q hq⟩
    · exact ih x hx
  | hplain sp c m t hsp hc hq hm ht ih =>
    rw [Tokenize_plain sp c m t hsp hc hq hm ht]
    intro x hx
    rcases List.mem_cons.1 hx with rfl | hx
    · exact ⟨c, m, rfl, hc⟩
    · exact ih x hx

theorem appendTokens_eq (ts : List G4String) : ∀ cmdtotal : G4String,
    appendTokens cmdtotal ts = cmdtotal ++ (ts.map (fun t => t ++ [' '])).flatten := by
  induction ts with
  | nil => intro c; simp [appendTokens]
  | cons t ts ih =>
    intro c
    have := ih (c ++ t ++ [' '])
    simp only [appendTokens, List.foldl_cons] at this ⊢
    rw [this]
    simp

theorem flatten_spaced (ts : List G4String) (h : ts ≠ []) :
    (ts.map (fun t => t ++ [' '])).flatten = List.intercalate [' '] ts ++ [' '] := by
  induction ts with
  | nil => exact absurd rfl h
  | cons t ts ih =>
    cases ts with
    | nil => simp [List.intercalate]
    | cons t1 ts =>
      have := ih (by simp)
      rw [List.map_cons, List.flatten_cons, this, intercalate_cons_cons]
      simp

/-- The accumulated command of the tokens `ts`: the tokens joined by single
spaces, and one more space. -/
theorem appendTokens_join (ts : List G4String) (h : ts ≠ []) :
    appendTokens [] ts = List.intercalate [' '] ts ++ [' '] := by
  rw [appendTokens_eq, List.nil_append, flatten_spaced ts h]

theorem join_head (t : G4String) (ts : List G4String) (c : Char) (r : List Char)
    (ht : t = c :: r) : ∃ r1, List.intercalate [' '] (t :: ts) = c :: r1 := by
  subst ht
  rw [intercalate_cons]
  exact ⟨_, rfl⟩

theorem rstrip_copy_snoc (x : List Char) : rstrip_copy (x ++ [' ']) ' ' = rstrip_copy x ' ' := by
  simp [rstrip_copy]

theorem lstrip_of_head (c : Char) (r : List Char) (hc : c ≠ ' ') :
    lstrip (c :: r) ' ' = c :: r := by
  simp [lstrip, hc]

/-- Stripping a string that begins with a character other than a space, with
one space added at its end, is stripping the string. -/
theorem strip_copy_snoc (c : Char) (r : List Char) (hc : c ≠ ' ') :
    strip_copy (c :: r ++ [' ']) = strip_copy (c :: r) := by
  have h1 : lstrip (c :: r ++ [' ']) ' ' = c :: r ++ [' '] := lstrip_of_head c (r ++ [' ']) hc
  rw [strip_copy, strip_copy, h1, lstrip_of_head c r hc]
  exact rstrip_copy_snoc (c :: r)

theorem rstrip_copy_last (x : List Char) (ch : Char) :
    (rstrip_copy x ch).getLast? ≠ some ch := by
  rw [rstrip_copy, List.getLast?_reverse]
  intro h
  have := List.head?_dropWhile_not (fun c => c == ch) x.reverse
  rw [h] at this
  simp at this

theorem rstrip_copy_id (x : List Char) (ch : Char) (h : x.getLast? ≠ some ch) :
    rstrip_copy x ch = x := by
  rw [rstrip_copy]
  have : x.reverse.dropWhile (fun c => c == ch) = x.reverse := by
    cases hx : x.reverse with
    | nil => rfl
    | cons a b =>
      have ha : x.getLast? = some a := by
        rw [List.getLast?_eq_head?_reverse, hx]; rfl
      have hne : a ≠ ch := fun e => h (by rw [ha, e])
      simp [hne]
  rw [this, List.reverse_reverse]

theorem rstrip_copy_ne_nil (x : List Char) (c : Char) (hc : c ≠ ' ') (hmem : c ∈ x) :
    rstrip_copy x ' ' ≠ [] := by
  intro h
  rw [rstrip_copy, List.reverse_eq_nil_iff, List.dropWhile_eq_nil_iff] at h
  have := h c (by simpa using hmem)
  exact hc (by simpa using this)

/-- The stripped string has no space at either end. -/
theorem strip_copy_ends (x : List Char) :
    (strip_copy x).head? ≠ some ' ' ∧ (strip_copy x).getLast? ≠ some ' ' := by
  refine ⟨?_, rstrip_copy_last _ _⟩
  intro h
  obtain ⟨sp2, h2⟩ := rstrip_copy_initial (lstrip x ' ') ' '
  have h4 : (lstrip x ' ').head? = some ' ' := by
    rw [h2]; exact head?_append_of_head _ _ _ h
  have h5 := List.head?_dropWhile_not (fun c => c == ' ') x
  rw [lstrip] at h4
  rw [h4] at h5
  simp at h5

theorem continued_not_comment (l : List Char) (pre : List G4String) (h : isContinued l pre) :
    (normalise l).head? ≠ some '#' := by
  obtain ⟨mk, hmk, htok, hclean⟩ := h
  cases pre with
  | nil =>
    rw [← normalise_first_token _ mk [] htok]
    exact isMarker_not_comment mk hmk
  | cons t ts =>
    rw [← normalise_first_token _ t (ts ++ [mk]) htok]
    exact (hclean t (by simp)).1

/-- A continued line makes the loop of `ReadCommand` append its tokens, set
`qcontinued` and go on to the next line, with no warning. -/
theorem ReadCommand_from_continued_line (cmdtotal : G4String) (q : Bool) (log : List Event)
    (l : List Char) (pre : List G4String) (rest : List Char) (hl : isLine l)
    (hc : isContinued l pre) :
    ReadCommand_from (ReadState.mk cmdtotal q (IStream.open (l ++ NEWLINE :: rest)) log) =
      ReadCommand_from (ReadState.mk (appendTokens cmdtotal pre) true (IStream.open rest) log) := by
  have hnc := continued_not_comment l pre hc
  obtain ⟨mk, hmk, htok, hclean⟩ := hc
  rw [ReadCommand_from_line cmdtotal q log l rest hl.1 hl.2,
    ReadCommand_process_marker cmdtotal q _ false pre mk [] hnc htok hmk hclean]
  simp [ReadState.after, ReadCommand_after]

/-- A run of continued lines makes the loop of `ReadCommand` append the tokens of
all of them, in order. -/
theorem ReadCommand_from_continued (cont : List (List Char × List G4String)) (rest : List Char)
    (h : ∀ p ∈ cont, isLine p.1 ∧ isContinued p.1 p.2) :
    ∀ (cmdtotal : G4String) (q : Bool) (log : List Event),
    ReadCommand_from
        (ReadState.mk cmdtotal q (IStream.open (linesThen (cont.map Prod.fst) rest)) log) =
      ReadCommand_from
        (ReadState.mk (appendTokens cmdtotal (cont.map Prod.snd).flatten)
          (if cont = [] then q else true) (IStream.open rest) log) := by
  induction cont with
  | nil => intro cmdtotal q log; rfl
  | cons p ps ih =>
    intro cmdtotal q log
    have hp := h p (by simp)
    have e : linesThen ((p :: ps).map Prod.fst) rest =
        p.1 ++ NEWLINE :: linesThen (ps.map Prod.fst) rest := rfl
    rw [e, ReadCommand_from_continued_line cmdtotal q log p.1 p.2 _ hp.1 hp.2,
      ih (fun x hx => h x (by simp [hx]))]
    simp only [List.map_cons, List.flatten_cons, appendTokens_append, List.cons_ne_nil, if_false]
    cases ps <;> simp

/-- The accumulated command of tokens of lines, stripped: the tokens joined by
single spaces, stripped, and not empty. -/
theorem strip_appendTokens (ts : List G4String) (hne : ts ≠ [])
    (hhead : ∀ t ∈ ts, ∃ c r, t = c :: r ∧ c ≠ ' ') :
    strip_copy (appendTokens [] ts) = strip_copy (List.intercalate [' '] ts) ∧
      strip_copy (appendTokens [] ts) ≠ [] := by
  cases ts with
  | nil => exact absurd rfl hne
  | cons t ts =>
    obtain ⟨c, r, ht, hc⟩ := hhead t (by simp)
    obtain ⟨r1, hj⟩ := join_head t ts c r ht
    rw [appendTokens_join _ (by simp), hj]
    have e : c :: r1 ++ [' '] = c :: (r1 ++ [' ']) := rfl
    refine ⟨strip_copy_snoc c r1 hc, ?_⟩
    rw [strip_copy_snoc c r1 hc, strip_copy, lstrip_of_head c r1 hc]
    exact rstrip_copy_ne_nil _ c hc (by simp)

theorem join_getLast (ts : List G4String) (hhead : ∀ t ∈ ts, t ≠ []) :
    ∀ t, ts.getLast? = some t → (List.intercalate [' '] ts).getLast? = t.getLast? := by
  induction ts with
  | nil => intro t h; simp at h
  | cons a as ih =>
    intro t h
    cases as with
    | nil =>
      simp only [List.getLast?_singleton, Option.some.injEq] at h
      subst h
      simp [List.intercalate]
    | cons b bs =>
      rw [List.getLast?_cons_cons] at h
      have := ih (fun x hx => hhead x (by simp [hx])) t h
      rw [intercalate_cons_cons]
      have e : a ++ ' ' :: List.intercalate [' '] (b :: bs) =
          (a ++ [' ']) ++ List.intercalate [' '] (b :: bs) := by simp
      rw [e, List.getLast?_append, this]
      have hne : t ≠ [] := hhead t (by
        have := List.mem_of_getLast?_eq_some h
        simp only [List.mem_cons] at this ⊢
        exact Or.inr this)
      cases ht : t.getLast? with
      | none => rw [List.getLast?_eq_none_iff] at ht; exact absurd ht hne
      | some x => rfl

/-- What the last line of a command leads to: the loop of `ReadCommand` is left
with its tokens appended. -/
theorem ReadCommand_process_last (cmdtotal : G4String) (q : Bool) (l : List Char) (eof : Bool)
    (toks : List G4String) (htoks : Tokenize (normalise l) [] = toks) (hne : toks ≠ [])
    (hclean : cleanTokens toks) :
    ReadCommand_process cmdtotal q (normalise l) eof =
      (Flow.stop, appendTokens cmdtotal toks, false, []) := by
  have hline : (normalise l).head? ≠ some '#' := by
    cases toks with
    | nil => exact absurd rfl hne
    | cons t ts =>
      rw [← normalise_first_token _ t ts htoks]
      exact (hclean t (by simp)).1
  have hscan : ReadCommand_scan (Tokenize (normalise l) []) cmdtotal =
      (appendTokens cmdtotal toks, false, []) := by
    rw [htoks]; exact ReadCommand_scan_plain toks cmdtotal hclean
  exact ReadCommand_process_stop cmdtotal q _ eof toks hline (by rw [htoks]; exact hne) hne hscan

theorem linesThen_append (ls : List (List Char)) (l tail : List Char) :
    linesThen (ls ++ [l]) tail = linesThen ls (l ++ NEWLINE :: tail) := by
  simp [linesThen, List.foldr_append]

theorem ReadCommand_finish_stop (cmdtotal : G4String) (q : Bool) (stream : IStream)
    (log : List Event) (h : strip_copy cmdtotal ≠ []) :
    ReadCommand_finish (none, ReadState.mk cmdtotal q stream log) =
      ReadResult.mk (strip_copy cmdtotal) stream log := by
  have hs : ((strip_copy cmdtotal).length == 0) = false := by
    cases hx : strip_copy cmdtotal with
    | nil => exact absurd hx h
    | cons c cs => rfl
  simp [ReadCommand_finish, hs]

/-- A call of `ReadCommand` that meets continued lines and then a line of tokens
returns the tokens of all these lines, joined and stripped. -/
theorem ReadCommand_assembled (cont : List (List Char × List G4String)) (last : List Char)
    (toks : List G4String) (hcont : ∀ p ∈ cont, isLine p.1 ∧ isContinued p.1 p.2)
    (hlast : isLine last) (htoks : Tokenize (normalise last) [] = toks) (hne : toks ≠ [])
    (hclean : cleanTokens toks) :
    (∀ tail : List Char,
      ReadCommand (IStream.open (linesThen (cont.map Prod.fst ++ [last]) tail)) =
        ReadResult.mk (strip_copy (List.intercalate [' '] ((cont.map Prod.snd).flatten ++ toks)))
          (IStream.open tail) []) ∧
    ReadCommand (IStream.open (linesThen (cont.map Prod.fst) last)) =
      ReadResult.mk (strip_copy (List.intercalate [' '] ((cont.map Prod.snd).flatten ++ toks)))
        (IStream.mk [] true false) [] := by
  have hall : ∀ t ∈ (cont.map Prod.snd).flatten ++ toks, ∃ c r, t = c :: r ∧ c ≠ ' ' := by
    intro t ht
    rcases List.mem_append.1 ht with h | h
    · obtain ⟨pre, hpre, htp⟩ := List.mem_flatten.1 h
      obtain ⟨p, hp, rfl⟩ := List.mem_map.1 hpre
      obtain ⟨mk, -, htok, -⟩ := (hcont p hp).2
      exact Tokenize_tokens_head (normalise p.1) t (by rw [htok]; simp [htp])
    · exact Tokenize_tokens_head (normalise last) t (by rw [htoks]; exact h)
  have hallne : (cont.map Prod.snd).flatten ++ toks ≠ [] := by simp [hne]
  have hstrip := strip_appendTokens _ hallne hall
  have hproc := fun (c : G4String) (q eof : Bool) =>
    ReadCommand_process_last c q last eof toks htoks hne hclean
  constructor
  · intro tail
    rw [linesThen_append, ReadCommand_eq_from,
      ReadCommand_from_continued cont _ hcont [] false [],
      ReadCommand_from_line _ _ [] last tail hlast.1 hlast.2, hproc]
    simp only [ReadState.after, ReadCommand_after, ← appendTokens_append, List.append_nil]
    rw [ReadCommand_finish_stop _ _ _ _ hstrip.2, hstrip.1]
  · have hlne : last.isEmpty = false := by
      cases last with
      | nil =>
        have hn : normalise [] = [] := by decide
        rw [hn, Tokenize_blank [] (by simp)] at htoks
        exact absurd htoks.symm hne
      | cons c cs => rfl
    rw [ReadCommand_eq_from, ReadCommand_from_continued cont _ hcont [] false [],
      ReadCommand_from_last _ _ [] last hlast.1 hlast.2, hproc, hlne]
    simp only [ReadState.after, ReadCommand_after, ← appendTokens_append, List.append_nil]
    rw [ReadCommand_finish_stop _ _ _ _ hstrip.2, hstrip.1]

/-- The joined tokens are already stripped when the last token does not end with
a space. -/
theorem strip_join_id (ts : List G4String) (hne : ts ≠ [])
    (hhead : ∀ t ∈ ts, ∃ c r, t = c :: r ∧ c ≠ ' ')
    (hlast : ∀ t, ts.getLast? = some t → t.getLast? ≠ some ' ') :
    strip_copy (List.intercalate [' '] ts) = List.intercalate [' '] ts := by
  cases hts : ts with
  | nil => exact absurd hts hne
  | cons t0 ts0 =>
    subst hts
    obtain ⟨c, r, ht, hc⟩ := hhead t0 (by simp)
    obtain ⟨r1, hj⟩ := join_head t0 ts0 c r ht
    have hl : (List.intercalate [' '] (t0 :: ts0)).getLast? ≠ some ' ' := by
      cases hg : (t0 :: ts0).getLast? with
      | none => rw [List.getLast?_eq_none_iff] at hg; exact absurd hg (by simp)
      | some t =>
        rw [join_getLast _ (fun x hx => by
          obtain ⟨c, r, hx2, -⟩ := hhead x hx
          rw [hx2]; simp) t hg]
        exact hlast t hg
    rw [strip_copy]
    rw [hj] at hl ⊢
    rw [lstrip_of_head c r1 hc]
    exact rstrip_copy_id _ _ hl

/-! ## Lines longer than the buffer -/

theorem getline_extract_full (line : List Char) (c : Char) (rest : List Char)
    (hnl : ∀ x ∈ line, x ≠ NEWLINE) (hc : c ≠ NEWLINE) :
    getline_extract (line ++ c :: rest) line.length =
      (line, IStream.mk (c :: rest) false true) := by
  induction line with
  | nil => simp [getline_extract, hc]
  | cons a as ih =>
    have ha : a ≠ NEWLINE := hnl a (by simp)
    have := ih (fun x hx => hnl x (by simp [hx]))
    simp [getline_extract, ha, this]

/-- A line of `BUFSIZE` characters or more: `getline` stores the first
`BUFSIZE - 1` of them, leaves the others in the stream and sets failbit. -/
theorem getline_long (line : List Char) (c : Char) (rest : List Char)
    (hnl : ∀ x ∈ line, x ≠ NEWLINE) (hc : c ≠ NEWLINE) (hlen : line.length = BUFSIZE - 1) :
    getline (IStream.open (line ++ c :: rest)) BUFSIZE =
      (line, IStream.mk (c :: rest) false true) := by
  have h := getline_extract_full line c rest hnl hc
  rw [hlen] at h
  simp [getline, IStream.open, IStream.good, h]

theorem takeWhile_all (p : Char → Bool) (l : List Char) (h : ∀ x ∈ l, p x = true) :
    l.takeWhile p = l := List.takeWhile_eq_self_iff.2 h

theorem dropWhile_none (p : Char → Bool) (l : List Char) (h : ∀ x ∈ l, p x = false) :
    l.dropWhile p = l := by
  cases l with
  | nil => rfl
  | cons a as => simp [h a (by simp)]

/-- A line that holds no NUL, tab, space or carriage return is its own normalised
form. -/
theorem normalise_plain (l : List Char)
    (h : ∀ x ∈ l, x ≠ NUL ∧ x ≠ TAB ∧ x ≠ ' ' ∧ x ≠ ctrM) : normalise l = l := by
  have h1 : ofCString l = l := takeWhile_all _ l (fun x hx => by simpa using (h x hx).1)
  have h2 : replaceTabs l = l := by
    rw [replaceTabs]
    conv_rhs => rw [← List.map_id l]
    exact List.map_congr_left (fun x hx => by simp [(h x hx).2.1])
  have h3 : ∀ (ch : Char), (∀ x ∈ l, x ≠ ch) → rstrip_copy l ch = l := by
    intro ch hch
    rw [rstrip_copy, dropWhile_none _ l.reverse (fun x hx => by
      simpa using hch x (by simpa using hx)), List.reverse_reverse]
  have h4 : lstrip l ' ' = l := dropWhile_none _ l (fun x hx => by simpa using (h x hx).2.2.1)
  rw [normalise, h1, h2, strip_copy, h4, h3 ' ' (fun x hx => (h x hx).2.2.1),
    h3 ctrM (fun x hx => (h x hx).2.2.2)]

/-- A string of `a`s is one token. -/
theorem Tokenize_replicate (n : Nat) :
    Tokenize (List.replicate (n + 1) 'a') [] = [List.replicate (n + 1) 'a'] := by
  have := Tokenize_plain [] 'a' (List.replicate n 'a') [] (by simp) (by decide) (by decide)
    (fun x hx => by rw [List.eq_of_mem_replicate hx]; decide) (by simp)
  simpa [List.replicate_succ, Tokenize_blank [] (by simp)] using this

theorem replicate_plain (n : Nat) :
    ∀ x ∈ List.replicate n 'a', x ≠ NUL ∧ x ≠ TAB ∧ x ≠ ' ' ∧ x ≠ ctrM := by
  intro x hx
  rw [List.eq_of_mem_replicate hx]
  decide

theorem replicate_no_newline (n : Nat) : ∀ x ∈ List.replicate n 'a', x ≠ NEWLINE := by
  intro x hx
  rw [List.eq_of_mem_replicate hx]
  decide

/-- On a line of `BUFSIZE` letters `a` or more a call of `ReadCommand` returns the
first `BUFSIZE - 1` of them and leaves the stream failed, in the middle of
the line. -/
theorem ReadCommand_long_line (n : Nat) (rest : List Char) (hlen : n + 1 = BUFSIZE - 1) :
    ReadCommand (IStream.open (List.replicate (n + 1) 'a' ++ 'a' :: rest)) =
      ReadResult.mk (List.replicate (n + 1) 'a') (IStream.mk ('a' :: rest) false true) [] := by
  generalize hw : List.replicate (n + 1) 'a' = w
  have hplain : ∀ x ∈ w, x ≠ NUL ∧ x ≠ TAB ∧ x ≠ ' ' ∧ x ≠ ctrM := by
    rw [← hw]; exact replicate_plain (n + 1)
  have hnl : ∀ x ∈ w, x ≠ NEWLINE := by rw [← hw]; exact replicate_no_newline (n + 1)
  have hwl : w.length = BUFSIZE - 1 := by rw [← hw, List.length_replicate]; exact hlen
  have hcons : w = 'a' :: List.replicate n 'a' := by rw [← hw, List.replicate_succ]
  have hn : normalise w = w := normalise_plain _ hplain
  have htok : Tokenize (normalise w) [] = [w] := by
    rw [hn, ← hw]; exact Tokenize_replicate n
  have hclean : cleanTokens [w] := by
    intro t ht
    simp only [List.mem_singleton] at ht
    subst ht
    rw [hcons]
    constructor
    · simp only [isComment, List.head?_cons]; decide
    · simp only [isMarker, List.head?_cons]; decide
  have hp := ReadCommand_process_last [] false w false [w] htok (by simp) hclean
  have hg := getline_long w 'a' rest hnl (by decide) hwl
  have hs := strip_appendTokens [w] (by simp) (by
    intro t ht
    simp only [List.mem_singleton] at ht
    exact ⟨'a', List.replicate n 'a', by rw [ht, hcons], by decide⟩)
  have hj : strip_copy (List.intercalate [' '] [w]) = w := by
    have e : List.intercalate [' '] [w] = w := by simp [List.intercalate]
    rw [e, strip_copy, lstrip, dropWhile_none _ _ (fun x hx => by
      simpa using (hplain x hx).2.2.1)]
    rw [rstrip_copy, dropWhile_none _ _ (fun x hx => by
      simpa using (hplain x (by simpa using hx)).2.2.1), List.reverse_reverse]
  have hgood : (ReadState.mk [] false (IStream.open (w ++ 'a' :: rest)) []).stream.good = true :=
    rfl
  rw [ReadCommand_eq_from, ReadCommand_from_good _ hgood]
  simp only [ReadCommand_body, hg, hp, ReadCommand_after, List.append_nil, IStream.eof]
  rw [ReadCommand_finish_stop _ _ _ _ hs.2, hs.1, hj]

/-! ## Claim C13 -/

/-- C13 as stated fails on a line longer than the buffer: the physical line of
`BUFSIZE` letters `a` is one token that begins with none of `#`, backslash
and underscore, so with `k = 1` the claim has the call consume the line and
return the token; but `getline` stores only `BUFSIZE - 1` characters and sets
failbit, and the call returns `BUFSIZE - 1` letters and leaves the rest of
the line in a failed stream.  It fails too on the short line made of `x`, a
space, a double quote, `b`, a space and a carriage return: its tokens are `x`
and the open quote with `b` and the space, and the call returns their join
without its last space. -/
theorem C13_counterexample :
    Tokenize (normalise (List.replicate BUFSIZE 'a')) [] = [List.replicate BUFSIZE 'a'] ∧
    cleanTokens [List.replicate BUFSIZE 'a'] ∧
    ReadCommand (IStream.open (linesThen [List.replicate BUFSIZE 'a'] ['b'])) =
      ReadResult.mk (List.replicate (BUFSIZE - 1) 'a') (IStream.mk ['a', NEWLINE, 'b'] false true)
        [] ∧
    (ReadCommand (IStream.open (linesThen [List.replicate BUFSIZE 'a'] ['b']))).value ≠
      List.replicate BUFSIZE 'a' ∧
    (ReadCommand (IStream.open (linesThen [List.replicate BUFSIZE 'a'] ['b']))).stream ≠
      IStream.open ['b'] ∧
    Tokenize (normalise ['x', ' ', DQUOTE, 'b', ' ', ctrM]) [] = [['x'], [DQUOTE, 'b', ' ']] ∧
    (ReadCommand (IStream.open (linesThen [['x', ' ', DQUOTE, 'b', ' ', ctrM]] ['b']))).value =
      ['x', ' ', DQUOTE, 'b'] ∧
    (ReadCommand (IStream.open (linesThen [['x', ' ', DQUOTE, 'b', ' ', ctrM]] ['b']))).value ≠
      List.intercalate [' '] [['x'], [DQUOTE, 'b', ' ']] := by
  have hB : BUFSIZE = 4094 + 1 + 1 := by decide
  have hB1 : BUFSIZE - 1 = 4094 + 1 := by decide
  have hrc : ReadCommand (IStream.open (linesThen [List.replicate BUFSIZE 'a'] ['b'])) =
      ReadResult.mk (List.replicate (BUFSIZE - 1) 'a') (IStream.mk ['a', NEWLINE, 'b'] false true)
        [] := by
    have e : linesThen [List.replicate BUFSIZE 'a'] ['b'] =
        List.replicate (4094 + 1) 'a' ++ 'a' :: [NEWLINE, 'b'] := by
      simp only [linesThen, List.foldr]
      rw [hB, List.replicate_succ' (4094 + 1)]
      simp only [List.append_assoc, List.singleton_append]
    rw [e, hB1]
    exact ReadCommand_long_line 4094 [NEWLINE, 'b'] (by decide)
  refine ⟨?_, ?_, hrc, ?_, ?_, by decide, by decide, by decide⟩
  · rw [normalise_plain _ (replicate_plain BUFSIZE), hB]
    exact Tokenize_replicate (4094 + 1)
  · intro t ht
    simp only [List.mem_singleton] at ht
    subst ht
    rw [hB, List.replicate_succ]
    constructor
    · simp only [isComment, List.head?_cons]; decide
    · simp only [isMarker, List.head?_cons]; decide
  · rw [hrc]
    intro h
    have := congrArg List.length h
    simp only [List.length_replicate] at this
    revert this
    decide
  · rw [hrc]
    intro h
    have := congrArg IStream.failbit h
    revert this
    decide

/-- C13 amended: take `k - 1` continued lines (each one a physical line that the
buffer holds, whose tokens are tokens `pre` that begin with none of `#`,
backslash and underscore, followed by one last token that begins with a
backslash or an underscore) and then a line that the buffer holds and whose
tokens `toks`, at least one, begin with none of these characters.  A single
call of ReadCommand on a stream that begins with these `k` lines consumes
exactly them (the stream is left at `tail`, or at end of file when the last
line ends the file) and returns, with no warning, the tokens that are not
markers, in order, joined by single spaces and stripped; the result is not
empty and has no space at either end, and it is exactly the joined tokens
unless the last token ends with a space. -/
theorem C13_assembly (cont : List (List Char × List G4String)) (last : List Char)
    (toks : List G4String) (hcont : ∀ p ∈ cont, isLine p.1 ∧ isContinued p.1 p.2)
    (hlast : isLine last) (htoks : Tokenize (normalise last) [] = toks) (hne : toks ≠ [])
    (hclean : cleanTokens toks) :
    (∀ tail : List Char,
      ReadCommand (IStream.open (linesThen (cont.map Prod.fst ++ [last]) tail)) =
        ReadResult.mk (strip_copy (List.intercalate [' '] ((cont.map Prod.snd).flatten ++ toks)))
          (IStream.open tail) []) ∧
    ReadCommand (IStream.open (linesThen (cont.map Prod.fst) last)) =
      ReadResult.mk (strip_copy (List.intercalate [' '] ((cont.map Prod.snd).flatten ++ toks)))
        (IStream.mk [] true false) [] ∧
    strip_copy (List.intercalate [' '] ((cont.map Prod.snd).flatten ++ toks)) ≠ [] ∧
    (strip_copy (List.intercalate [' '] ((cont.map Prod.snd).flatten ++ toks))).head? ≠
      some ' ' ∧
    (strip_copy (List.intercalate [' '] ((cont.map Prod.snd).flatten ++ toks))).getLast? ≠
      some ' ' ∧
    ((∀ t, toks.getLast? = some t → t.getLast? ≠ some ' ') →
      strip_copy (List.intercalate [' '] ((cont.map Prod.snd).flatten ++ toks)) =
        List.intercalate [' '] ((cont.map Prod.snd).flatten ++ toks)) := by
  have hall : ∀ t ∈ (cont.map Prod.snd).flatten ++ toks, ∃ c r, t = c :: r ∧ c ≠ ' ' := by
    intro t ht
    rcases List.mem_append.1 ht with h | h
    · obtain ⟨pre, hpre, htp⟩ := List.mem_flatten.1 h
      obtain ⟨p, hp, rfl⟩ := List.mem_map.1 hpre
      obtain ⟨mk, -, htok, -⟩ := (hcont p hp).2
      exact Tokenize_tokens_head (normalise p.1) t (by rw [htok]; simp [htp])
    · exact Tokenize_tokens_head (normalise last) t (by rw [htoks]; exact h)
  have hallne : (cont.map Prod.snd).flatten ++ toks ≠ [] := by simp [hne]
  have hasm := ReadCommand_assembled cont last toks hcont hlast htoks hne hclean
  have hstrip := strip_appendTokens _ hallne hall
  refine ⟨hasm.1, hasm.2, ?_, (strip_copy_ends _).1, (strip_copy_ends _).2, ?_⟩
  · rw [← hstrip.1]; exact hstrip.2
  · intro hl
    refine strip_join_id _ hallne hall ?_
    intro t ht
    rw [List.getLast?_append] at ht
    cases hg : toks.getLast? with
    | none => rw [List.getLast?_eq_none_iff] at hg; exact absurd hg hne
    | some t1 =>
      rw [hg] at ht
      have ht1 : t1 = t := by simpa [Option.or] using ht
      subst ht1
      exact hl t1 hg

/-- C13 amended, on the lines `set \` and `value 5` followed by `rest`. -/
theorem C13_assembly_witness :
    ReadCommand (IStream.open (linesThen
        ([("set \\".toList, ["set".toList])].map Prod.fst ++ ["value 5".toList])
        "rest".toList)) =
      ReadResult.mk
        (strip_copy (List.intercalate [' ']
          (([("set \\".toList, ["set".toList])].map Prod.snd).flatten ++
            ["value".toList, "5".toList])))
        (IStream.open "rest".toList) [] :=
  (C13_assembly [("set \\".toList, ["set".toList])] "value 5".toList
    ["value".toList, "5".toList]
    (by
      intro p hp
      simp only [List.mem_singleton] at hp
      subst hp
      exact ⟨by decide, ⟨"\\".toList, by decide, by decide, by decide⟩⟩)
    (by decide) (by decide) (by decide) (by decide)).1 "rest".toList

/-! ## Claim C19 -/

/-- C19 as stated fails in its consequence for ReadCommand: the line made of a
double quote, `b`, a space and a carriage return normalises to the quote, `b`
and the space, which is one token (a quote left open); the command returned
has lost the space, and tokenizing it gives a different token. -/
theorem C19_counterexample :
    Tokenize (normalise [DQUOTE, 'b', ' ', ctrM]) [] = [[DQUOTE, 'b', ' ']] ∧
    cleanTokens [[DQUOTE, 'b', ' ']] ∧
    (ReadCommand (IStream.open [DQUOTE, 'b', ' ', ctrM, NEWLINE])).value = [DQUOTE, 'b'] ∧
    Tokenize (ReadCommand (IStream.open [DQUOTE, 'b', ' ', ctrM, NEWLINE])).value [] ≠
      Tokenize (normalise [DQUOTE, 'b', ' ', ctrM]) [] := by
  decide

/-- C19 amended: (1) for every input string, Tokenize applied to the tokens of the
string joined by single spaces returns the tokens of the string; (2) so for
every physical line that the buffer holds, whose tokens, at least one, begin
with none of `#`, backslash and underscore and whose last token does not end
with a space, the command that ReadCommand returns for that line tokenizes
to the tokens of the line. -/
theorem C19_retokenize :
    (∀ str : G4String,
      Tokenize (List.intercalate [' '] (Tokenize str [])) [] = Tokenize str []) ∧
    (∀ line tail : List Char, isLine line → Tokenize (normalise line) [] ≠ [] →
      cleanTokens (Tokenize (normalise line) []) →
      (∀ t, (Tokenize (normalise line) []).getLast? = some t → t.getLast? ≠ some ' ') →
      Tokenize (ReadCommand (IStream.open (line ++ NEWLINE :: tail))).value [] =
        Tokenize (normalise line) []) := by
  refine ⟨Tokenize_join, ?_⟩
  intro line tail hline hne hclean hlast
  have hasm := (ReadCommand_assembled [] line _ (by simp) hline rfl hne hclean).1 tail
  have e : linesThen (([] : List (List Char × List G4String)).map Prod.fst ++ [line]) tail =
      line ++ NEWLINE :: tail := rfl
  rw [e] at hasm
  rw [hasm]
  simp only [List.map_nil, List.flatten_nil, List.nil_append]
  rw [strip_join_id _ hne (Tokenize_tokens_head _) hlast, Tokenize_join]

/-- C19 amended, on a line with a quoted token, runs of spaces and a trailing
comment-free tail. -/
theorem C19_retokenize_witness :
    Tokenize (ReadCommand (IStream.open ("  a  \"b  c\"  d ".toList ++ NEWLINE :: "e".toList))).value
        [] =
      Tokenize (normalise "  a  \"b  c\"  d ".toList) [] :=
  C19_retokenize.2 "  a  \"b  c\"  d ".toList "e".toList (by decide) (by decide) (by decide)
    (by decide)

/-! ## Claim C17 -/

theorem ReadCommand_process_comment (cmdtotal : G4String) (q : Bool) (cmdline : G4String)
    (eof : Bool) (h : cmdline.head? = some '#') :
    ReadCommand_process cmdtotal q cmdline eof = (Flow.ret cmdline, cmdtotal, q, []) := by
  have hlen : (cmdline.length == 0) = false := by
    cases cmdline with
    | nil => simp at h
    | cons c cs => rfl
  simp [ReadCommand_process, hlen, h]

/-- After continued lines, a comment line is what the call returns. -/
theorem ReadCommand_continued_comment (cont : List (List Char × List G4String))
    (cl tail : List Char) (hcont : ∀ p ∈ cont, isLine p.1 ∧ isContinued p.1 p.2)
    (hcl : isLine cl) (hc : (normalise cl).head? = some '#') :
    ReadCommand (IStream.open (linesThen (cont.map Prod.fst ++ [cl]) tail)) =
      ReadResult.mk (normalise cl) (IStream.open tail) [] := by
  rw [linesThen_append, ReadCommand_eq_from, ReadCommand_from_continued cont _ hcont [] false [],
    ReadCommand_from_line _ _ [] cl tail hcl.1 hcl.2, ReadCommand_process_comment _ _ _ _ hc]
  simp [ReadState.after, ReadCommand_after]

/-- C17: (1) in the loop of ReadCommand, when the line read is a comment line, the
result of the call does not depend on the command accumulated so far nor on
`qcontinued`; (2) after any run of continued lines that the buffer holds
(each with tokens, then a marker as last token), a comment line that the
buffer holds is what ReadCommand returns, whole and alone, with the stream
left right after it; (3) SessionStart then goes on exactly as it would on
the rest of the stream alone, the comment echoed when the verbose level is
2: the tokens of the continued lines are in no later result and are never
dispatched. -/
theorem C17_comment_discards :
    (∀ (st : ReadState) (cmdtotal2 : G4String) (q2 : Bool) (fuel : Nat),
      st.stream.good = true →
      (normalise (getline st.stream BUFSIZE).1).head? = some '#' →
      ReadCommand_finish (ReadCommand_loop (fuel + 1) st) =
        ReadCommand_finish (ReadCommand_loop (fuel + 1)
          (ReadState.mk cmdtotal2 q2 st.stream st.log))) ∧
    (∀ (cont : List (List Char × List G4String)) (cl tail : List Char),
      (∀ p ∈ cont, isLine p.1 ∧ isContinued p.1 p.2) → isLine cl →
      (normalise cl).head? = some '#' →
      ReadCommand (IStream.open (linesThen (cont.map Prod.fst ++ [cl]) tail)) =
        ReadResult.mk (normalise cl) (IStream.open tail) [] ∧
      ∀ (σ : Type) (UI : G4UImanager σ) (cs : G4UIcommandStatus) (fatalAborts : Bool)
        (fuel : Nat) (prev : G4UIsessionPtr) (ui : σ) (trace : List Event),
        SessionStart_loop UI cs fatalAborts (fuel + 1)
            (Session.mk true prev (IStream.open (linesThen (cont.map Prod.fst ++ [cl]) tail)) ui)
            trace =
          SessionStart_loop UI cs fatalAborts fuel (Session.mk true prev (IStream.open tail) ui)
            (if UI.GetVerboseLevel ui = 2 then trace ++ [Event.cout (normalise cl)]
             else trace)) := by
  constructor
  · intro st cmdtotal2 q2 fuel hg hc
    have hp := fun (c : G4String) (q : Bool) =>
      ReadCommand_process_comment c q (normalise (getline st.stream BUFSIZE).1)
        (getline st.stream BUFSIZE).2.eof hc
    simp only [ReadCommand_loop, hg, if_true, ReadCommand_body, hp, ReadCommand_finish]
  · intro cont cl tail hcont hcl hc
    have hr := ReadCommand_continued_comment cont cl tail hcont hcl hc
    refine ⟨hr, ?_⟩
    intro σ UI cs fatalAborts fuel prev ui trace
    have hne : normalise cl ≠ "exit".toList := by
      intro h
      rw [h] at hc
      revert hc
      decide
    simp only [SessionStart_loop, hr, hne, if_false, hc, if_true, List.append_nil]

/-- C17 on the lines `set \`, `# note`, `run`. -/
theorem C17_comment_discards_witness :
    ReadCommand_finish (ReadCommand_loop (0 + 1)
        (ReadState.mk "set ".toList true (IStream.open "# note\nrun\n".toList) [])) =
      ReadCommand_finish (ReadCommand_loop (0 + 1)
        (ReadState.mk [] false (IStream.open "# note\nrun\n".toList) [])) ∧
    ReadCommand (IStream.open (linesThen
        ([("set \\".toList, ["set".toList])].map Prod.fst ++ ["# note".toList])
        "run\n".toList)) =
      ReadResult.mk (normalise "# note".toList) (IStream.open "run\n".toList) [] :=
  ⟨C17_comment_discards.1
      (ReadState.mk "set ".toList true (IStream.open "# note\nrun\n".toList) []) [] false 0
      (by decide) (by decide),
   (C17_comment_discards.2 [("set \\".toList, ["set".toList])] "# note".toList "run\n".toList
    (by
      intro p hp
      simp only [List.mem_singleton] at hp
      subst hp
      exact ⟨by decide, ⟨"\\".toList, by decide, by decide, by decide⟩⟩)
    (by decide) (by decide)).1⟩

/-! ## The commands of a session -/

theorem dispatched_append (a b : List Event) :
    dispatched (a ++ b) = dispatched a ++ dispatched b := by
  induction a with
  | nil => rfl
  | cons e es ih =>
    cases e <;> simp [dispatched, ih]

theorem dispatched_warnings (l : List Event) (h : ∀ e ∈ l, e = continuationWarning) :
    dispatched l = [] := by
  induction l with
  | nil => rfl
  | cons e es ih =>
    have he := h e (by simp)
    subst he
    simpa [dispatched, continuationWarning] using ih (fun x hx => h x (by simp [hx]))

theorem ReadCommand_scan_log (tokens : List G4String) : ∀ cmdtotal : G4String,
    ∀ e ∈ (ReadCommand_scan tokens cmdtotal).2.2, e = continuationWarning := by
  induction tokens with
  | nil => intro c e he; simp [ReadCommand_scan] at he
  | cons t ts ih =>
    intro c e he
    unfold ReadCommand_scan at he
    split at he
    · simp at he
    · split at he
      · split at he
        · simpa using he
        · simp at he
      · exact ih _ e he

theorem ReadCommand_process_log (cmdtotal : G4String) (q : Bool) (cmdline : G4String)
    (eof : Bool) : ∀ e ∈ (ReadCommand_process cmdtotal q cmdline eof).2.2.2,
    e = continuationWarning := by
  intro e he
  unfold ReadCommand_process at he
  split at he
  · simp at he
  · split at he
    · simp at he
    · have := ReadCommand_scan_log (Tokenize cmdline []) cmdtotal e
      simp only at he
      split at he
      · exact this he
      · split at he
        · exact this he
        · split at he
          · exact this he
          · exact this he

theorem ReadCommand_loop_log (fuel : Nat) : ∀ st : ReadState,
    (∀ e ∈ st.log, e = continuationWarning) →
    ∀ e ∈ (ReadCommand_loop fuel st).2.log, e = continuationWarning := by
  induction fuel with
  | zero => intro st h; exact h
  | succ n ih =>
    intro st h
    have hb : ∀ e ∈ (ReadCommand_body st).2.log, e = continuationWarning := by
      intro e he
      simp only [ReadCommand_body, List.mem_append] at he
      rcases he with he | he
      · exact h e he
      · exact ReadCommand_process_log _ _ _ _ e he
    unfold ReadCommand_loop
    split
    · cases hbody : ReadCommand_body st with
      | mk fl st1 =>
        rw [hbody] at hb
        cases fl with
        | ret v => exact hb
        | stop => exact hb
        | next => exact ih st1 hb
    · exact h

/-- The events of a call of `ReadCommand` are warnings of `ReadCommand`; none is a
command passed to the executor. -/
theorem ReadCommand_log (s : IStream) : dispatched (ReadCommand s).log = [] := by
  apply dispatched_warnings
  have h := ReadCommand_loop_log (s.rest.length + 1)
    (ReadState.mk [] false s []) (by simp)
  intro e he
  apply h e
  simp only [ReadCommand, ReadCommand_finish] at he
  split at he
  · exact he
  · split at he <;> exact he

theorem ExecCommand_dispatched {σ : Type} (UI : G4UImanager σ) (cs : G4UIcommandStatus)
    (fatalAborts : Bool) (ui : σ) (command : G4String) :
    dispatched (ExecCommand UI cs fatalAborts ui command).events = [command] := by
  unfold ExecCommand
  simp only
  split <;> cases fatalAborts <;> simp [dispatched, execException]

/-- When fatal exceptions return, or when the executor reports success for every
command, `ExecCommand` returns the status code. -/
theorem ExecCommand_returns {σ : Type} (UI : G4UImanager σ) (cs : G4UIcommandStatus)
    (fatalAborts : Bool) (ui : σ) (command : G4String)
    (h : fatalAborts = false ∨ ∀ u c, (UI.ApplyCommand u c).1 = cs.fCommandSucceeded) :
    (ExecCommand UI cs fatalAborts ui command).rc = some (UI.ApplyCommand ui command).1 := by
  unfold ExecCommand
  simp only
  rcases h with h | h
  · subst h
    split <;> rfl
  · have hs : ExecCommand_switch cs (UI.ApplyCommand ui command).1 = DispatchStatus.Succeeded := by
      simp [ExecCommand_switch, h ui command]
    rw [hs]

theorem ReadCommand_finish_stream (r : Option G4String × ReadState) :
    (ReadCommand_finish r).stream = r.2.stream := by
  unfold ReadCommand_finish
  split
  · rfl
  · simp only
    split <;> rfl

theorem ReadCommand_after_stream (log : List Event) (stream : IStream)
    (p : Flow × G4String × Bool × List Event) :
    (ReadCommand_after (ReadState.after log stream p)).stream = stream ∨
    ReadCommand_after (ReadState.after log stream p) =
      ReadCommand_from (ReadState.mk p.2.1 p.2.2.1 stream (log ++ p.2.2.2)) := by
  obtain ⟨fl, c, q, lg⟩ := p
  cases fl with
  | ret v => left; rfl
  | stop =>
    left
    simp only [ReadCommand_after, ReadState.after]
    rw [ReadCommand_finish_stream]
  | next => right; rfl

theorem ReadCommand_from_eof_stream (st : ReadState) (h : st.stream.eofbit = true) :
    (ReadCommand_from st).stream.eofbit = true := by
  rw [ReadCommand_from_not_good st (by simp [IStream.good, h]), ReadCommand_finish_stream]
  exact h

/-- A call of `ReadCommand` on a stream of lines that the buffer holds leaves the
stream at the end of the file or at the start of a later line. -/
theorem ReadCommand_from_lines_stream (lines : List (List Char)) :
    (∀ l ∈ lines, isLine l) →
    ∀ (cmdtotal : G4String) (q : Bool) (log : List Event),
      (ReadCommand_from (ReadState.mk cmdtotal q
        (IStream.open (List.intercalate [NEWLINE] lines)) log)).stream.eofbit = true ∨
      ∃ rest : List (List Char), rest.length < lines.length ∧ (∀ l ∈ rest, isLine l) ∧
        (ReadCommand_from (ReadState.mk cmdtotal q
          (IStream.open (List.intercalate [NEWLINE] lines)) log)).stream =
          IStream.open (List.intercalate [NEWLINE] rest) := by
  induction lines with
  | nil =>
    intro _ cmdtotal q log
    left
    have e : List.intercalate [NEWLINE] ([] : List (List Char)) = [] := rfl
    rw [e, ReadCommand_from_last cmdtotal q log [] (by simp) (by decide)]
    rcases ReadCommand_after_stream log (IStream.mk [] true ([] : List Char).isEmpty)
      (ReadCommand_process cmdtotal q (normalise []) true) with h | h
    · rw [h]
    · rw [h]
      exact ReadCommand_from_eof_stream _ rfl
  | cons l ls ih =>
    intro hall cmdtotal q log
    obtain ⟨hnl, hlen⟩ := hall l (by simp)
    cases ls with
    | nil =>
      left
      have e : List.intercalate [NEWLINE] [l] = l := by simp [List.intercalate, List.intersperse]
      rw [e, ReadCommand_from_last cmdtotal q log l hnl hlen]
      rcases ReadCommand_after_stream log (IStream.mk [] true l.isEmpty)
        (ReadCommand_process cmdtotal q (normalise l) true) with h | h
      · rw [h]
      · rw [h]
        exact ReadCommand_from_eof_stream _ rfl
    | cons l2 ls =>
      have hrest : ∀ x ∈ l2 :: ls, isLine x := fun x hx => hall x (by simp at hx ⊢; tauto)
      rw [intercalate_newline_cons, ReadCommand_from_line cmdtotal q log l _ hnl hlen]
      rcases ReadCommand_after_stream log (IStream.open (List.intercalate [NEWLINE] (l2 :: ls)))
        (ReadCommand_process cmdtotal q (normalise l) false) with h | h
      · right
        exact ⟨l2 :: ls, by simp, hrest, h⟩
      · rw [h]
        rcases ih hrest _ _ _ with h1 | ⟨rest, hlt, hr, heq⟩
        · left; exact h1
        · right
          exact ⟨rest, by simp only [List.length_cons] at hlt ⊢; omega, hr, heq⟩

theorem reachesExit_eof (n : Nat) (s : IStream) (h : s.eofbit = true) :
    reachesExit (n + 1) s = true := by
  have hs : s = IStream.mk s.rest true s.failbit := by
    cases s
    simp only [IStream.mk.injEq, true_and, and_true] at h ⊢
    exact h
  have hv : (ReadCommand s).value = "exit".toList := by
    rw [hs, ReadCommand_eq_from]
    exact ReadCommand_from_ended _ _ _
  simp [reachesExit, hv]

theorem reachesExit_mono (n : Nat) : ∀ (m : Nat) (s : IStream), n ≤ m →
    reachesExit n s = true → reachesExit m s = true := by
  induction n with
  | zero => intro m s _ h; simp [reachesExit] at h
  | succ n ih =>
    intro m s hm h
    cases m with
    | zero => omega
    | succ m =>
      simp only [reachesExit, Bool.or_eq_true, decide_eq_true_eq] at h ⊢
      rcases h with h | h
      · left; exact h
      · right; exact ih m _ (by omega) h

/-- A script of lines that the buffer holds is read to its end: one of the first
`lines.length + 2` calls of `ReadCommand` returns `exit`. -/
theorem reachesExit_lines (n : Nat) : ∀ lines : List (List Char), lines.length ≤ n →
    (∀ l ∈ lines, isLine l) →
    reachesExit (n + 2) (IStream.open (List.intercalate [NEWLINE] lines)) = true := by
  induction n with
  | zero =>
    intro lines hn hall
    simp only [reachesExit, Bool.or_eq_true, decide_eq_true_eq]
    right
    rcases ReadCommand_from_lines_stream lines hall [] false [] with h | ⟨rest, hlt, _, _⟩
    · have := reachesExit_eof 0 _ h
      simpa [reachesExit, ReadCommand_eq_from] using this
    · omega
  | succ n ih =>
    intro lines hn hall
    rw [reachesExit]
    simp only [Bool.or_eq_true, decide_eq_true_eq]
    right
    rcases ReadCommand_from_lines_stream lines hall [] false [] with h | ⟨rest, hlt, hr, heq⟩
    · exact reachesExit_eof (n + 1) _ h
    · rw [ReadCommand_eq_from, heq]
      exact ih rest (by omega) hr

/-- When one of the first `fuel` reads returns `exit` and `ExecCommand` returns from
every call, the loop of `SessionStart` returns the previous session, and the
commands it passes to the executor are the values read before `exit` that
are not comments, in order. -/
theorem SessionStart_loop_dispatched {σ : Type} (UI : G4UImanager σ) (cs : G4UIcommandStatus)
    (fatalAborts : Bool)
    (hret : fatalAborts = false ∨ ∀ u c, (UI.ApplyCommand u c).1 = cs.fCommandSucceeded)
    (fuel : Nat) : ∀ (s : Session σ) (trace : List Event),
    reachesExit fuel s.macrostream_ = true →
    (SessionStart_loop UI cs fatalAborts fuel s trace).outcome =
      some (Outcome.returned s.prev_) ∧
    dispatched (SessionStart_loop UI cs fatalAborts fuel s trace).trace =
      dispatched trace ++ (ReadCommand_values fuel s.macrostream_).filter isCommand := by
  induction fuel with
  | zero => intro s trace h; simp [reachesExit] at h
  | succ n ih =>
    intro s trace h
    simp only [reachesExit, Bool.or_eq_true, decide_eq_true_eq] at h
    unfold SessionStart_loop
    simp only
    by_cases hexit : (ReadCommand s.macrostream_).value = "exit".toList
    · simp [hexit, ReadCommand_values, dispatched_append, ReadCommand_log]
    · have hrest : reachesExit n (ReadCommand s.macrostream_).stream = true := by
        rcases h with h | h
        · exact absurd h hexit
        · exact h
      rw [if_neg hexit]
      by_cases hc : (ReadCommand s.macrostream_).value.head? = some '#'
      · rw [if_pos hc]
        have hv : ReadCommand_values (n + 1) s.macrostream_ =
            (ReadCommand s.macrostream_).value ::
              ReadCommand_values n (ReadCommand s.macrostream_).stream := by
          rw [ReadCommand_values, if_neg hexit]
        have hf : isCommand (ReadCommand s.macrostream_).value = false := by
          simp [isCommand, hc]
        obtain ⟨h1, h2⟩ := ih { s with macrostream_ := (ReadCommand s.macrostream_).stream }
          (if UI.GetVerboseLevel s.ui = 2 then
            trace ++ (ReadCommand s.macrostream_).log ++ [Event.cout (ReadCommand s.macrostream_).value]
           else trace ++ (ReadCommand s.macrostream_).log) hrest
        refine ⟨h1, ?_⟩
        rw [h2, hv, List.filter_cons_of_neg (by simp [hf])]
        congr 1
        split <;> simp [dispatched_append, ReadCommand_log, dispatched]
      · rw [if_neg hc]
        have hv : ReadCommand_values (n + 1) s.macrostream_ =
            (ReadCommand s.macrostream_).value ::
              ReadCommand_values n (ReadCommand s.macrostream_).stream := by
          rw [ReadCommand_values, if_neg hexit]
        have hf : isCommand (ReadCommand s.macrostream_).value = true := by
          simp [isCommand, hc]
        have hrc := ExecCommand_returns UI cs fatalAborts s.ui
          (ReadCommand s.macrostream_).value hret
        have hd := ExecCommand_dispatched UI cs fatalAborts s.ui
          (ReadCommand s.macrostream_).value
        simp only [hrc]
        obtain ⟨h1, h2⟩ := ih
          { opened_ := s.opened_, prev_ := s.prev_,
            macrostream_ := (ReadCommand s.macrostream_).stream,
            ui := (ExecCommand UI cs fatalAborts s.ui (ReadCommand s.macrostream_).value).ui }
          (if (UI.ApplyCommand s.ui (ReadCommand s.macrostream_).value).1 ≠ cs.fCommandSucceeded then
            trace ++ (ReadCommand s.macrostream_).log ++
              (ExecCommand UI cs fatalAborts s.ui (ReadCommand s.macrostream_).value).events ++
              [problemWarning]
           else trace ++ (ReadCommand s.macrostream_).log ++
              (ExecCommand UI cs fatalAborts s.ui (ReadCommand s.macrostream_).value).events) hrest
        refine ⟨h1, ?_⟩
        rw [h2, hv, List.filter_cons_of_pos (by simp [hf])]
        have : ∀ a b : List G4String, ∀ x, a ++ [x] ++ b = a ++ x :: b := by simp
        rw [← this]
        congr 1
        split <;> simp [dispatched_append, ReadCommand_log, hd, dispatched, problemWarning]

theorem ReadCommand_failed_stream (s : IStream) (hf : s.failbit = true)
    (he : s.eofbit = false) : ReadCommand s = ReadResult.mk [] s [] := by
  have hs : strip_copy [] = [] := by decide
  rw [ReadCommand_eq_from, ReadCommand_from_not_good _ (by simp [IStream.good, hf])]
  simp [ReadCommand_finish, IStream.eof, he, hs]

/-- Once the stream has failed short of the end of the file, the loop of
`SessionStart` with an executor that always succeeds never ends: every read
returns the empty string, which is passed to the executor. -/
theorem SessionStart_loop_failed_stream {σ : Type} (UI : G4UImanager σ)
    (cs : G4UIcommandStatus) (fatalAborts : Bool)
    (hsucc : ∀ u c, (UI.ApplyCommand u c).1 = cs.fCommandSucceeded)
    (stream : IStream) (hf : stream.failbit = true) (he : stream.eofbit = false)
    (fuel : Nat) : ∀ (opened : Bool) (prev : G4UIsessionPtr) (ui : σ) (trace : List Event),
    (SessionStart_loop UI cs fatalAborts fuel (Session.mk opened prev stream ui) trace).outcome =
      none := by
  induction fuel with
  | zero => intro opened prev ui trace; rfl
  | succ n ih =>
    intro opened prev ui trace
    have hx : ([] : G4String) ≠ "exit".toList := by decide
    unfold SessionStart_loop
    simp only [ReadCommand_failed_stream stream hf he, hx, if_false, List.head?_nil,
      ExecCommand_returns UI cs fatalAborts ui [] (Or.inr hsucc)]
    exact ih _ _ _ _

theorem replicate_ne_exit (n : Nat) : List.replicate (n + 1) 'a' ≠ "exit".toList := by
  intro h
  rw [List.replicate_succ] at h
  have he : "exit".toList = ['e', 'x', 'i', 't'] := rfl
  rw [he] at h
  exact absurd (List.cons.inj h).1 (by decide)

theorem replicate_not_comment (n : Nat) : (List.replicate (n + 1) 'a').head? ≠ some '#' := by
  rw [List.replicate_succ]
  simp

theorem reachesExit_failed_stream (s : IStream) (hf : s.failbit = true)
    (he : s.eofbit = false) (n : Nat) : reachesExit n s = false := by
  induction n with
  | zero => rfl
  | succ k ih =>
    have hx : ([] : G4String) ≠ "exit".toList := by decide
    simp [reachesExit, ReadCommand_failed_stream s hf he, hx, ih]

/-- On a script that is one line of `BUFSIZE` characters, with an executor that
always succeeds, the loop of `SessionStart` never ends. -/
theorem SessionStart_long_line {σ : Type} (UI : G4UImanager σ) (cs : G4UIcommandStatus)
    (fatalAborts : Bool) (hsucc : ∀ u c, (UI.ApplyCommand u c).1 = cs.fCommandSucceeded)
    (n : Nat) (hlen : n + 1 = BUFSIZE - 1) (fuel : Nat) (prev : G4UIsessionPtr) (ui : σ) :
    (SessionStart UI cs fatalAborts fuel
      (Session.mk true prev (IStream.open (List.replicate (n + 1) 'a' ++ ['a'])) ui)).outcome =
      none := by
  cases fuel with
  | zero => rfl
  | succ k =>
    rw [SessionStart]
    simp only [Bool.not_true, Bool.false_eq_true, if_false]
    unfold SessionStart_loop
    simp only [ReadCommand_long_line n [] hlen, replicate_ne_exit n, replicate_not_comment n,
      if_false, ExecCommand_returns UI cs fatalAborts ui _ (Or.inr hsucc)]
    exact SessionStart_loop_failed_stream UI cs fatalAborts hsucc _ rfl rfl k _ _ _ _

theorem reachesExit_long_line (n : Nat) (hlen : n + 1 = BUFSIZE - 1) (k : Nat) :
    reachesExit k (IStream.open (List.replicate (n + 1) 'a' ++ ['a'])) = false := by
  cases k with
  | zero => rfl
  | succ k =>
    rw [reachesExit, ReadCommand_long_line n [] hlen,
      reachesExit_failed_stream (IStream.mk ['a'] false true) rfl rfl k]
    simp only [Bool.or_false, decide_eq_false_iff_not]
    exact replicate_ne_exit n

/-! ## Claim C16 -/

/-- C16 as stated fails: on a script that is one line of `BUFSIZE` characters the
first read returns the first `BUFSIZE - 1` of them and leaves the stream
failed, not at the end of the file; after that no read returns `exit`, every
read returns the empty string, and with an executor that reports success for
every command SessionStart never returns the previous session, however many
iterations it is given. -/
theorem C16_counterexample :
    (∀ fuel : Nat,
      (SessionStart (G4UImanager.mk (fun (u : Unit) _ => (0, u)) (fun _ => 0))
        (G4UIcommandStatus.mk 0 100 200) true fuel
        (Session.mk true 7 (IStream.open (List.replicate BUFSIZE 'a')) ())).outcome = none) ∧
    (∀ n : Nat, reachesExit n (IStream.open (List.replicate BUFSIZE 'a')) = false) := by
  have hB : BUFSIZE = 4094 + 1 + 1 := by decide
  constructor
  · intro fuel
    rw [hB, List.replicate_succ']
    exact SessionStart_long_line _ _ true (fun _ _ => rfl) 4094 (by decide) fuel 7 ()
  · intro n
    rw [hB, List.replicate_succ']
    exact reachesExit_long_line 4094 (by decide) n

/-- C16 amended: for every script whose lines the buffer holds (fewer than
`BUFSIZE` characters each), run in an opened session with an executor that
reports success for every command, whether or not a fatal exception would
abort, and with at least `lines.length + 2` iterations allowed: one of the
reads returns `exit`, SessionStart returns the previous session, and the
commands it passes to the executor are exactly the successive results of
ReadCommand before the first `exit` whose first character is not `#`, each
one verbatim, once, in order. -/
theorem C16_dispatch_sequence {σ : Type} (UI : G4UImanager σ) (cs : G4UIcommandStatus)
    (fatalAborts : Bool) (prev : G4UIsessionPtr) (ui : σ) (lines : List (List Char))
    (fuel : Nat) (hlines : ∀ l ∈ lines, isLine l)
    (hsucc : ∀ u c, (UI.ApplyCommand u c).1 = cs.fCommandSucceeded)
    (hfuel : lines.length + 2 ≤ fuel) :
    reachesExit fuel (IStream.open (List.intercalate [NEWLINE] lines)) = true ∧
    (SessionStart UI cs fatalAborts fuel
      (Session.mk true prev (IStream.open (List.intercalate [NEWLINE] lines)) ui)).outcome =
      some (Outcome.returned prev) ∧
    dispatched (SessionStart UI cs fatalAborts fuel
      (Session.mk true prev (IStream.open (List.intercalate [NEWLINE] lines)) ui)).trace =
      (ReadCommand_values fuel (IStream.open (List.intercalate [NEWLINE] lines))).filter
        isCommand := by
  have hre := reachesExit_mono _ fuel _ hfuel (reachesExit_lines lines.length lines (le_refl _) hlines)
  have h := SessionStart_loop_dispatched UI cs fatalAborts (Or.inr hsucc) fuel
    (Session.mk true prev (IStream.open (List.intercalate [NEWLINE] lines)) ui) [] hre
  refine ⟨hre, ?_, ?_⟩
  · simpa [SessionStart] using h.1
  · simpa [SessionStart, dispatched] using h.2

/-- C16 amended, on a script of five lines with a comment, a continued command and
an `exit` before the last line: two commands are passed to the executor. -/
theorem C16_dispatch_sequence_witness :
    dispatched (SessionStart (G4UImanager.mk (fun (u : Unit) _ => (0, u)) (fun _ => 0))
      (G4UIcommandStatus.mk 0 100 200) true 8
      (Session.mk true 7 (IStream.open (List.intercalate [NEWLINE]
        ["/run/a 1".toList, "# note".toList, "/run/b \\".toList, " 2".toList, "exit".toList,
          "/run/c".toList])) ())).trace =
      ["/run/a 1".toList, "/run/b 2".toList] :=
  (C16_dispatch_sequence (G4UImanager.mk (fun (u : Unit) _ => (0, u)) (fun _ => 0))
    (G4UIcommandStatus.mk 0 100 200) true 7 ()
    ["/run/a 1".toList, "# note".toList, "/run/b \\".toList, " 2".toList, "exit".toList,
      "/run/c".toList] 8 (by decide) (fun _ _ => rfl) (by decide)).2.2.trans (by decide)

/-! ## Claim C11 -/

/-- C11 as stated fails: ExecCommand raises an exception of severity FatalException
for every status code other than success, and when that exception ends the
process (what Geant4 does unless an exception handler decides otherwise) the
session stops at the failed command. On the lines `a` and `b`, with an executor
that answers command-not-found, only `a` is passed to the executor and the
warning of SessionStart is never emitted. -/
theorem C11_counterexample :
    (SessionStart (G4UImanager.mk (fun (u : Unit) _ => (100, u)) (fun _ => 0))
      (G4UIcommandStatus.mk 0 100 200) true 5
      (Session.mk true 7 (IStream.open "a\nb\n".toList) ())).outcome = some Outcome.aborted ∧
    dispatched (SessionStart (G4UImanager.mk (fun (u : Unit) _ => (100, u)) (fun _ => 0))
      (G4UIcommandStatus.mk 0 100 200) true 5
      (Session.mk true 7 (IStream.open "a\nb\n".toList) ())).trace = ["a".toList] ∧
    problemWarning ∉ (SessionStart (G4UImanager.mk (fun (u : Unit) _ => (100, u)) (fun _ => 0))
      (G4UIcommandStatus.mk 0 100 200) true 5
      (Session.mk true 7 (IStream.open "a\nb\n".toList) ())).trace := by
  decide

/-- C11 amended: (1) in every state of the loop of SessionStart where the command
read is neither `exit` nor a comment and ExecCommand returns a status code
other than success (the fatal exception it raised did not end the process),
SessionStart emits the warning "A problem occurred with the previous command.
Keep reading the macro." and goes round the loop again on the rest of the
stream; (2) when fatal exceptions do not end the process, for every script
whose lines the buffer holds and every executor, whatever it answers,
SessionStart returns the previous session and every command read before the
first `exit` is passed to the executor; (3) when fatal exceptions end the
process, a command for which the executor does not answer success is the
last one dispatched: the run is aborted there and no warning follows. -/
theorem C11_failure_continues {σ : Type} (UI : G4UImanager σ) (cs : G4UIcommandStatus) :
    (∀ (fatalAborts : Bool) (fuel : Nat) (s : Session σ) (trace : List Event) (rc : Int),
      (ReadCommand s.macrostream_).value ≠ "exit".toList →
      (ReadCommand s.macrostream_).value.head? ≠ some '#' →
      (ExecCommand UI cs fatalAborts s.ui (ReadCommand s.macrostream_).value).rc = some rc →
      rc ≠ cs.fCommandSucceeded →
      SessionStart_loop UI cs fatalAborts (fuel + 1) s trace =
        SessionStart_loop UI cs fatalAborts fuel
          (Session.mk s.opened_ s.prev_ (ReadCommand s.macrostream_).stream
            (ExecCommand UI cs fatalAborts s.ui (ReadCommand s.macrostream_).value).ui)
          (trace ++ (ReadCommand s.macrostream_).log ++
            (ExecCommand UI cs fatalAborts s.ui (ReadCommand s.macrostream_).value).events ++
            [problemWarning])) ∧
    (∀ (prev : G4UIsessionPtr) (ui : σ) (lines : List (List Char)) (fuel : Nat),
      (∀ l ∈ lines, isLine l) → lines.length + 2 ≤ fuel →
      (SessionStart UI cs false fuel
        (Session.mk true prev (IStream.open (List.intercalate [NEWLINE] lines)) ui)).outcome =
        some (Outcome.returned prev) ∧
      dispatched (SessionStart UI cs false fuel
        (Session.mk true prev (IStream.open (List.intercalate [NEWLINE] lines)) ui)).trace =
        (ReadCommand_values fuel (IStream.open (List.intercalate [NEWLINE] lines))).filter
          isCommand) ∧
    (∀ (fuel : Nat) (s : Session σ) (trace : List Event),
      (ReadCommand s.macrostream_).value ≠ "exit".toList →
      (ReadCommand s.macrostream_).value.head? ≠ some '#' →
      (UI.ApplyCommand s.ui (ReadCommand s.macrostream_).value).1 ≠ cs.fCommandSucceeded →
      (SessionStart_loop UI cs true (fuel + 1) s trace).outcome = some Outcome.aborted ∧
      (SessionStart_loop UI cs true (fuel + 1) s trace).trace =
        trace ++ (ReadCommand s.macrostream_).log ++
          (ExecCommand UI cs true s.ui (ReadCommand s.macrostream_).value).events ∧
      problemWarning ∉
        (ExecCommand UI cs true s.ui (ReadCommand s.macrostream_).value).events) := by
  refine ⟨?_, ?_, ?_⟩
  · intro fatalAborts fuel s trace rc hx hc hrc hne
    rw [SessionStart_loop]
    simp only [hx, hc, if_false, hrc, hne, ne_eq, not_false_eq_true, if_true]
  · intro prev ui lines fuel hlines hfuel
    have hre := reachesExit_mono _ fuel _ hfuel
      (reachesExit_lines lines.length lines (le_refl _) hlines)
    have h := SessionStart_loop_dispatched UI cs false (Or.inl rfl) fuel
      (Session.mk true prev (IStream.open (List.intercalate [NEWLINE] lines)) ui) [] hre
    constructor
    · simpa [SessionStart] using h.1
    · simpa [SessionStart, dispatched] using h.2
  · intro fuel s trace hx hc hne
    have hs : ExecCommand_switch cs (UI.ApplyCommand s.ui (ReadCommand s.macrostream_).value).1 ≠
        DispatchStatus.Succeeded := by
      unfold ExecCommand_switch
      rw [if_neg hne]
      split
      · simp
      · split <;> simp
    have hrc : (ExecCommand UI cs true s.ui (ReadCommand s.macrostream_).value).rc = none := by
      unfold ExecCommand
      simp only
      split
      · rename_i h; exact absurd h hs
      · rfl
      · rfl
      · rfl
    have hev : problemWarning ∉
        (ExecCommand UI cs true s.ui (ReadCommand s.macrostream_).value).events := by
      unfold ExecCommand
      simp only
      split <;> simp [problemWarning, execException]
    refine ⟨?_, ?_, hev⟩
    · rw [SessionStart_loop]
      simp only [hx, hc, if_false, hrc]
    · rw [SessionStart_loop]
      simp only [hx, hc, if_false, hrc]

/-- C11 amended, on the lines `a` and `b` with an executor that answers
command-not-found and fatal exceptions that return: after `a` fails the
warning is emitted and the loop goes on, and both commands are dispatched. -/
theorem C11_failure_continues_witness :
    SessionStart_loop (G4UImanager.mk (fun (u : Unit) _ => (100, u)) (fun _ => 0))
        (G4UIcommandStatus.mk 0 100 200) false (3 + 1)
        (Session.mk true 7 (IStream.open "a\nb\n".toList) ()) [] =
      SessionStart_loop (G4UImanager.mk (fun (u : Unit) _ => (100, u)) (fun _ => 0))
        (G4UIcommandStatus.mk 0 100 200) false 3
        (Session.mk true 7 (IStream.open "b\n".toList) ())
        ([] ++ [] ++ [Event.apply "a".toList, execException "Command not found: " "a".toList] ++
          [problemWarning]) ∧
    dispatched (SessionStart (G4UImanager.mk (fun (u : Unit) _ => (100, u)) (fun _ => 0))
      (G4UIcommandStatus.mk 0 100 200) false 5
      (Session.mk true 7 (IStream.open (List.intercalate [NEWLINE]
        ["a".toList, "b".toList, []])) ())).trace = ["a".toList, "b".toList] :=
  ⟨(C11_failure_continues (G4UImanager.mk (fun (u : Unit) _ => (100, u)) (fun _ => 0))
      (G4UIcommandStatus.mk 0 100 200)).1 false 3
      (Session.mk true 7 (IStream.open "a\nb\n".toList) ()) [] 100
      (by decide) (by decide) (by decide) (by decide),
   ((C11_failure_continues (G4UImanager.mk (fun (u : Unit) _ => (100, u)) (fun _ => 0))
      (G4UIcommandStatus.mk 0 100 200)).2.1 7 () ["a".toList, "b".toList, []] 5
      (by decide) (by decide)).2.trans (by decide)⟩

end BatchSession
